import Mathlib

/-!
Verification development for the tdocs7 documentation-search core.

Strings are modelled as `List Char` (the JS string operations used by the
source are all code-point-wise scans).  Scores use `ℚ` (the source's numeric
literals 10, 2, 0.5, 1.2, 1.3 and the arithmetic on them are exact for the
statements proved here).  Regex-based splits and tests from `patterns.ts`
are embedded as explicit scans implementing the regexes' matching
semantics.
-/

set_option maxHeartbeats 1000000
set_option maxRecDepth 100000

attribute [local semireducible] Rat.add Rat.mul Rat.inv Rat.sub Rat.ofScientific

namespace TDocs

/-- JS whitespace (the `\s` character class and `String.trim`): ASCII blanks
plus the Unicode space characters, NBSP, BOM and line/paragraph separators. -/
def jsWs (c : Char) : Bool :=
  c = ' ' || c = '\t' || c = '\n' || c = '\r' || c.val = 11 || c.val = 12 ||
  c.val = 0xA0 || c.val = 0xFEFF || (0x2000 ≤ c.val && c.val ≤ 0x200A) ||
  c.val = 0x2028 || c.val = 0x2029 || c.val = 0x202F || c.val = 0x205F ||
  c.val = 0x3000 || c.val = 0x1680

/-- ECMAScript line terminators (`^`/`$` anchor points with the `m` flag,
and the characters excluded by `.`). -/
def isLineTerm (c : Char) : Bool :=
  c = '\n' || c = '\r' || c.val = 0x2028 || c.val = 0x2029

/-- JS regex `\w` word characters: ASCII letters, digits and underscore. -/
def isWordChar (c : Char) : Bool :=
  ('a' ≤ c && c ≤ 'z') || ('A' ≤ c && c ≤ 'Z') || ('0' ≤ c && c ≤ '9') || c = '_'

/-- Sentence-ending punctuation of `SEPARATION_PATTERNS.sentences`
(`(?<=[.!?])\s+`). -/
def isSentPunct (c : Char) : Bool :=
  c = '.' || c = '!' || c = '?'

/-- Cons a character onto the first piece of a piece list (used by the
splitting scans to build pieces from the left). -/
def consHead (c : Char) : List (List Char) → List (List Char)
  | [] => [[c]]
  | p :: ps => (c :: p) :: ps

/-- A piece is kept by the source's `.filter((chunk) => chunk.trim())`
exactly when it has a non-whitespace character. -/
def hasNonWs (cs : List Char) : Bool :=
  cs.any (fun c => !jsWs c)

/-- The non-whitespace characters of a string, in order.  Two strings are
"equal modulo whitespace normalization" when their `nonWs` images agree. -/
def nonWs (cs : List Char) : List Char :=
  cs.filter (fun c => !jsWs c)

/-- JS `String.trim` (drop leading and trailing whitespace). -/
def jsTrim (cs : List Char) : List Char :=
  ((cs.dropWhile jsWs).reverse.dropWhile jsWs).reverse

/-- Split on every single space character, JS `s.split(" ")`. -/
def splitSpace : List Char → List (List Char)
  | [] => [[]]
  | c :: rest => if c = ' ' then [] :: splitSpace rest else consHead c (splitSpace rest)

/-- Scan of JS `s.split(/\s+/)` (split on maximal whitespace runs; a
match at position 0 contributes a leading empty piece, as in JS).  The
flag records whether the scan is inside a whitespace run already
consumed by the current match. -/
def splitWsGo : Bool → List Char → List (List Char)
  | _, [] => [[]]
  | inRun, c :: rest =>
    if jsWs c then
      if inRun then splitWsGo true rest else [] :: splitWsGo true rest
    else consHead c (splitWsGo false rest)

/-- Split on maximal whitespace runs, JS `s.split(/\s+/)`. -/
def splitWsRuns (cs : List Char) : List (List Char) :=
  splitWsGo false cs

/-- Scan of `SEPARATION_PATTERNS.paragraphs` = `/\n{2,}/` used with
`String.split`: split on maximal runs of two or more newlines.  The flag
records whether the scan is inside a newline run already consumed by the
current match. -/
def paraSplitGo : Bool → List Char → List (List Char)
  | _, [] => [[]]
  | inRun, c :: rest =>
    if inRun && c = '\n' then paraSplitGo true rest
    else if c = '\n' && rest.head? = some '\n' then [] :: paraSplitGo true rest
    else consHead c (paraSplitGo false rest)

/-- Split on maximal runs of two or more newlines (`String.split` with
`SEPARATION_PATTERNS.paragraphs`). -/
def paraSplit (cs : List Char) : List (List Char) :=
  paraSplitGo false cs

/-- Scan of `SEPARATION_PATTERNS.sentences` = `/(?<=[.!?])\s+/` used with
`String.split`: split at whitespace runs that follow `.`, `!` or `?`; the
punctuation stays with the left piece and the (maximal) whitespace run is
consumed.  The flag records whether the scan is inside the whitespace run
of the current match. -/
def sentSplitGo : Bool → List Char → List (List Char)
  | _, [] => [[]]
  | inRun, c :: rest =>
    if inRun && jsWs c then sentSplitGo true rest
    else if isSentPunct c && (rest.head?.elim false jsWs) then
      [c] :: sentSplitGo true rest
    else consHead c (sentSplitGo false rest)

/-- Split at whitespace runs that follow sentence punctuation
(`String.split` with `SEPARATION_PATTERNS.sentences`). -/
def sentSplit (cs : List Char) : List (List Char) :=
  sentSplitGo false cs

/-- Helper for the header-boundary test: after the `#` run, the regex
`\s+.+$` (multiline) requires one whitespace character and then — after a
possibly longer whitespace run — some character that is not a line
terminator.  Backtracking analysis of `\s+.+$`: the tail `t` matches iff
its first character is whitespace and dropping subsequent line-terminator
characters from the rest leaves something (every line terminator is also
`\s`, and any non-line-terminator character can serve as the start of
`.+`). -/
def hdrTail : List Char → Bool
  | [] => false
  | c :: rest => jsWs c && !(rest.dropWhile isLineTerm).isEmpty

/-- Does a markdown header line start here?  Mirrors the zero-width
boundary `(?=^#{1,6}\s+.+$)` of `SEPARATION_PATTERNS.headers` at a
line-start position: a run of 1–6 `#` followed by `hdrTail`.  (A run of 7
or more `#` never matches: `#{1,6}` must be followed by `\s`, and every
backtracking position faces another `#`.) -/
def hdrBoundary (cs : List Char) : Bool :=
  let k := (cs.takeWhile (· = '#')).length
  1 ≤ k && k ≤ 6 && hdrTail (cs.drop k)

/-- JS `document.split(SEPARATION_PATTERNS.headers)`: cut immediately
before every line (other than the very first position, where JS skips the
empty match) that starts a markdown header.  Cut points are right after a
line terminator whose suffix satisfies `hdrBoundary`. -/
def headerSplitGo : List Char → List (List Char)
  | [] => [[]]
  | c :: rest =>
    if isLineTerm c && hdrBoundary rest then [c] :: headerSplitGo rest
    else consHead c (headerSplitGo rest)

/-- Does the string begin with a full horizontal-rule line (3+ `-`, 3+ `*`
or 3+ `=` running to the end of the line)?  From
`SEPARATION_PATTERNS.horizontalRules` = `/(?:^---+$|^\*{3,}$|^={3,}$)/gm`;
the line terminator after the rule is not part of the match. -/
def hrHead (cs : List Char) : Bool :=
  match cs.head? with
  | none => false
  | some c =>
    (c = '-' || c = '*' || c = '=') &&
    3 ≤ (cs.takeWhile (· = c)).length &&
    ((cs.dropWhile (· = c)).head?.elim true isLineTerm)

/-- Scan of JS `document.split(SEPARATION_PATTERNS.horizontalRules)`:
remove every full horizontal-rule line, cutting the document there.  The
first flag records whether the scan is at a line-start position; the
`Option Char` records the rule character of a run currently being
consumed. -/
def hrSplitGoS : Bool → Option Char → List Char → List (List Char)
  | _, _, [] => [[]]
  | _, some ch, c :: rest =>
    if c = ch then hrSplitGoS false (some ch) rest
    else consHead c (hrSplitGoS (isLineTerm c) none rest)
  | atStart, none, c :: rest =>
    if atStart && hrHead (c :: rest) then [] :: hrSplitGoS false (some c) rest
    else consHead c (hrSplitGoS (isLineTerm c) none rest)

/-- The horizontal-rule split (`String.split` with
`SEPARATION_PATTERNS.horizontalRules`), starting at a line start. -/
def hrSplitGo (atStart : Bool) (cs : List Char) : List (List Char) :=
  hrSplitGoS atStart none cs

/-- Scan erasing the characters consumed as horizontal-rule separators
(the "join separators" of the horizontal-rule split). -/
def hrEraseS : Bool → Option Char → List Char → List Char
  | _, _, [] => []
  | _, some ch, c :: rest =>
    if c = ch then hrEraseS false (some ch) rest
    else c :: hrEraseS (isLineTerm c) none rest
  | atStart, none, c :: rest =>
    if atStart && hrHead (c :: rest) then hrEraseS false (some c) rest
    else c :: hrEraseS (isLineTerm c) none rest

/-- The document with the characters consumed as horizontal-rule
separators erased. -/
def hrErase (atStart : Bool) (cs : List Char) : List Char :=
  hrEraseS atStart none cs

/-- Maximum chunk size in characters (`patterns.ts`). -/
def MAX_CHUNK_SIZE : Nat := 2000

/-- Minimum chunk size in characters (`patterns.ts`). -/
def MIN_CHUNK_SIZE : Nat := 10

/-- Maximum expanded-context size in characters (`patterns.ts`). -/
def MAX_CONTEXT_SIZE : Nat := 3000

/-- Loop of `splitBySentences` (`chunker.ts`): greedily repack the sentence
pieces, starting a new group when appending the next sentence would push
the pending group (as measured by `(currentChunk + sentence).length`) over
`MAX_CHUNK_SIZE` and the pending group is non-empty; groups are joined
with single spaces and trimmed when emitted. -/
def sbsGo : List (List Char) → List Char → List (List Char)
  | [], cur => if (jsTrim cur).isEmpty then [] else [jsTrim cur]
  | s :: ss, cur =>
    if MAX_CHUNK_SIZE < (cur ++ s).length && !cur.isEmpty then
      jsTrim cur :: sbsGo ss s
    else
      sbsGo ss (if cur.isEmpty then s else cur ++ ' ' :: s)

/-- `splitBySentences` (`chunker.ts` lines 350–371). -/
def splitBySentences (chunk : List Char) : List (List Char) :=
  sbsGo (sentSplit chunk) []

/-- `refineChunks` (`chunker.ts` lines 320–342): chunks at or under
`MAX_CHUNK_SIZE` pass through; an oversize chunk is split by paragraphs
(keeping the non-blank pieces) if that yields more than one piece, and
otherwise split by sentences. -/
def refineChunks (chunks : List (List Char)) : List (List Char) :=
  chunks.flatMap (fun chunk =>
    if chunk.length ≤ MAX_CHUNK_SIZE then [chunk]
    else
      let subChunks := (paraSplit chunk).filter hasNonWs
      if 1 < subChunks.length then subChunks
      else splitBySentences chunk)

/-- The hierarchical top-level split of `splitMarkdownDocument`: header
boundaries if they yield more than one piece, else horizontal rules if
they yield more than one piece, else paragraphs (each split keeps the
pieces with non-whitespace content, matching
`.filter((chunk) => chunk.trim())`). -/
def topSplit (document : List Char) : List (List Char) :=
  let headerSplit := (headerSplitGo document).filter hasNonWs
  if 1 < headerSplit.length then headerSplit
  else
    let separatorSplit := (hrSplitGo true document).filter hasNonWs
    if 1 < separatorSplit.length then separatorSplit
    else (paraSplit document).filter hasNonWs

/-- The document with the separator characters consumed by the authoritative
top-level split erased: the horizontal-rule split erases the rule lines;
the header split is zero-width and the paragraph split only consumes
whitespace, so those paths erase nothing. -/
def topSplitErased (document : List Char) : List Char :=
  let headerSplit := (headerSplitGo document).filter hasNonWs
  if 1 < headerSplit.length then document
  else
    let separatorSplit := (hrSplitGo true document).filter hasNonWs
    if 1 < separatorSplit.length then hrErase true document
    else document

/-- `splitMarkdownDocument` (`chunker.ts` lines 287–312): hierarchical
top-level split, refinement of oversize chunks, and removal of chunks
whose trimmed length is at most `MIN_CHUNK_SIZE`. -/
def splitMarkdownDocument (document : List Char) : List (List Char) :=
  (refineChunks (topSplit document)).filter
    (fun chunk => MIN_CHUNK_SIZE < (jsTrim chunk).length)

/-- `getExpandedContext` (`chunker.ts` lines 380–405): the target chunk,
preceded by the previous chunk if it fits under `MAX_CONTEXT_SIZE` and
followed by the next chunk if it still fits, joined with a visible
separator. -/
def getExpandedContext (chunks : List (List Char)) (targetIndex : Nat) : List Char :=
  match chunks.get? targetIndex with
  | none => []
  | some targetChunk =>
    let withPrev :=
      if targetIndex = 0 then ([targetChunk], targetChunk.length)
      else
        match chunks.get? (targetIndex - 1) with
        | some prevChunk =>
          if targetChunk.length + prevChunk.length < MAX_CONTEXT_SIZE then
            ([prevChunk, targetChunk], targetChunk.length + prevChunk.length)
          else ([targetChunk], targetChunk.length)
        | none => ([targetChunk], targetChunk.length)
    let result :=
      match chunks.get? (targetIndex + 1) with
      | some nextChunk =>
        if withPrev.2 + nextChunk.length < MAX_CONTEXT_SIZE then
          withPrev.1 ++ [nextChunk]
        else withPrev.1
      | none => withPrev.1
    List.intercalate ('\n' :: '\n' :: '-' :: '-' :: '-' :: '\n' :: ['\n']) result

/-! ## Relevance scorer (`scorer.ts`) -/

/-- Weight for an exact full-phrase match (`SCORE_WEIGHTS.exactMatch`). -/
def SCORE_exactMatch : ℚ := 10

/-- Weight per individual word occurrence (`SCORE_WEIGHTS.wordMatch`). -/
def SCORE_wordMatch : ℚ := 2

/-- Weight per word-start partial occurrence (`SCORE_WEIGHTS.partialMatch`). -/
def SCORE_partialMatch : ℚ := 0.5

/-- Multiplicative bonus for chunks containing code (`SCORE_WEIGHTS.codeBonus`). -/
def SCORE_codeBonus : ℚ := 1.2

/-- Multiplicative bonus for chunks containing a header (`SCORE_WEIGHTS.headerBonus`). -/
def SCORE_headerBonus : ℚ := 1.3

/-- Combining-diacritical-marks block removed by `normalizeText`
(`/[̀-ͯ]/g`). -/
def isCombMark (c : Char) : Bool :=
  0x300 ≤ c.val && c.val ≤ 0x36F

/-- Replace non-word, non-whitespace characters by a space
(`.replace(/[^\w\s]/g, " ")`). -/
def punctToSpace (c : Char) : Char :=
  if !isWordChar c && !jsWs c then ' ' else c

/-- Scan of `.replace(/\s+/g, " ")`: replace every maximal whitespace run
by a single space.  The flag records whether the scan is inside a run
whose space has already been emitted. -/
def collapseGo : Bool → List Char → List Char
  | _, [] => []
  | inRun, c :: rest =>
    if jsWs c then
      if inRun then collapseGo true rest else ' ' :: collapseGo true rest
    else c :: collapseGo false rest

/-- Replace every maximal whitespace run by a single space
(`.replace(/\s+/g, " ")`). -/
def collapseWs (cs : List Char) : List Char :=
  collapseGo false cs

/-- `normalizeText` (`scorer.ts` lines 31–39): lowercase, Unicode NFD
decomposition with diacritic stripping, punctuation replaced by spaces,
whitespace collapsed, trimmed.  `Char.toLower` implements the ASCII case
mapping; the NFD step is modelled as the identity (inputs are assumed
already decomposed — for ASCII text the step is a no-op), after which the
`[̀-ͯ]` filter removes combining marks. -/
def normalizeText (text : List Char) : List Char :=
  jsTrim (collapseWs (((text.map Char.toLower).filter (fun c => !isCombMark c)).map punctToSpace))

/-- Does `cs` contain `pat` as a contiguous substring
(JS `String.includes`)? -/
def hasSub (pat : List Char) : List Char → Bool
  | [] => pat.isEmpty
  | c :: rest => pat.isPrefixOf (c :: rest) || hasSub pat rest

/-- Number of word-boundary occurrences of the word `w` in a normalized
chunk.  On `normalizeText` output — single-space-separated runs of word
characters — the matches of `new RegExp("\\b" + w + "\\b", "gi")` are
exactly the space-separated tokens equal to `w`, so the count is embedded
as a token count. -/
def countTok (w : List Char) (normalizedChunk : List Char) : Nat :=
  (splitSpace normalizedChunk).countP (fun t => t == w)

/-- Number of word-boundary partial (word-start) occurrences of `w` in a
normalized chunk: matches of `new RegExp("\\b" + w, "gi")` on
`normalizeText` output are exactly the tokens having `w` as a prefix. -/
def countPre (w : List Char) (normalizedChunk : List Char) : Nat :=
  (splitSpace normalizedChunk).countP (fun t => w.isPrefixOf t)

/-- `calculateWordMatchScore` (`scorer.ts` lines 84–107): for every word of
the term of length at least 2, add `wordMatch` per exact word-boundary
occurrence and `partialMatch` per word-start occurrence. -/
def calculateWordMatchScore (normalizedChunk normalizedTerm : List Char) : ℚ :=
  (splitSpace normalizedTerm).foldl (fun score word =>
    if word.length < 2 then score
    else score + (countTok word normalizedChunk : ℚ) * SCORE_wordMatch
               + (countPre word normalizedChunk : ℚ) * SCORE_partialMatch) 0

/-- The `codeBlock` pattern of `patterns.ts`
(`/```[\s\S]*?```|^ {4,}\S/m`): a pair of triple backticks, or a line
starting with four or more spaces followed by a non-whitespace character. -/
def btick : Char := Char.ofNat 96

/-- Does the string start with three backticks? -/
def tripleAt : List Char → Bool
  | a :: b :: c :: _ => a = btick && b = btick && c = btick
  | _ => false

/-- Find the first occurrence of three backticks and return the suffix
after it. -/
def findTriple : List Char → Option (List Char)
  | [] => none
  | c :: rest =>
    if tripleAt (c :: rest) then some (rest.drop 2) else findTriple rest

/-- Does a line start here with four or more spaces followed by a
non-whitespace character (`^ {4,}\S` at a line-start position)? -/
def indentAt (cs : List Char) : Bool :=
  let r := (cs.takeWhile (· = ' ')).length
  4 ≤ r && (cs.drop r).head?.elim false (fun c => !jsWs c)

/-- Scan for an indented-code line (`^ {4,}\S` with the `m` flag). -/
def indentGo (atStart : Bool) : List Char → Bool
  | [] => false
  | c :: rest => (atStart && indentAt (c :: rest)) || indentGo (isLineTerm c) rest

/-- Test of `SEPARATION_PATTERNS.codeBlock` on a raw chunk. -/
def codeBlockTest (cs : List Char) : Bool :=
  (match findTriple cs with
   | some s => (findTriple s).isSome
   | none => false) || indentGo true cs

/-- Does a line start here with one to six `#` followed by a whitespace
character (`^#{1,6}\s+` at a line-start position)? -/
def hdrSimpleAt (cs : List Char) : Bool :=
  let k := (cs.takeWhile (· = '#')).length
  1 ≤ k && k ≤ 6 && (cs.drop k).head?.elim false jsWs

/-- Scan for a markdown header line (`SEPARATION_PATTERNS.hasHeader` =
`/^#{1,6}\s+/m`). -/
def hasHeaderGo (atStart : Bool) : List Char → Bool
  | [] => false
  | c :: rest => (atStart && hdrSimpleAt (c :: rest)) || hasHeaderGo (isLineTerm c) rest

/-- Test of `SEPARATION_PATTERNS.hasHeader` on a raw chunk. -/
def hasHeaderTest (cs : List Char) : Bool :=
  hasHeaderGo true cs

/-- `applyBonuses` (`scorer.ts` lines 112–126): multiply by the code bonus
if the raw chunk contains a code block and by the header bonus if it
contains a markdown header. -/
def applyBonuses (chunk : List Char) (score : ℚ) : ℚ :=
  let withCode := if codeBlockTest chunk then score * SCORE_codeBonus else score
  if hasHeaderTest chunk then withCode * SCORE_headerBonus else withCode

/-- `calculateRelevanceScore` (`scorer.ts` lines 58–79): for each search
term (skipping terms that normalize to the empty string) add the exact
full-phrase weight times the term's space-separated word count when the
normalized chunk contains the normalized term, plus the individual-word
match score; finally apply the bonuses. -/
def calculateRelevanceScore (chunk : List Char) (searchTerms : List (List Char)) : ℚ :=
  let normalizedChunk := normalizeText chunk
  let score := searchTerms.foldl (fun score term =>
    let normalizedTerm := normalizeText term
    if normalizedTerm.isEmpty then score
    else
      (if hasSub normalizedTerm normalizedChunk then
        score + SCORE_exactMatch * ((splitSpace normalizedTerm).length : ℚ)
      else score) + calculateWordMatchScore normalizedChunk normalizedTerm) 0
  applyBonuses chunk score

/-- `extractSearchTerms` (`scorer.ts` lines 135–143): the full query
followed by its whitespace-separated words of more than two characters. -/
def extractSearchTerms (query : List Char) : List (List Char) :=
  query :: (splitWsRuns query).filter (fun word => 2 < word.length)

/-! ## JSON values and `JSON.parse` (used by the format detector and the
JSON chunking path) -/

/-- JSON values as produced by `JSON.parse`.  Numbers are kept exactly as
rationals (double rounding and infinities are not modelled; the parsed
numbers only ever feed JS truthiness tests in this code base).  Object
fields are kept in JS property insertion order with last-duplicate-wins
values (the integer-like-key reordering of JS property iteration is not
modelled; none of the probed documentation fields are integer-like). -/
inductive Json where
  | null : Json
  | bool (b : Bool) : Json
  | num (q : ℚ) : Json
  | str (s : List Char) : Json
  | arr (elems : List Json) : Json
  | obj (fields : List (List Char × Json)) : Json
  deriving Repr

/-- JSON insignificant whitespace (space, tab, line feed, carriage return). -/
def jws (c : Char) : Bool :=
  c = ' ' || c = '\t' || c = '\n' || c = '\r'

/-- Skip JSON whitespace. -/
def skipJws (cs : List Char) : List Char :=
  cs.dropWhile jws

/-- Value of a hexadecimal digit (decimal digits, then the lowercase and
uppercase letter ranges, each offset to start at ten). -/
def hexVal (c : Char) : Option Nat :=
  if '0' ≤ c && c ≤ '9' then some (c.toNat - '0'.toNat)
  else if 'a' ≤ c && c ≤ 'f' then some (10 + c.toNat - 'a'.toNat)
  else if 'A' ≤ c && c ≤ 'F' then some (10 + c.toNat - 'A'.toNat)
  else none

/-- Decimal digit test. -/
def isDigit (c : Char) : Bool :=
  '0' ≤ c && c ≤ '9'

/-- Numeric value of a digit string. -/
def digitsToNat (ds : List Char) : Nat :=
  ds.foldl (fun n c => 10 * n + (c.toNat - '0'.toNat)) 0

/-- Fuelled body of the JSON string parser (each step consumes at least
one character, so fuel equal to the input length never runs out). -/
def parseStrF : Nat → List Char → Option (List Char × List Char)
  | 0, _ => none
  | _, [] => none
  | f + 1, c :: rest =>
    if c = '"' then some ([], rest)
    else if c = '\\' then
      match rest with
      | [] => none
      | e :: r2 =>
        if e = '"' || e = '\\' || e = '/' then
          (parseStrF f r2).map (fun p => (e :: p.1, p.2))
        else if e = 'b' then (parseStrF f r2).map (fun p => (Char.ofNat 8 :: p.1, p.2))
        else if e = 'f' then (parseStrF f r2).map (fun p => (Char.ofNat 12 :: p.1, p.2))
        else if e = 'n' then (parseStrF f r2).map (fun p => ('\n' :: p.1, p.2))
        else if e = 'r' then (parseStrF f r2).map (fun p => ('\r' :: p.1, p.2))
        else if e = 't' then (parseStrF f r2).map (fun p => ('\t' :: p.1, p.2))
        else if e = 'u' then
          match r2 with
          | h1 :: h2 :: h3 :: h4 :: r3 =>
            match hexVal h1, hexVal h2, hexVal h3, hexVal h4 with
            | some a, some b, some cc, some d =>
              let code := ((a * 16 + b) * 16 + cc) * 16 + d
              let ch := if (Nat.isValidChar code) then Char.ofNat code else Char.ofNat 0xFFFD
              (parseStrF f r3).map (fun p => (ch :: p.1, p.2))
            | _, _, _, _ => none
          | _ => none
        else none
    else if c.val < 0x20 then none
    else (parseStrF f rest).map (fun p => (c :: p.1, p.2))

/-- Parse the body of a JSON string (after the opening quote), returning
the decoded characters and the remainder after the closing quote.  A
`\\u` escape decoding to an invalid code point (a lone surrogate, not
representable as a `Char`) is replaced by U+FFFD. -/
def parseStr (cs : List Char) : Option (List Char × List Char) :=
  parseStrF cs.length cs

/-- Parse a JSON number per the JSON grammar
(`-?(0|[1-9][0-9]*)(\.[0-9]+)?([eE][+-]?[0-9]+)?`). -/
def parseNum (cs : List Char) : Option (Json × List Char) :=
  let (neg, cs1) := match cs with
    | '-' :: r => (true, r)
    | _ => (false, cs)
  match cs1 with
  | [] => none
  | d :: _ =>
    if !isDigit d then none
    else
      let intDigits := if d = '0' then ['0'] else cs1.takeWhile isDigit
      let cs2 := cs1.drop intDigits.length
      let fracDigits :=
        match cs2 with
        | '.' :: r => some (r.takeWhile isDigit)
        | _ => none
      match fracDigits with
      | some [] => none
      | _ =>
        let fd := (fracDigits.getD [])
        let cs3 := match fracDigits with
          | some f => cs2.drop (1 + f.length)
          | none => cs2
        let expPart : Option (Bool × List Char) :=
          match cs3 with
          | 'e' :: '+' :: r => some (false, r.takeWhile isDigit)
          | 'e' :: '-' :: r => some (true, r.takeWhile isDigit)
          | 'e' :: r => some (false, r.takeWhile isDigit)
          | 'E' :: '+' :: r => some (false, r.takeWhile isDigit)
          | 'E' :: '-' :: r => some (true, r.takeWhile isDigit)
          | 'E' :: r => some (false, r.takeWhile isDigit)
          | _ => none
        match expPart with
        | some (_, []) => none
        | _ =>
          let cs4 := match expPart, cs3 with
            | some (_, ed), 'e' :: '+' :: _ => cs3.drop (2 + ed.length)
            | some (_, ed), 'e' :: '-' :: _ => cs3.drop (2 + ed.length)
            | some (_, ed), 'E' :: '+' :: _ => cs3.drop (2 + ed.length)
            | some (_, ed), 'E' :: '-' :: _ => cs3.drop (2 + ed.length)
            | some (_, ed), _ => cs3.drop (1 + ed.length)
            | none, _ => cs3
          let expVal : ℤ := match expPart with
            | some (true, ed) => -(digitsToNat ed : ℤ)
            | some (false, ed) => (digitsToNat ed : ℤ)
            | none => 0
          let mant : ℚ := (digitsToNat (intDigits ++ fd) : ℚ)
          let q : ℚ := (if neg then -mant else mant) * (10 : ℚ) ^ (expVal - (fd.length : ℤ))
          some (.num q, cs4)

/-- Replace a field in JS property order: a duplicate key keeps its first
position but takes the later value; a new key is appended. -/
def insField (k : List Char) (v : Json) (fields : List (List Char × Json)) :
    List (List Char × Json) :=
  if fields.any (fun p => p.1 == k) then
    fields.map (fun p => if p.1 == k then (k, v) else p)
  else fields ++ [(k, v)]

mutual

/-- Parse one JSON value.  The fuel decreases on every nested call; the
wrapper supplies more fuel than any input can consume, so fuel exhaustion
never fires on well-formed use. -/
def parseValue : Nat → List Char → Option (Json × List Char)
  | 0, _ => none
  | fuel + 1, cs =>
    match cs with
    | [] => none
    | c :: rest =>
      if c = 'n' then
        if ['u', 'l', 'l'].isPrefixOf rest then some (.null, rest.drop 3) else none
      else if c = 't' then
        if ['r', 'u', 'e'].isPrefixOf rest then some (.bool true, rest.drop 3) else none
      else if c = 'f' then
        if ['a', 'l', 's', 'e'].isPrefixOf rest then some (.bool false, rest.drop 4) else none
      else if c = '"' then (parseStr rest).map (fun p => (.str p.1, p.2))
      else if c = '[' then
        match skipJws rest with
        | ']' :: r => some (.arr [], r)
        | r => parseElems fuel r []
      else if c = '{' then
        match skipJws rest with
        | '}' :: r => some (.obj [], r)
        | r => parseFields fuel r []
      else parseNum (c :: rest)

/-- Parse the comma-separated elements of a non-empty JSON array. -/
def parseElems : Nat → List Char → List Json → Option (Json × List Char)
  | 0, _, _ => none
  | fuel + 1, cs, acc =>
    match parseValue fuel cs with
    | none => none
    | some (v, r) =>
      match skipJws r with
      | ',' :: r2 => parseElems fuel (skipJws r2) (acc ++ [v])
      | ']' :: r2 => some (.arr (acc ++ [v]), r2)
      | _ => none

/-- Parse the comma-separated members of a non-empty JSON object. -/
def parseFields : Nat → List Char → List (List Char × Json) →
    Option (Json × List Char)
  | 0, _, _ => none
  | fuel + 1, cs, acc =>
    match cs with
    | '"' :: r =>
      match parseStr r with
      | none => none
      | some (k, r2) =>
        match skipJws r2 with
        | ':' :: r3 =>
          match parseValue fuel (skipJws r3) with
          | none => none
          | some (v, r4) =>
            match skipJws r4 with
            | ',' :: r5 => parseFields fuel (skipJws r5) (insField k v acc)
            | '}' :: r5 => some (.obj (insField k v acc), r5)
            | _ => none
        | _ => none
    | _ => none

end

/-- `JSON.parse`: a complete JSON text is whitespace, one value, and
trailing whitespace. -/
def parseJson (cs : List Char) : Option Json :=
  match parseValue (2 * cs.length + 8) (skipJws cs) with
  | some (v, rest) => if (skipJws rest).isEmpty then some v else none
  | none => none

/-- Does `JSON.parse` succeed on this text? -/
def jsonValid (cs : List Char) : Bool :=
  (parseJson cs).isSome

/-! ## JSON text extraction (`chunker.ts` lines 210–281) -/

/-- JS truthiness of a JSON value (`NaN` cannot arise from `JSON.parse`). -/
def jsTruthy : Json → Bool
  | .null => false
  | .bool b => b
  | .num q => !(q == 0)
  | .str s => !s.isEmpty
  | .arr _ => true
  | .obj _ => true

/-- The documentation-bearing field names probed by
`extractJsonTextContent`. -/
def jsonTextFields : List (List Char) :=
  [('c' :: "ontent".toList), "text".toList, "body".toList, "description".toList,
   "summary".toList, "documentation".toList, "docs".toList, "readme".toList,
   "markdown".toList, "html".toList, "title".toList, "name".toList]

/-- First field with the given key (parsed objects have unique keys). -/
def jsLookup (fields : List (List Char × Json)) (k : List Char) : Option Json :=
  (fields.find? (fun p => p.1 == k)).map (fun p => p.2)

/-- The two-newline join separator used throughout the JSON extraction. -/
def nlnl : List Char := ['\n', '\n']

/-- `extractJsonTextContent` (`chunker.ts` lines 230–281).  The source
recursion carries `depth`, bailing out once `depth > 10`; here the first
argument is the remaining budget `11 - depth` (the source's initial call
has `depth = 0`, i.e. budget 11), making the recursion structural. -/
def extractJTC : Nat → Json → List Char
  | 0, _ => []
  | b + 1, j =>
    match j with
    | .str s => s
    | .arr elems => List.intercalate nlnl (elems.map (extractJTC b))
    | .obj fields =>
      let fromKnown := jsonTextFields.foldl (fun parts fn =>
        match jsLookup fields fn with
        | some v =>
          if jsTruthy v then
            let content := extractJTC b v
            if content.isEmpty then parts else parts ++ [content]
          else parts
        | none => parts) []
      let parts :=
        if fromKnown.isEmpty then
          fields.foldl (fun parts kv =>
            let content := extractJTC b kv.2
            if content.isEmpty then parts else parts ++ [content]) []
        else fromKnown
      List.intercalate nlnl parts
    | _ => []

/-! ## Format detector (`format-detector.ts`) -/

/-- Document formats. -/
inductive DocumentFormat where
  | json : DocumentFormat
  | html : DocumentFormat
  | markdown : DocumentFormat
  | text : DocumentFormat
  deriving DecidableEq, Repr

/-- Result of a format check. -/
structure FormatDetectionResult where
  format : DocumentFormat
  confidence : ℚ
  indicators : List (List Char)
  deriving Repr

/-- Case-insensitive ASCII prefix test (regex `i` flag). -/
def ciIsPrefixOf (pat cs : List Char) : Bool :=
  (pat.map Char.toLower).isPrefixOf (cs.map Char.toLower)

/-- Test of `HTML_PATTERNS.isHtml`
(`/^\s*<!DOCTYPE\s+html|^\s*<html|^\s*<head|^\s*<body|^\s*<div|^\s*<article|^\s*<section/i`):
after leading whitespace, one of the HTML root markers (for the DOCTYPE
alternative, `<!DOCTYPE` then whitespace then `html`). -/
def isHtmlTest (cs : List Char) : Bool :=
  let t := cs.dropWhile jsWs
  (ciIsPrefixOf "<!doctype".toList t &&
    (let u := t.drop 9
     !(u.takeWhile jsWs).isEmpty && ciIsPrefixOf "html".toList (u.dropWhile jsWs))) ||
  ciIsPrefixOf ('<' :: "html".toList) t || ciIsPrefixOf ('<' :: "head".toList) t ||
  ciIsPrefixOf ('<' :: "body".toList) t || ciIsPrefixOf ('<' :: "div".toList) t ||
  ciIsPrefixOf ('<' :: "article".toList) t || ciIsPrefixOf ('<' :: "section".toList) t

/-- Split a string at the first occurrence of a character: the part
before, and the part after the character. -/
def splitAtChar (ch : Char) : List Char → Option (List Char × List Char)
  | [] => none
  | c :: rest =>
    if c = ch then some ([], rest)
    else
      match splitAtChar ch rest with
      | some p => some (c :: p.1, p.2)
      | none => none

/-- Fuelled scan counting the matches of `HTML_PATTERNS.allTags`
(`/<[^>]+>/g`): non-overlapping left-to-right `<`, one or more non-`>`
characters, `>`. -/
def countTagsF : Nat → List Char → Nat
  | 0, _ => 0
  | _, [] => 0
  | f + 1, c :: rest =>
    if c = '<' then
      match splitAtChar '>' rest with
      | some p => if p.1.isEmpty then countTagsF f rest else 1 + countTagsF f p.2
      | none => countTagsF f rest
    else countTagsF f rest

/-- Count the matches of `HTML_PATTERNS.allTags`. -/
def countTags (cs : List Char) : Nat :=
  countTagsF cs.length cs

/-- Is there a closing `</h⟨d⟩>` (case-insensitive on the `h`) anywhere in
the string? -/
def closeHTag (d : Char) : List Char → Bool
  | [] => false
  | c :: rest =>
    (c = '<' &&
      (match rest with
       | s :: h :: dd :: g :: _ =>
         s = '/' && (h = 'h' || h = 'H') && dd = d && g = '>'
       | _ => false)) || closeHTag d rest

/-- If an `<h[1-6][^>]*>` opening tag starts here, return its digit and
the suffix after the `>`. -/
def hOpenAt : List Char → Option (Char × List Char)
  | '<' :: h :: d :: rest =>
    if (h = 'h' || h = 'H') && '1' ≤ d && d ≤ '6' then
      match splitAtChar '>' (d :: rest) with
      | some p => some (d, p.2)
      | none => none
    else none
  | _ => none

/-- Test of `HTML_PATTERNS.headerTags`
(`/<h([1-6])[^>]*>([\s\S]*?)<\/h\1>/gi`): an opening header tag with a
matching closing tag somewhere after it. -/
def headerTagsTest : List Char → Bool
  | [] => false
  | c :: rest =>
    (match hOpenAt (c :: rest) with
     | some (d, after) => closeHTag d after
     | none => false) || headerTagsTest rest

/-- Is there a closing `</p>` (case-insensitive) anywhere in the string? -/
def closePTag : List Char → Bool
  | [] => false
  | c :: rest =>
    (c = '<' &&
      (match rest with
       | s :: p :: g :: _ => s = '/' && (p = 'p' || p = 'P') && g = '>'
       | _ => false)) || closePTag rest

/-- If a `<p[^>]*>` opening tag starts here, return the suffix after the
`>`. -/
def pOpenAt : List Char → Option (List Char)
  | '<' :: p :: rest =>
    if p = 'p' || p = 'P' then
      match splitAtChar '>' (p :: rest) with
      | some q => some q.2
      | none => none
    else none
  | _ => none

/-- Test of `HTML_PATTERNS.paragraphTags` (`/<p[^>]*>([\s\S]*?)<\/p>/gi`). -/
def paragraphTagsTest : List Char → Bool
  | [] => false
  | c :: rest =>
    (match pOpenAt (c :: rest) with
     | some after => closePTag after
     | none => false) || paragraphTagsTest rest

/-- Fuelled scan counting the matches of `/```[\s\S]*?```/g`:
non-overlapping pairs of triple backticks, left to right. -/
def fencedCountF : Nat → List Char → Nat
  | 0, _ => 0
  | f + 1, cs =>
    match findTriple cs with
    | none => 0
    | some s1 =>
      match findTriple s1 with
      | none => 0
      | some s2 => 1 + fencedCountF f s2

/-- Count the matches of `/```[\s\S]*?```/g`. -/
def fencedCount (cs : List Char) : Nat :=
  fencedCountF cs.length cs

/-- Body of the `^[\s]*[-*+]\s+` match after skipping the leading
whitespace run: a list marker, then at least one whitespace character.
Returns the suffix after the (greedy) trailing whitespace run and whether
the scan resumes at a line start. -/
def listItemCore : List Char → Option (List Char × Bool)
  | [] => none
  | s :: rest2 =>
    if (s = '-' || s = '*' || s = '+') && (rest2.head?.elim false jsWs) then
      some (rest2.drop (rest2.takeWhile jsWs).length,
        isLineTerm ((rest2.takeWhile jsWs).getLastD ' '))
    else none

/-- Attempted match of `^[\s]*[-*+]\s+` at a line-start position: leading
whitespace (possibly spanning lines), a list marker, then at least one
whitespace character. -/
def listItemAt (cs : List Char) : Option (List Char × Bool) :=
  listItemCore (cs.dropWhile jsWs)

/-- Fuelled scan counting the matches of `/^[\s]*[-*+]\s+/gm`. -/
def listItemsF : Nat → Bool → List Char → Nat
  | 0, _, _ => 0
  | f + 1, atStart, cs =>
    match cs with
    | [] => 0
    | c :: rest =>
      if atStart then
        (listItemAt (c :: rest)).elim (listItemsF f (isLineTerm c) rest)
          (fun p => 1 + listItemsF f p.2 p.1)
      else listItemsF f (isLineTerm c) rest

/-- Count the matches of `/^[\s]*[-*+]\s+/gm`. -/
def listItemsGo (atStart : Bool) (cs : List Char) : Nat :=
  listItemsF cs.length atStart cs

/-- Fuelled scan counting the matches of `/\[([^\]]+)\]\(([^)]+)\)/g`
(markdown links). -/
def linksCountF : Nat → List Char → Nat
  | 0, _ => 0
  | _, [] => 0
  | f + 1, c :: rest =>
    if c = '[' then
      match splitAtChar ']' rest with
      | some (lbl, rest2) =>
        if lbl.isEmpty then linksCountF f rest
        else
          match rest2 with
          | '(' :: rest3 =>
            match splitAtChar ')' rest3 with
            | some (url, rest4) =>
              if url.isEmpty then linksCountF f rest else 1 + linksCountF f rest4
            | none => linksCountF f rest
          | _ => linksCountF f rest
      | none => linksCountF f rest
    else linksCountF f rest

/-- Count the matches of `/\[([^\]]+)\]\(([^)]+)\)/g`. -/
def linksCount (cs : List Char) : Nat :=
  linksCountF cs.length cs

/-- Attempted match of one emphasis alternative at this position: opener
`op` (one or two copies of `*` or `_`), at least one character that is
neither `*` nor `_`, then the same closer. -/
def emphAt (op : List Char) (cs : List Char) : Bool :=
  op.isPrefixOf cs &&
    (let t := (cs.drop op.length).takeWhile (fun c => !(c = '*' || c = '_'))
     !t.isEmpty && op.isPrefixOf ((cs.drop op.length).drop t.length))

/-- Test of the emphasis pattern
`/(\*\*|__)[^*_]+\1|(\*|_)[^*_]+\2/g` (used as a count `> 0`). -/
def emphasisTest : List Char → Bool
  | [] => false
  | c :: rest =>
    emphAt ['*', '*'] (c :: rest) || emphAt ['_', '_'] (c :: rest) ||
    emphAt ['*'] (c :: rest) || emphAt ['_'] (c :: rest) || emphasisTest rest

/-- Test of `SEPARATION_PATTERNS.horizontalRules` (`.test`): does any line
consist of a horizontal rule? -/
def hrTestGo (atStart : Bool) : List Char → Bool
  | [] => false
  | c :: rest => (atStart && hrHead (c :: rest)) || hrTestGo (isLineTerm c) rest

/-- JS `Math.min`. -/
def ratMin (a b : ℚ) : ℚ := if a ≤ b then a else b

/-- The `startsWithJsonChar` test of `checkJson` (`/^\s*[[{]/`). -/
def startsJsonChar (content : List Char) : Bool :=
  match content.dropWhile jsWs with
  | '[' :: _ => true
  | c :: _ => c = Char.ofNat 0x7B
  | [] => false

/-- `checkJson` (`format-detector.ts` lines 47–76). -/
def checkJson (content : List Char) : FormatDetectionResult :=
  let startsWithJsonChar := startsJsonChar content
  let conf0 : ℚ := if startsWithJsonChar then 0.3 else 0
  let ind0 : List (List Char) :=
    if startsWithJsonChar then ["Inicia com caractere JSON (\x7b ou [)".toList] else []
  if jsonValid content then
    ⟨.json, ratMin (conf0 + 0.6) 1, ind0 ++ ["JSON valido parseado com sucesso".toList]⟩
  else if startsWithJsonChar then
    ⟨.json, ratMin 0.2 1, ind0 ++ ["Estrutura similar a JSON mas invalido".toList]⟩
  else ⟨.json, ratMin conf0 1, ind0⟩

/-- Fuelled decimal digit extraction. -/
def natDigitsF : Nat → Nat → List Char
  | 0, _ => []
  | f + 1, n =>
    if n < 10 then [Char.ofNat ('0'.toNat + n)]
    else natDigitsF f (n / 10) ++ [Char.ofNat ('0'.toNat + n % 10)]

/-- Decimal representation of a number, for indicator strings. -/
def natToChars (n : Nat) : List Char :=
  natDigitsF (n + 1) n

/-- `checkHtml` (`format-detector.ts` lines 81–124). -/
def checkHtml (content : List Char) : FormatDetectionResult :=
  let s0 : ℚ × List (List Char) :=
    if isHtmlTest content then
      (0.5, ["DOCTYPE ou tag HTML principal detectada".toList]) else (0, [])
  let tagCount := countTags content
  let s1 : ℚ × List (List Char) :=
    if 10 < tagCount then
      (s0.1 + 0.3, s0.2 ++ [natToChars tagCount ++ " tags HTML encontradas".toList])
    else if 3 < tagCount then
      (s0.1 + 0.15, s0.2 ++ [natToChars tagCount ++ " tags HTML encontradas".toList])
    else s0
  let s2 : ℚ × List (List Char) :=
    if headerTagsTest content then
      (s1.1 + 0.1, s1.2 ++ ["Headers HTML (h1-h6) detectados".toList]) else s1
  let s3 : ℚ × List (List Char) :=
    if paragraphTagsTest content then
      (s2.1 + 0.1, s2.2 ++ ["Paragrafos HTML detectados".toList]) else s2
  ⟨.html, ratMin s3.1 1, s3.2⟩

/-- `checkMarkdown` (`format-detector.ts` lines 129–181). -/
def checkMarkdown (content : List Char) : FormatDetectionResult :=
  let s0 : ℚ × List (List Char) :=
    if hasHeaderTest content then
      (0.3, ["Headers Markdown (#) detectados".toList]) else (0, [])
  let fc := fencedCount content
  let s1 : ℚ × List (List Char) :=
    if 0 < fc then
      (s0.1 + 0.25, s0.2 ++ [natToChars fc ++ " blocos de codigo fenced".toList]) else s0
  let li := listItemsGo true content
  let s2 : ℚ × List (List Char) :=
    if 2 < li then
      (s1.1 + 0.15, s1.2 ++ [natToChars li ++ " itens de lista detectados".toList]) else s1
  let lk := linksCount content
  let s3 : ℚ × List (List Char) :=
    if 0 < lk then
      (s2.1 + 0.15, s2.2 ++ [natToChars lk ++ " links Markdown detectados".toList]) else s2
  let s4 : ℚ × List (List Char) :=
    if emphasisTest content then
      (s3.1 + 0.1, s3.2 ++ ["Formatacao de enfase detectada".toList]) else s3
  let s5 : ℚ × List (List Char) :=
    if hrTestGo true content then
      (s4.1 + 0.1, s4.2 ++ ["Separadores horizontais detectados".toList]) else s4
  ⟨.markdown, ratMin s5.1 1, s5.2⟩

/-- `detectDocumentFormat` (`format-detector.ts` lines 15–42): JSON, HTML
and Markdown checks in priority order, each gated by its own threshold,
with a plain-text fallback at confidence 0.5. -/
def detectDocumentFormat (document : List Char) : FormatDetectionResult :=
  let trimmed := jsTrim document
  let jsonResult := checkJson trimmed
  if 0.8 < jsonResult.confidence then jsonResult
  else
    let htmlResult := checkHtml trimmed
    if 0.6 < htmlResult.confidence then htmlResult
    else
      let markdownResult := checkMarkdown trimmed
      if 0.5 < markdownResult.confidence then markdownResult
      else ⟨.text, 0.5, ["Nenhum formato especifico detectado".toList]⟩

/-- `detectFormat` (`chunker.ts` lines 172–187): route to the HTML or JSON
strategy only when the fallback is enabled and the confidence clears the
route's own bar. -/
def detectFormat (document : List Char) (enableHtml enableJson : Bool) :
    DocumentFormat :=
  let detection := detectDocumentFormat document
  if detection.format = .html && enableHtml && 0.5 < detection.confidence then .html
  else if detection.format = .json && enableJson && 0.7 < detection.confidence then .json
  else detection.format

/-! ## HTML chunker (`html-chunker.ts`)

The global regex replaces of the HTML chunker are all left-to-right
non-overlapping scans.  They are embedded through a generic fuel-driven
scan engine: every matcher consumes at least one character, so starting
the engine with fuel equal to the input length never exhausts it. -/

/-- Case-sensitive search: the text before the first occurrence of `pat`
and the text after it. -/
def findSplit (pat : List Char) : List Char → Option (List Char × List Char)
  | [] => none
  | c :: rest =>
    if pat.isPrefixOf (c :: rest) then some ([], (c :: rest).drop pat.length)
    else
      match findSplit pat rest with
      | some p => some (c :: p.1, p.2)
      | none => none

/-- Case-insensitive search (regex `i` flag): the text before the first
occurrence of `pat` and the text after it. -/
def findCiSplit (pat : List Char) : List Char → Option (List Char × List Char)
  | [] => none
  | c :: rest =>
    if ciIsPrefixOf pat (c :: rest) then some ([], (c :: rest).drop pat.length)
    else
      match findCiSplit pat rest with
      | some p => some (c :: p.1, p.2)
      | none => none

/-- Generic engine for a global regex replace: at each position attempt
the matcher; on a match emit its replacement text and continue after the
match, otherwise keep the character.  The matcher returns the replacement
and the suffix after the match. -/
def replaceScanF (try1 : List Char → Option (List Char × List Char)) :
    Nat → List Char → List Char
  | 0, cs => cs
  | _, [] => []
  | f + 1, c :: rest =>
    match try1 (c :: rest) with
    | some (rep, after) => rep ++ replaceScanF try1 f after
    | none => c :: replaceScanF try1 f rest

/-- Generic engine for a global `exec` loop: collect the payload of every
non-overlapping match, left to right. -/
def scanMatchesF (try1 : List Char → Option (List Char × List Char)) :
    Nat → List Char → List (List Char)
  | 0, _ => []
  | _, [] => []
  | f + 1, c :: rest =>
    match try1 (c :: rest) with
    | some (payload, after) => payload :: scanMatchesF try1 f after
    | none => scanMatchesF try1 f rest

/-- Matcher for a `<name[^>]*>([\s\S]*?)</name>` element (case-insensitive,
regex backreference fixing the name): returns the element body and the
suffix after the closing tag. -/
def tagPairAt (name : List Char) (cs : List Char) : Option (List Char × List Char) :=
  if ciIsPrefixOf ('<' :: name) cs then
    match splitAtChar '>' (cs.drop (1 + name.length)) with
    | some (_, body) =>
      match findCiSplit ('<' :: '/' :: (name ++ ['>'])) body with
      | some (inner, after) => some (inner, after)
      | none => none
    | none => none
  else none

/-- Matcher for `HTML_PATTERNS.scriptStyleTags`
(`/<(script|style|noscript)[^>]*>[\s\S]*?<\/\1>/gi`); the payload is
unused (the pattern is only ever removed). -/
def scriptStyleAt (cs : List Char) : Option (List Char × List Char) :=
  match tagPairAt "script".toList cs with
  | some p => some ([], p.2)
  | none =>
    match tagPairAt "style".toList cs with
    | some p => some ([], p.2)
    | none =>
      match tagPairAt ('n' :: "oscript".toList) cs with
      | some p => some ([], p.2)
      | none => none

/-- Matcher for `HTML_PATTERNS.htmlComments` (`/<!--[\s\S]*?-->/g`). -/
def commentAt (cs : List Char) : Option (List Char × List Char) :=
  if ['<', '!', '-', '-'].isPrefixOf cs then
    match findSplit ['-', '-', '>'] (cs.drop 4) with
    | some p => some ([], p.2)
    | none => none
  else none

/-- `cleanHtml` (`html-chunker.ts` lines 449–459): remove script, style and
noscript elements, then HTML comments. -/
def cleanHtml (html : List Char) : List Char :=
  let noScripts := replaceScanF scriptStyleAt html.length html
  replaceScanF commentAt noScripts.length noScripts

/-- The closing-tag names of `HTML_PATTERNS.blockTags`
(`/<\/(p|div|section|article|header|footer|main|aside|li|tr|br|hr)[^>]*>/gi`). -/
def blockTagNames : List (List Char) :=
  ["p".toList, "div".toList, "section".toList, "article".toList, "header".toList,
   "footer".toList, "main".toList, "aside".toList, "li".toList, "tr".toList,
   "br".toList, "hr".toList]

/-- Matcher for `HTML_PATTERNS.blockTags`: a closing tag of one of the
block-level names (by prefix, as the regex alternation works), up to the
first `>`. -/
def blockTagAt (cs : List Char) : Option (List Char × List Char) :=
  match cs with
  | '<' :: '/' :: rest =>
    if blockTagNames.any (fun n => ciIsPrefixOf n rest) then
      match splitAtChar '>' rest with
      | some p => some (['\n'], p.2)
      | none => none
    else none
  | _ => none

/-- Matcher for `/<br\s*\/?>/gi`. -/
def brTagAt (cs : List Char) : Option (List Char × List Char) :=
  if ciIsPrefixOf ('<' :: 'b' :: ['r']) cs then
    let t := (cs.drop 3).dropWhile jsWs
    match t with
    | '/' :: '>' :: r => some (['\n'], r)
    | '>' :: r => some (['\n'], r)
    | _ => none
  else none

/-- Matcher for `HTML_PATTERNS.allTags` (`/<[^>]+>/g`), used for removal. -/
def anyTagAt (cs : List Char) : Option (List Char × List Char) :=
  match cs with
  | '<' :: rest =>
    match splitAtChar '>' rest with
    | some (inside, after) => if inside.isEmpty then none else some ([], after)
    | none => none
  | _ => none

/-- `stripTags` (`html-chunker.ts` line 593). -/
def stripTags (html : List Char) : List Char :=
  replaceScanF anyTagAt html.length html

/-- Hexadecimal digit test (for `#x` entities, case-insensitive). -/
def isHexDigit (c : Char) : Bool :=
  isDigit c || ('a' ≤ c && c ≤ 'f') || ('A' ≤ c && c ≤ 'F')

/-- The named entities of `decodeHtmlEntities` with their replacements. -/
def entityTable : List (List Char × Char) :=
  [("nbsp".toList, Char.ofNat 0xA0), ("amp".toList, '&'), ("lt".toList, '<'),
   ("gt".toList, '>'), ("quot".toList, '"'), ("apos".toList, Char.ofNat 39)]

/-- Match the entity name (group 1 of `HTML_PATTERNS.htmlEntities`
(`/&(nbsp|amp|lt|gt|quot|apos|#\d+|#x[\da-f]+);/gi`)) directly after a
`&`, returning the matched text (case preserved) and the suffix after the
`;`. -/
def entNameAt (cs : List Char) : Option (List Char × List Char) :=
  match (entityTable.map Prod.fst).find? (fun n =>
      ciIsPrefixOf n cs && (cs.drop n.length).head? = some ';') with
  | some n => some (cs.take n.length, cs.drop (n.length + 1))
  | none =>
    match cs with
    | '#' :: r =>
      let ds := r.takeWhile isDigit
      if !ds.isEmpty && (r.drop ds.length).head? = some ';' then
        some ('#' :: ds, r.drop (ds.length + 1))
      else
        match r with
        | x :: r2 =>
          if x = 'x' || x = 'X' then
            let hs := r2.takeWhile isHexDigit
            if !hs.isEmpty && (r2.drop hs.length).head? = some ';' then
              some ('#' :: x :: hs, r2.drop (hs.length + 1))
            else none
          else none
        | [] => none
    | _ => none

/-- JS `Number.parseInt(s, 10)` restricted to the entity digits: `none`
models `NaN`. -/
def parseIntDec (s : List Char) : Option Nat :=
  let ds := s.takeWhile isDigit
  if ds.isEmpty then none else some (digitsToNat ds)

/-- Numeric value of the hex digits after `#x`. -/
def hexToNat (s : List Char) : Nat :=
  s.foldl (fun n c => 16 * n + ((hexVal c).getD 0)) 0

/-- `String.fromCharCode` on one code: the code is reduced modulo 2^16
(`ToUint16`); `NaN` (a failed decimal parse) gives code 0.  A lone
surrogate cannot be represented as a `Char` and is modelled as U+FFFD. -/
def fromCharCode (code : Nat) : Char :=
  let c := code % 65536
  if Nat.isValidChar c then Char.ofNat c else Char.ofNat 0xFFFD

/-- The replacement callback of `decodeHtmlEntities` (`html-chunker.ts`
lines 600–631) applied to a matched entity text. -/
def entApply (entity : List Char) : List Char :=
  let lower := entity.map Char.toLower
  match (entityTable.find? (fun p => p.1 == lower)).map Prod.snd with
  | some ch => [ch]
  | none =>
    match entity with
    | '#' :: r =>
      if r.head? ≠ some 'x' then
        [fromCharCode ((parseIntDec r).getD 0)]
      else [fromCharCode (hexToNat (r.drop 1))]
    | _ => '&' :: (entity ++ [';'])

/-- Matcher for a full `&...;` entity with its replacement. -/
def entityAt (cs : List Char) : Option (List Char × List Char) :=
  match cs with
  | '&' :: r =>
    match entNameAt r with
    | some (ent, after) => some (entApply ent, after)
    | none => none
  | _ => none

/-- `decodeHtmlEntities` (`html-chunker.ts` lines 600–631). -/
def decodeHtmlEntities (text : List Char) : List Char :=
  replaceScanF entityAt text.length text

/-- Matcher for `/[ \t]+/g` → `" "`. -/
def spaceTabRunAt (cs : List Char) : Option (List Char × List Char) :=
  match cs with
  | c :: _ =>
    if c = ' ' || c = '\t' then
      some ([' '], cs.dropWhile (fun d => d = ' ' || d = '\t'))
    else none
  | [] => none

/-- Index of the last `'\n'` in a list. -/
def lastNlIdx (cs : List Char) : Option Nat :=
  match cs.reverse.findIdx? (· = '\n') with
  | some j => some (cs.length - 1 - j)
  | none => none

/-- Matcher for `/\n\s*\n/g` → `"\n\n"`: a newline, then (greedily, with
the backtracking forced by the final `\n`) whitespace up to and including
the last newline of the following whitespace run. -/
def nlWsNlAt (cs : List Char) : Option (List Char × List Char) :=
  match cs with
  | '\n' :: rest =>
    let run := rest.takeWhile jsWs
    match lastNlIdx run with
    | some j => some (['\n', '\n'], rest.drop (j + 1))
    | none => none
  | _ => none

/-- One step of `/^\s+|\s+$/gm` → `""` (per-line leading and trailing
whitespace removal) at the current position; `atStart` tracks the `^`
anchor.  Returns the suffix to continue from and the continuation's
anchor state, or `none` if no match starts here. -/
def trimLineAt (atStart : Bool) (cs : List Char) : Option (List Char × Bool) :=
  match cs with
  | c :: _ =>
    if !jsWs c then none
    else
      let run := cs.takeWhile jsWs
      if atStart then
        some (cs.drop run.length, isLineTerm (run.getLastD ' '))
      else if (cs.drop run.length).isEmpty then some ([], false)
      else
        match (List.range run.length).filter
            (fun j => 1 ≤ j && isLineTerm (run.getD j ' ')) |>.getLast? with
        | some j => some (cs.drop j, isLineTerm (run.getD (j - 1) ' '))
        | none => none
  | [] => none

/-- The scan of `/^\s+|\s+$/gm` → `""`. -/
def trimLinesGo : Nat → Bool → List Char → List Char
  | 0, _, cs => cs
  | _, _, [] => []
  | f + 1, atStart, c :: rest =>
    match trimLineAt atStart (c :: rest) with
    | some (after, b) => trimLinesGo f b after
    | none => c :: trimLinesGo f (isLineTerm c) rest

/-- Matcher for `/\n{3,}/g` → `"\n\n"`. -/
def nl3At (cs : List Char) : Option (List Char × List Char) :=
  match cs with
  | '\n' :: '\n' :: '\n' :: rest =>
    some (['\n', '\n'], rest.dropWhile (· = '\n'))
  | _ => none

/-- `normalizeWhitespace` (`html-chunker.ts` lines 639–646): collapse
spaces and tabs, normalize blank lines, trim every line, cap consecutive
newlines at two, and trim the result. -/
def normalizeWhitespace (text : List Char) : List Char :=
  let t1 := replaceScanF spaceTabRunAt text.length text
  let t2 := replaceScanF nlWsNlAt t1.length t1
  let t3 := trimLinesGo t2.length true t2
  let t4 := replaceScanF nl3At t3.length t3
  jsTrim t4

/-- `extractTextContent` (`html-chunker.ts` lines 569–588): newlines for
block closers and `<br>`, tag stripping, entity decoding, whitespace
normalization. -/
def extractTextContent (html : List Char) : List Char :=
  let t1 := replaceScanF blockTagAt html.length html
  let t2 := replaceScanF brTagAt t1.length t1
  let t3 := replaceScanF anyTagAt t2.length t2
  let t4 := decodeHtmlEntities t3
  normalizeWhitespace t4

/-- `extractHeaderSections` (`html-chunker.ts` lines 496–503): split
before every `<h1>`–`<h6>` opening tag (zero-width boundary, position 0
excluded as with every JS zero-width split), keeping non-blank pieces. -/
def hdrHtmlSplitGo : List Char → List (List Char)
  | [] => [[]]
  | c :: rest =>
    if (hOpenAt rest).isSome then [c] :: hdrHtmlSplitGo rest
    else consHead c (hdrHtmlSplitGo rest)

/-- Section kinds of the HTML chunker. -/
inductive SectionType where
  | header : SectionType
  | paragraph : SectionType
  | list : SectionType
  | code : SectionType
  | text : SectionType
  deriving Repr

/-- An extracted HTML section (`HtmlSection`). -/
structure HtmlSection where
  stype : SectionType
  content : List Char

/-- Matcher for the code-block pattern
`/<(pre|code)[^>]*>([\s\S]*?)<\/\1>/gi`: payload is the raw inner
content. -/
def preCodeAt (cs : List Char) : Option (List Char × List Char) :=
  match tagPairAt ('p' :: 'r' :: ['e']) cs with
  | some p => some p
  | none => tagPairAt ('c' :: 'o' :: 'd' :: ['e']) cs

/-- Matcher for the paragraph pattern `/<p[^>]*>([\s\S]*?)<\/p>/gi`. -/
def pTagAt (cs : List Char) : Option (List Char × List Char) :=
  tagPairAt ['p'] cs

/-- `extractSemanticElements` (`html-chunker.ts` lines 508–563): fenced
code sections from `<pre>`/`<code>` elements, then paragraph sections
from `<p>` elements of the remaining HTML, with a whole-document text
fallback. -/
def extractSemanticElements (html : List Char) : List HtmlSection :=
  let codeSections := (scanMatchesF preCodeAt html.length html).foldl
    (fun sections rawContent =>
      if rawContent.isEmpty then sections
      else
        let codeContent := decodeHtmlEntities (stripTags rawContent)
        if (jsTrim codeContent).isEmpty then sections
        else sections ++ [⟨.code,
          (btick :: btick :: btick :: ['\n']) ++ jsTrim codeContent ++
            ('\n' :: btick :: btick :: [btick])⟩]) []
  let remainingHtml := replaceScanF
    (fun cs => (preCodeAt cs).map (fun p => ([], p.2))) html.length html
  let withParas := (scanMatchesF pTagAt remainingHtml.length remainingHtml).foldl
    (fun sections rawContent =>
      if rawContent.isEmpty then sections
      else
        let text := extractTextContent rawContent
        if (jsTrim text).isEmpty then sections
        else sections ++ [⟨.paragraph, jsTrim text⟩]) codeSections
  if withParas.isEmpty then
    let generalText := extractTextContent remainingHtml
    if (jsTrim generalText).isEmpty then [] else [⟨.text, jsTrim generalText⟩]
  else withParas

/-- `extractSections` (`html-chunker.ts` lines 464–490). -/
def extractSections (html : List Char) : List HtmlSection :=
  let headerChunks := (hdrHtmlSplitGo html).filter hasNonWs
  if 1 < headerChunks.length then
    headerChunks.foldl (fun sections chunk =>
      let extracted := extractTextContent chunk
      if (jsTrim extracted).isEmpty then sections
      else sections ++ [⟨.text, extracted⟩]) []
  else extractSemanticElements html

/-- Loop of `groupTextIntoChunks` (`html-chunker.ts` lines 713–734). -/
def gticGo : List (List Char) → List Char → List (List Char)
  | [], cur => if (jsTrim cur).isEmpty then [] else [jsTrim cur]
  | t :: ts, cur =>
    let sep : List Char := if cur.isEmpty then [] else [' ']
    if MAX_CHUNK_SIZE < (cur ++ sep ++ t).length && !cur.isEmpty then
      jsTrim cur :: gticGo ts t
    else gticGo ts (cur ++ sep ++ t)

/-- `groupTextIntoChunks`. -/
def groupTextIntoChunks (texts : List (List Char)) : List (List Char) :=
  gticGo texts []

/-- `subdivideContent` (`html-chunker.ts` lines 696–708): paragraphs if
they split, else sentences, regrouped under the size cap. -/
def subdivideContent (content : List Char) : List (List Char) :=
  let paragraphs := (paraSplit content).filter hasNonWs
  if 1 < paragraphs.length then groupTextIntoChunks paragraphs
  else groupTextIntoChunks ((sentSplit content).filter hasNonWs)

/-- Loop of `groupSectionsIntoChunks` (`html-chunker.ts` lines 651–690). -/
def gsicGo : List HtmlSection → List Char → List (List Char)
  | [], cur => if (jsTrim cur).isEmpty then [] else [jsTrim cur]
  | sec :: rest, cur =>
    let content := sec.content
    if MAX_CHUNK_SIZE < content.length then
      (if (jsTrim cur).isEmpty then [] else [jsTrim cur]) ++
        subdivideContent content ++ gsicGo rest []
    else
      let sep : List Char := if cur.isEmpty then [] else nlnl
      if MAX_CHUNK_SIZE < (cur ++ sep ++ content).length && !(jsTrim cur).isEmpty then
        jsTrim cur :: gsicGo rest content
      else gsicGo rest (cur ++ sep ++ content)

/-- `groupSectionsIntoChunks`. -/
def groupSectionsIntoChunks (sections : List HtmlSection) : List (List Char) :=
  gsicGo sections []

/-- `splitHtmlIntoChunks` (`html-chunker.ts` lines 432–444). -/
def splitHtmlIntoChunks (htmlDocument : List Char) : List (List Char) :=
  let cleanedHtml := cleanHtml htmlDocument
  let sections := extractSections cleanedHtml
  let chunks := groupSectionsIntoChunks sections
  chunks.filter (fun chunk => MIN_CHUNK_SIZE < (jsTrim chunk).length)

/-- Replace a `<name...>body</name>` element by `pre ++ body ++ post`. -/
def tagPairRep (name pre post : List Char) (cs : List Char) :
    Option (List Char × List Char) :=
  (tagPairAt name cs).map (fun p => (pre ++ p.1 ++ post, p.2))

/-- Replace by trying two element names in alternation order (regex
`<(n1|n2)[^>]*>...<\/\1>`). -/
def tagPair2Rep (n1 n2 pre post : List Char) (cs : List Char) :
    Option (List Char × List Char) :=
  match tagPairRep n1 pre post cs with
  | some p => some p
  | none => tagPairRep n2 pre post cs

/-- Matcher for `/<name\s*\/?>/gi` (used for `<br>` and `<hr>`). -/
def voidTagAt (name rep : List Char) (cs : List Char) :
    Option (List Char × List Char) :=
  if ciIsPrefixOf ('<' :: name) cs then
    match (cs.drop (1 + name.length)).dropWhile jsWs with
    | '/' :: '>' :: r => some (rep, r)
    | '>' :: r => some (rep, r)
    | _ => none
  else none

/-- Matcher for `/<\/?[uo]l[^>]*>/gi` → `"\n"`. -/
def uolTagAt (cs : List Char) : Option (List Char × List Char) :=
  match cs with
  | '<' :: rest =>
    let rest2 := match rest with
      | '/' :: r => some r
      | r => some r
    match rest2 with
    | some (u :: l :: r3) =>
      if (u = 'u' || u = 'U' || u = 'o' || u = 'O') && (l = 'l' || l = 'L') then
        match splitAtChar '>' r3 with
        | some p => some (['\n'], p.2)
        | none => none
      else none
    | _ => none
  | _ => none

/-- Start index of the last case-insensitive occurrence of `pat` in `cs`. -/
def lastCiIdxGo (pat : List Char) (idx : Nat) (best : Option Nat) :
    List Char → Option Nat
  | [] => best
  | c :: rest =>
    lastCiIdxGo pat (idx + 1)
      (if ciIsPrefixOf pat (c :: rest) then some idx else best) rest

/-- Matcher for the link pattern
`/<a[^>]*href="([^"]*)"[^>]*>([\s\S]*?)<\/a>/gi` → `"[$2]($1)"`.  The
greedy `[^>]*` before `href="` makes the engine bind the last `href="`
occurrence that is not preceded by a `>`; the URL may itself contain
`>`. -/
def aTagAt (cs : List Char) : Option (List Char × List Char) :=
  if ciIsPrefixOf ('<' :: ['a']) cs then
    let rest := cs.drop 2
    let zone := match splitAtChar '>' rest with
      | some p => p.1
      | none => rest
    match lastCiIdxGo ('h' :: 'r' :: 'e' :: 'f' :: '=' :: ['"']) 0 none zone with
    | some p =>
      if p + 6 ≤ zone.length then
        let afterQuote := rest.drop (p + 6)
        match splitAtChar '"' afterQuote with
        | some (url, afterUrl) =>
          match splitAtChar '>' afterUrl with
          | some (_, afterGt) =>
            match findCiSplit ('<' :: '/' :: 'a' :: ['>']) afterGt with
            | some (body, after) =>
              some ('[' :: body ++ ']' :: '(' :: url ++ [')'], after)
            | none => none
          | none => none
        | none => none
      else none
    | none => none
  else none

/-- `htmlToSimpleMarkdown` (`html-chunker.ts` lines 743–787): the ordered
sequence of global replaces converting HTML structure to Markdown
syntax, then residual tag stripping, entity decoding and whitespace
normalization. -/
def htmlToSimpleMarkdown (html : List Char) : List Char :=
  let m0 := cleanHtml html
  let hdr := fun (n : Nat) (t : List Char) =>
    let name := 'h' :: [Char.ofNat ('0'.toNat + n)]
    replaceScanF
      (tagPairRep name ('\n' :: List.replicate n '#' ++ [' ']) ['\n'])
      t.length t
  let m1 := hdr 1 m0
  let m2 := hdr 2 m1
  let m3 := hdr 3 m2
  let m4 := hdr 4 m3
  let m5 := hdr 5 m4
  let m6 := hdr 6 m5
  let m7 := replaceScanF
    (tagPair2Rep ('s' :: "trong".toList) ['b'] ['*', '*'] ['*', '*'])
    m6.length m6
  let m8 := replaceScanF (tagPair2Rep ['e', 'm'] ['i'] ['*'] ['*']) m7.length m7
  let m9 := replaceScanF
    (tagPairRep ('c' :: 'o' :: 'd' :: ['e']) [btick] [btick]) m8.length m8
  let m10 := replaceScanF
    (tagPairRep ('p' :: 'r' :: ['e'])
      ('\n' :: btick :: btick :: btick :: ['\n'])
      ('\n' :: btick :: btick :: btick :: ['\n'])) m9.length m9
  let m11 := replaceScanF
    (tagPairRep ['l', 'i'] ['-', ' '] ['\n']) m10.length m10
  let m12 := replaceScanF uolTagAt m11.length m11
  let m13 := replaceScanF aTagAt m12.length m12
  let m14 := replaceScanF (tagPairRep ['p'] ['\n'] ['\n']) m13.length m13
  let m15 := replaceScanF brTagAt m14.length m14
  let m16 := replaceScanF
    (voidTagAt ['h', 'r'] ('\n' :: '-' :: '-' :: '-' :: ['\n'])) m15.length m15
  let m17 := replaceScanF anyTagAt m16.length m16
  let m18 := decodeHtmlEntities m17
  normalizeWhitespace m18

/-- `splitHtmlDocument` (`chunker.ts` lines 193–204): the HTML chunker,
falling back to a Markdown conversion re-chunked by the text chunker when
the HTML chunker produced at most one chunk for an oversize document. -/
def splitHtmlDocument (document : List Char) : List (List Char) :=
  let chunks := splitHtmlIntoChunks document
  if chunks.length ≤ 1 && MAX_CHUNK_SIZE < document.length then
    splitMarkdownDocument (htmlToSimpleMarkdown document)
  else chunks

/-- `splitJsonDocument` (`chunker.ts` lines 210–225): parse, extract
documentation-bearing text and Markdown-chunk it; on parse failure or
empty extraction, Markdown-chunk the raw document. -/
def splitJsonDocument (document : List Char) : List (List Char) :=
  match parseJson document with
  | some parsed =>
    let textContent := extractJTC 11 parsed
    if !textContent.isEmpty then splitMarkdownDocument textContent
    else splitMarkdownDocument document
  | none => splitMarkdownDocument document

/-- Chunking options (`ChunkingOptions` of `types/index.ts`). -/
structure ChunkingOptions where
  forceFormat : Option DocumentFormat
  enableHtmlFallback : Bool
  enableJsonFallback : Bool

/-- The default chunking options (`forceFormat` unset, both fallbacks
enabled). -/
def defaultChunkingOptions : ChunkingOptions :=
  ⟨none, true, true⟩

/-- `splitIntoChunks` (`chunker.ts` lines 152–167): format detection (or a
forced format) routing to the HTML, JSON or Markdown/plain-text
strategy. -/
def splitIntoChunks (document : List Char) (options : ChunkingOptions) :
    List (List Char) :=
  let format := options.forceFormat.getD
    (detectFormat document options.enableHtmlFallback options.enableJsonFallback)
  match format with
  | .html => splitHtmlDocument document
  | .json => splitJsonDocument document
  | _ => splitMarkdownDocument document

/-! ## Search orchestrator (`doc-search/index.ts`) -/

/-- A scored chunk (`DocChunk` of `types/index.ts`). -/
structure DocChunk where
  content : List Char
  index : Nat
  score : ℚ
  deriving Repr

/-- A search result (`SearchResult` of `types/index.ts`). -/
structure SearchResult where
  results : List (List Char)
  totalChunks : Nat
  matchedChunks : Nat
  deriving Repr

/-- The comparator `(a, b) => b.score - a.score` of the relevance sort:
`a` may stay before `b` exactly when `a.score ≥ b.score` (JS `sort` is
stable). -/
def scoreGe (a b : DocChunk) : Bool :=
  b.score ≤ a.score

/-- Loop of `selectBestResults` (`index.ts` lines 260–286): walk the
relevant chunks in rank order; stop at `maxResults`; skip chunks whose
index was already claimed; otherwise claim the index and its in-range
neighbors and emit the expanded context. -/
def sbrGo (chunks : List (List Char)) (maxResults : Nat) :
    List DocChunk → List Nat → Nat → List (List Char)
  | [], _, _ => []
  | chunk :: rest, usedIndices, count =>
    if maxResults ≤ count then []
    else if chunk.index ∈ usedIndices then sbrGo chunks maxResults rest usedIndices count
    else
      let used1 := chunk.index :: usedIndices
      let used2 := if 0 < chunk.index then (chunk.index - 1) :: used1 else used1
      let used3 :=
        if chunk.index < chunks.length - 1 then (chunk.index + 1) :: used2 else used2
      getExpandedContext chunks chunk.index ::
        sbrGo chunks maxResults rest used3 (count + 1)

/-- `selectBestResults` (`index.ts` lines 260–286). -/
def selectBestResults (chunks : List (List Char)) (relevantChunks : List DocChunk)
    (maxResults : Nat) : List (List Char) :=
  sbrGo chunks maxResults relevantChunks [] 0

/-- The indices selected by `selectBestResults`, in selection order (the
loop mirrored with the chunk index in place of the expanded context). -/
def sbrIdxGo (chunks : List (List Char)) (maxResults : Nat) :
    List DocChunk → List Nat → Nat → List Nat
  | [], _, _ => []
  | chunk :: rest, usedIndices, count =>
    if maxResults ≤ count then []
    else if chunk.index ∈ usedIndices then sbrIdxGo chunks maxResults rest usedIndices count
    else
      let used1 := chunk.index :: usedIndices
      let used2 := if 0 < chunk.index then (chunk.index - 1) :: used1 else used1
      let used3 :=
        if chunk.index < chunks.length - 1 then (chunk.index + 1) :: used2 else used2
      chunk.index :: sbrIdxGo chunks maxResults rest used3 (count + 1)

/-- The chunks of a document with their scores against a query, in
document order (steps 1–3 of `searchInDocs`). -/
def scoredChunksOf (document searchQuery : List Char) : List DocChunk :=
  let chunks := splitIntoChunks document defaultChunkingOptions
  let searchTerms := extractSearchTerms searchQuery
  chunks.enum.map (fun p => ⟨p.2, p.1, calculateRelevanceScore p.2 searchTerms⟩)

/-- Stable insertion of a chunk into a list sorted by descending score:
the element goes before the first strictly lower-scored element, after
all equal scores (preserving original order, as the stable JS sort
does). -/
def insScore (a : DocChunk) : List DocChunk → List DocChunk
  | [] => [a]
  | b :: rest => if scoreGe a b then a :: b :: rest else b :: insScore a rest

/-- Stable sort by descending score.  JS `Array.prototype.sort` is stable;
any stable sorting algorithm computes the same permutation for a total
preorder, and insertion sort is used here because it is structurally
recursive.  Note `insScore` places `a` before `b` only when
`a.score ≥ b.score`, so among equal scores the earlier element stays
first. -/
def sortByScoreDesc (l : List DocChunk) : List DocChunk :=
  l.foldr insScore []

/-- The relevant chunks of `searchInDocs`: positive scores only, sorted by
descending score (stable). -/
def relevantChunksOf (document searchQuery : List Char) : List DocChunk :=
  sortByScoreDesc ((scoredChunksOf document searchQuery).filter (fun c => 0 < c.score))

/-- `searchInDocs` (`index.ts` lines 220–247) at the default chunking
options: chunk, score, rank, and select non-overlapping expanded
contexts. -/
def searchInDocs (document searchQuery : List Char) (maxResults : Nat) :
    SearchResult :=
  let chunks := splitIntoChunks document defaultChunkingOptions
  let relevantChunks := relevantChunksOf document searchQuery
  ⟨selectBestResults chunks relevantChunks maxResults,
   chunks.length, relevantChunks.length⟩

/-- The source indices of the results of `searchInDocs`, in emission
order. -/
def searchSelectedIndices (document searchQuery : List Char) (maxResults : Nat) :
    List Nat :=
  sbrIdxGo (splitIntoChunks document defaultChunkingOptions) maxResults
    (relevantChunksOf document searchQuery) [] 0

/-- The result-substitution step of the `search_docs` tool
(`search-docs.ts` lines 57–64): an empty result list is replaced by the
fixed "no results" sentinel. -/
def prepareOutputResults (results : List (List Char)) : List (List Char) :=
  if 0 < results.length then results
  else ["Nenhum resultado encontrado para a busca.".toList]

/-! ## Smart fetch orchestrator (`headless-renderer.ts` / `smart-fetch`)

`smartFetch` is embedded as its control-flow skeleton over an abstract
environment of effectful callees.  The type of each callee records its
catch structure, read off its source: `fetchWithHttp` re-throws transport
errors and otherwise always returns a `success: true`, `method: "direct"`
result; `fetchOpenApiSpec`, `isPuppeteerAvailable` and `renderSwaggerPage`
wrap their bodies in `try`/`catch` and never throw; `detectSwagger` and
`looksLikeSpa` are pure; `probeCommonSpecEndpoints` can throw from its
un-guarded `new URL(baseUrl)`, and `openApiToMarkdown` can throw on
malformed spec shapes (for example a `null` path item makes its
`pathItem[method]` access raise a `TypeError`), so both carry `Except`. -/

/-- Content classification of a `SmartFetchResult`. -/
inductive ContentType where
  | markdown : ContentType
  | html : ContentType
  | json : ContentType
  | openapi : ContentType
  | text : ContentType
  | unknown : ContentType
  deriving DecidableEq, Repr

/-- Extraction method of a `SmartFetchResult`. -/
inductive FetchMethod where
  | direct : FetchMethod
  | openapi_spec : FetchMethod
  | headless : FetchMethod
  | html_extract : FetchMethod
  deriving DecidableEq, Repr

/-- `SmartFetchResult` (`smart-fetch` module). -/
structure SmartFetchResult where
  success : Bool
  content : Option (List Char)
  contentType : ContentType
  method : FetchMethod
  error : Option (List Char)
  url : List Char
  specUrl : Option (List Char)
  deriving DecidableEq, Repr

/-- `SwaggerDetectionResult` restricted to the fields `smartFetch` reads. -/
structure DetectionResult where
  isSwagger : Bool
  specUrl : Option (List Char)
  deriving DecidableEq, Repr

/-- `RenderResult` restricted to the fields `tryHeadlessRender` reads. -/
structure RenderResult where
  success : Bool
  text : Option (List Char)
  error : Option (List Char)
  deriving DecidableEq, Repr

/-- The strategy-toggle options of `SmartFetchOptions` (the timeouts and
headers only feed the abstracted callees). -/
structure SmartFetchOptions where
  tryOpenApiSpec : Bool
  useHeadlessFallback : Bool
  probeCommonEndpoints : Bool
  deriving DecidableEq, Repr

/-- The defaults of `DEFAULT_OPTIONS`. -/
def defaultSmartFetchOptions : SmartFetchOptions :=
  ⟨true, true, true⟩

/-- Outcomes of the effectful callees of `smartFetch`, with throwing
callees in `Except` (the error is the JS exception's message). -/
structure FetchEnv (Spec : Type) where
  fetchWithHttp : Except (List Char) (ContentType × List Char)
  looksLikeSpa : List Char → Bool
  detectSwagger : List Char → DetectionResult
  fetchOpenApiSpec : List Char → Option Spec
  isValidOpenApiSpec : Spec → Bool
  openApiToMarkdown : Spec → Except (List Char) (List Char)
  probeCommonSpecEndpoints : Except (List Char) (Option (List Char))
  isPuppeteerAvailable : Bool
  renderSwaggerPage : RenderResult

/-- `trySwaggerExtraction` (`headless-renderer.ts` lines 684–744): detect
Swagger, try the embedded spec URL, then probe common endpoints; any
recovered valid spec is rendered to Markdown. -/
def trySwaggerExtraction {Spec : Type} (env : FetchEnv Spec)
    (opts : SmartFetchOptions) (url html : List Char) :
    Except (List Char) SmartFetchResult :=
  let detection := env.detectSwagger html
  let notFound : SmartFetchResult :=
    ⟨false, none, .unknown, .openapi_spec,
     some ('S' :: "pec OpenAPI nao encontrada".toList), url, none⟩
  if !detection.isSwagger then
    .ok ⟨false, none, .unknown, .openapi_spec,
      some ('N' :: "ao e Swagger".toList), url, none⟩
  else
    let fromSpecUrl : Option (Except (List Char) SmartFetchResult) :=
      match detection.specUrl with
      | some specUrl =>
        match env.fetchOpenApiSpec specUrl with
        | some spec =>
          if env.isValidOpenApiSpec spec then
            some (match env.openApiToMarkdown spec with
              | .error e => .error e
              | .ok markdown =>
                .ok ⟨true, some markdown, .openapi, .openapi_spec, none, url,
                  some specUrl⟩)
          else none
        | none => none
      | none => none
    match fromSpecUrl with
    | some r => r
    | none =>
      if opts.probeCommonEndpoints then
        match env.probeCommonSpecEndpoints with
        | .error e => .error e
        | .ok (some probeUrl) =>
          match env.fetchOpenApiSpec probeUrl with
          | some spec =>
            if env.isValidOpenApiSpec spec then
              match env.openApiToMarkdown spec with
              | .error e => .error e
              | .ok markdown =>
                .ok ⟨true, some markdown, .openapi, .openapi_spec, none, url,
                  some probeUrl⟩
            else .ok notFound
          | none => .ok notFound
        | .ok none => .ok notFound
      else .ok notFound

/-- `tryHeadlessRender` (`headless-renderer.ts` lines 749–782): requires
the Puppeteer capability; a successful render with text becomes a
`headless` result. -/
def tryHeadlessRender {Spec : Type} (env : FetchEnv Spec) (url : List Char) :
    SmartFetchResult :=
  if !env.isPuppeteerAvailable then
    ⟨false, none, .unknown, .headless,
     some ('P' :: "uppeteer nao disponivel".toList), url, none⟩
  else
    let result := env.renderSwaggerPage
    if !result.success || result.text.isNone then
      ⟨false, none, .unknown, .headless,
       some (result.error.getD ('F' :: "alha na renderizacao".toList)), url, none⟩
    else ⟨true, result.text, .text, .headless, none, url, none⟩

/-- The body of `smartFetch`'s `try` block (`headless-renderer.ts` lines
527–553): direct fetch; early return unless an SPA-looking HTML page;
Swagger extraction; headless fallback; terminal fallback to the direct
result.  An exception anywhere in the body propagates. -/
def smartFetchE {Spec : Type} (env : FetchEnv Spec) (opts : SmartFetchOptions)
    (url : List Char) : Except (List Char) SmartFetchResult :=
  match env.fetchWithHttp with
  | .error e => .error e
  | .ok (ct, content) =>
    let httpResult : SmartFetchResult := ⟨true, some content, ct, .direct, none, url, none⟩
    if ct ≠ ContentType.html || !env.looksLikeSpa content then .ok httpResult
    else
      let afterSwagger : Except (List Char) (Option SmartFetchResult) :=
        if opts.tryOpenApiSpec then
          match trySwaggerExtraction env opts url content with
          | .error e => .error e
          | .ok r => .ok (if r.success then some r else none)
        else .ok none
      match afterSwagger with
      | .error e => .error e
      | .ok (some r) => .ok r
      | .ok none =>
        if opts.useHeadlessFallback then
          let headlessResult := tryHeadlessRender env url
          if headlessResult.success then .ok headlessResult else .ok httpResult
        else .ok httpResult

/-- `smartFetch` (`headless-renderer.ts` lines 524–564): the single
`try`/`catch` around the whole strategy pipeline; a caught exception
produces the `success: false`, `method: "direct"` result. -/
def smartFetch {Spec : Type} (env : FetchEnv Spec) (opts : SmartFetchOptions)
    (url : List Char) : SmartFetchResult :=
  match smartFetchE env opts url with
  | .ok r => r
  | .error message => ⟨false, none, .unknown, .direct, some message, url, none⟩

/-! ## Auxiliary notions for the statements of the claims -/

/-- Does the string contain a sentence boundary (a `.`, `!` or `?`
immediately followed by whitespace — the cut points of
`SEPARATION_PATTERNS.sentences`)?  A chunk without one is an
"irreducible single sentence". -/
def hasSentBoundary : List Char → Bool
  | a :: b :: rest => (isSentPunct a && jsWs b) || hasSentBoundary (b :: rest)
  | _ => false

/-- Characters untouched by each normalization stage (everything
`normalizeText` emits satisfies this, which makes a second normalization
the identity). -/
def normStable (c : Char) : Bool :=
  (Char.toLower c = c) && !isCombMark c && (punctToSpace c = c)

/-- The whitespace-separated words of a string (used by the reference
scoring definition of the specification: "number of whitespace-separated
words"). -/
def wordsOf (t : List Char) : List (List Char) :=
  (splitWsRuns t).filter (fun w => !w.isEmpty)

/-- Reference per-term score, following the specification's words: the
full-phrase weight `10 × wordCount(term)` when the normalized chunk
contains the normalized term, plus, for every word of the term of length
at least 2, `2 ×` its exact word-boundary occurrence count and `0.5 ×`
its word-boundary prefix-occurrence count. -/
def termScoreSpec (normalizedChunk normalizedTerm : List Char) : ℚ :=
  (if hasSub normalizedTerm normalizedChunk then
    10 * ((wordsOf normalizedTerm).length : ℚ)
  else 0) +
  ((wordsOf normalizedTerm).map (fun word =>
    if 2 ≤ word.length then
      2 * (countTok word normalizedChunk : ℚ) +
        (1 / 2 : ℚ) * (countPre word normalizedChunk : ℚ)
    else 0)).sum

/-- Reference relevance score, following the specification's words: sum
the per-term scores over the terms (skipping terms that normalize to the
empty string) and apply the multiplicative bonuses once to the cumulative
sum. -/
def relevanceScoreSpec (chunk : List Char) (searchTerms : List (List Char)) : ℚ :=
  applyBonuses chunk
    ((searchTerms.map (fun term =>
      let normalizedTerm := normalizeText term
      if normalizedTerm.isEmpty then 0
      else termScoreSpec (normalizeText chunk) normalizedTerm)).sum)

/-- The document of the chunk-size counterexample: two header sections;
the first contains two paragraphs and exceeds `MAX_CHUNK_SIZE`, and its
first paragraph alone still exceeds the cap while containing a sentence
boundary. -/
def docC1 : List Char :=
  '#' :: ' ' :: 'A' :: '\n' ::
    (List.replicate 1150 'a' ++ '.' :: ' ' :: List.replicate 1150 'b') ++
    ('\n' :: '\n' :: List.replicate 20 'c') ++
    ('\n' :: '\n' :: ('#' :: ' ' :: 'B' :: '\n' :: "some filler text here.".toList))

/-- The document of the concrete search scenario. -/
def docC7 : List Char :=
  ('#' :: " Intro\nHello world.\n\n".toList) ++ ('#' :: " Auth\nUse a bearer token.".toList)

/-- A fetch environment in which the direct fetch succeeds with
SPA-looking HTML, Swagger detection finds an embedded spec URL whose spec
is fetched and passes validation, but rendering the spec to Markdown
throws (as `openApiToMarkdown` does on a spec like
`{"paths":{"/a":null}}`, whose `null` path item makes the
`pathItem[method]` accesses raise a `TypeError`), while the headless
renderer would have succeeded. -/
def envC9 : FetchEnv Unit where
  fetchWithHttp := .ok (.html, ('<' :: "div id=\x22app\x22></div>".toList))
  looksLikeSpa := fun _ => true
  detectSwagger := fun _ => ⟨true, some ('/' :: "v3/api-docs".toList)⟩
  fetchOpenApiSpec := fun _ => some ()
  isValidOpenApiSpec := fun _ => true
  openApiToMarkdown := fun _ =>
    .error ('C' :: "annot read properties of null".toList)
  probeCommonSpecEndpoints := .ok none
  isPuppeteerAvailable := true
  renderSwaggerPage := ⟨true, some ('r' :: "endered page text".toList), none⟩

/-- The URL used in the smart-fetch counterexample. -/
def urlC9 : List Char :=
  'h' :: "ttps://api.example.com/docs".toList

/-- Prepend a prefix onto the first piece of a piece list. -/
def consPre (pre : List Char) : List (List Char) → List (List Char)
  | [] => [pre]
  | p :: ps => (pre ++ p) :: ps

/-- Tail-recursive mirror of `headerSplitGo` (accumulator-based, used to
evaluate the split on large concrete documents; `headerSplitTR_spec`
below proves it computes the same pieces). -/
def headerSplitTR (cur : List Char) (acc : List (List Char)) :
    List Char → List (List Char)
  | [] => (cur.reverse :: acc).reverse
  | c :: rest =>
    if isLineTerm c && hdrBoundary rest then
      headerSplitTR [] ((c :: cur).reverse :: acc) rest
    else headerSplitTR (c :: cur) acc rest

/-- Tail-recursive mirror of `paraSplitGo`. -/
def paraSplitTR (inRun : Bool) (cur : List Char) (acc : List (List Char)) :
    List Char → List (List Char)
  | [] => (cur.reverse :: acc).reverse
  | c :: rest =>
    if inRun && c = '\n' then paraSplitTR true cur acc rest
    else if c = '\n' && rest.head? = some '\n' then
      paraSplitTR true [] (cur.reverse :: acc) rest
    else paraSplitTR false (c :: cur) acc rest

/-- The first expected chunk of the counterexample document: oversize and
containing a sentence boundary. -/
def q1C1 : List Char :=
  '#' :: ' ' :: 'A' :: '\n' ::
    (List.replicate 1150 'a' ++ '.' :: ' ' :: List.replicate 1150 'b')

/-- The second expected chunk of the counterexample document. -/
def q2C1 : List Char := List.replicate 20 'c'

/-- The first header piece of the counterexample document. -/
def p1C1 : List Char :=
  q1C1 ++ ('\n' :: '\n' :: q2C1) ++ ['\n', '\n']

/-- The second header piece (and third expected chunk) of the
counterexample document. -/
def p2C1 : List Char :=
  '#' :: ' ' :: 'B' :: '\n' :: "some filler text here.".toList

/-! ## Theorems -/

theorem headerSplitGo_ne_nil : ∀ cs, headerSplitGo cs ≠ [] := by
  intro cs
  match cs with
  | [] => simp [headerSplitGo]
  | c :: rest =>
    rw [headerSplitGo]
    split
    · simp
    · cases h : headerSplitGo rest <;> simp [consHead]

theorem paraSplitGo_ne_nil : ∀ b cs, paraSplitGo b cs ≠ [] := by
  intro b cs
  induction cs generalizing b with
  | nil => simp [paraSplitGo]
  | cons c rest ih =>
    rw [paraSplitGo]
    split
    · exact ih true
    · split
      · simp
      · cases h : paraSplitGo false rest with
        | nil => exact absurd h (ih false)
        | cons p ps => simp [consHead]

theorem headerSplitTR_spec :
    ∀ (cs : List Char) (cur : List Char) (acc : List (List Char)),
      headerSplitTR cur acc cs =
        acc.reverse ++ consPre cur.reverse (headerSplitGo cs) := by
  intro cs
  induction cs with
  | nil => intro cur acc; simp [headerSplitTR, headerSplitGo, consPre]
  | cons c rest ih =>
    intro cur acc
    rw [headerSplitTR, headerSplitGo]
    split
    · rw [ih]
      cases h : headerSplitGo rest with
      | nil => exact absurd h (headerSplitGo_ne_nil rest)
      | cons p ps => simp [consPre]
    · rw [ih]
      cases h : headerSplitGo rest with
      | nil => exact absurd h (headerSplitGo_ne_nil rest)
      | cons p ps => simp [consPre, consHead]

theorem headerSplitGo_eq_TR (cs : List Char) :
    headerSplitGo cs = headerSplitTR [] [] cs := by
  rw [headerSplitTR_spec]
  cases h : headerSplitGo cs with
  | nil => exact absurd h (headerSplitGo_ne_nil cs)
  | cons p ps => simp [consPre]

theorem paraSplitTR_spec :
    ∀ (cs : List Char) (b : Bool) (cur : List Char) (acc : List (List Char)),
      paraSplitTR b cur acc cs =
        acc.reverse ++ consPre cur.reverse (paraSplitGo b cs) := by
  intro cs
  induction cs with
  | nil => intro b cur acc; simp [paraSplitTR, paraSplitGo, consPre]
  | cons c rest ih =>
    intro b cur acc
    rw [paraSplitTR, paraSplitGo]
    split
    · exact ih true cur acc
    · split
      · rw [ih]
        cases h : paraSplitGo true rest with
        | nil => exact absurd h (paraSplitGo_ne_nil true rest)
        | cons p ps => simp [consPre]
      · rw [ih]
        cases h : paraSplitGo false rest with
        | nil => exact absurd h (paraSplitGo_ne_nil false rest)
        | cons p ps => simp [consPre, consHead]

theorem paraSplitGo_eq_TR (b : Bool) (cs : List Char) :
    paraSplitGo b cs = paraSplitTR b [] [] cs := by
  rw [paraSplitTR_spec]
  cases h : paraSplitGo b cs with
  | nil => exact absurd h (paraSplitGo_ne_nil b cs)
  | cons p ps => simp [consPre]

/-- C7: for the document `"# Intro\nHello world.\n\n# Auth\nUse a bearer
token."` and the query `"bearer token"`, `searchInDocs` returns exactly
one result string, which contains the `"# Auth"` section, with
`matchedChunks = 1` and `totalChunks = 2`. -/
theorem claim_C7 :
    (searchInDocs docC7 ('b' :: "earer token".toList) 3).results =
      [('#' :: " Intro\nHello world.\n\n\n\n---\n\n".toList) ++
        ('#' :: " Auth\nUse a bearer token.".toList)] ∧
    hasSub ('#' :: " Auth\nUse a bearer token.".toList)
      ((searchInDocs docC7 ('b' :: "earer token".toList) 3).results.headD []) = true ∧
    (searchInDocs docC7 ('b' :: "earer token".toList) 3).matchedChunks = 1 ∧
    (searchInDocs docC7 ('b' :: "earer token".toList) 3).totalChunks = 2 := by
  decide

/-- C9 counterexample: an environment in which the direct HTTP fetch
succeeds (with SPA-looking HTML) but the Swagger-extraction stage throws
an exception escaping its helper (from spec-to-Markdown rendering); the
pipeline does not proceed to the headless fallback — which would have
succeeded — nor return the direct-fetch result, but returns
`success = false` with `method = direct`, refuting the claim that only a
failure of step 1 yields `success = false`. -/
theorem claim_C9_counterexample :
    (smartFetch envC9 defaultSmartFetchOptions urlC9).success = false ∧
    (envC9.fetchWithHttp matches .ok _) ∧
    (tryHeadlessRender envC9 urlC9).success = true := by
  decide

lemma consHead_eq_consPre (c : Char) (l : List (List Char)) :
    consHead c l = consPre [c] l := by
  cases l <;> rfl

lemma consPre_consPre (a b : List Char) (l : List (List Char)) :
    consPre a (consPre b l) = consPre (a ++ b) l := by
  cases l <;> simp [consPre]

lemma consPre_cons (pre p : List Char) (ps : List (List Char)) :
    consPre pre (p :: ps) = (pre ++ p) :: ps := rfl

lemma headerSplitGo_cons_of_notLT (c : Char) (rest : List Char)
    (h : isLineTerm c = false) :
    headerSplitGo (c :: rest) = consHead c (headerSplitGo rest) := by
  rw [headerSplitGo, if_neg]
  simp [h]

lemma headerSplitGo_cons_of_noHdr (c : Char) (rest : List Char)
    (h : hdrBoundary rest = false) :
    headerSplitGo (c :: rest) = consHead c (headerSplitGo rest) := by
  rw [headerSplitGo, if_neg]
  simp [h]

lemma headerSplitGo_cut (c : Char) (rest : List Char)
    (h1 : isLineTerm c = true) (h2 : hdrBoundary rest = true) :
    headerSplitGo (c :: rest) = [c] :: headerSplitGo rest := by
  rw [headerSplitGo, if_pos]
  simp [h1, h2]

lemma headerSplitGo_absorb (pre rest : List Char)
    (h : ∀ c ∈ pre, isLineTerm c = false) :
    headerSplitGo (pre ++ rest) = consPre pre (headerSplitGo rest) := by
  induction pre with
  | nil =>
    simp only [List.nil_append]
    cases hh : headerSplitGo rest with
    | nil => exact absurd hh (headerSplitGo_ne_nil rest)
    | cons p ps => simp [consPre]
  | cons c pre ih =>
    rw [List.cons_append,
      headerSplitGo_cons_of_notLT c _ (h c (by simp)),
      ih (fun x hx => h x (by simp [hx])), consHead_eq_consPre,
      consPre_consPre]
    rfl

lemma hdrBoundary_head_ne (c : Char) (rest : List Char) (h : c ≠ '#') :
    hdrBoundary (c :: rest) = false := by
  unfold hdrBoundary
  rw [List.takeWhile_cons_of_neg (by simpa using h)]
  simp

lemma replicate_cons_append (n : Nat) (c : Char) (t : List Char) :
    List.replicate (n + 1) c ++ t = c :: (List.replicate n c ++ t) := by
  simp [List.replicate_succ]

lemma paraSplitGo_cons_of_ne (b : Bool) (c : Char) (rest : List Char)
    (h : c ≠ '\n') :
    paraSplitGo b (c :: rest) = consHead c (paraSplitGo false rest) := by
  rw [paraSplitGo, if_neg (by simp [h]), if_neg (by simp [h])]

lemma paraSplitGo_single_nl (rest : List Char)
    (h : rest.head? ≠ some '\n') :
    paraSplitGo false ('\n' :: rest) = consHead '\n' (paraSplitGo false rest) := by
  rw [paraSplitGo, if_neg (by simp), if_neg (by simp [h])]

lemma paraSplitGo_absorb (b : Bool) (pre rest : List Char)
    (hpre : pre ≠ []) (h : ∀ c ∈ pre, c ≠ '\n') :
    paraSplitGo b (pre ++ rest) = consPre pre (paraSplitGo false rest) := by
  induction pre generalizing b with
  | nil => exact absurd rfl hpre
  | cons c pre ih =>
    rw [List.cons_append, paraSplitGo_cons_of_ne _ c _ (h c (by simp))]
    cases pre with
    | nil =>
      simp only [List.nil_append, consHead_eq_consPre]
    | cons d pre' =>
      rw [ih false (by simp) (fun x hx => h x (by simp [hx])),
        consHead_eq_consPre, consPre_consPre]
      rfl

lemma hasSentBoundary_append_left (pre t : List Char)
    (h : hasSentBoundary t = true) :
    hasSentBoundary (pre ++ t) = true := by
  induction pre with
  | nil => simpa
  | cons c pre ih =>
    have hne : pre ++ t ≠ [] := by
      intro hh
      rcases List.append_eq_nil.mp hh with ⟨_, h2⟩
      subst h2
      simp [hasSentBoundary] at h
    cases hpt : pre ++ t with
    | nil => exact absurd hpt hne
    | cons b r =>
      rw [List.cons_append, hpt, hasSentBoundary]
      rw [hpt] at ih
      simp [ih]

lemma dropWhile_eq_self_of_head (p : Char → Bool) (l : List Char) (c : Char)
    (hc : l.head? = some c) (hp : p c = false) :
    l.dropWhile p = l := by
  cases l with
  | nil => simp at hc
  | cons a t =>
    simp at hc
    subst hc
    simp [List.dropWhile_cons, hp]

lemma jsTrim_eq_self (l : List Char) (a b : Char)
    (ha : l.head? = some a) (hwa : jsWs a = false)
    (hb : l.getLast? = some b) (hwb : jsWs b = false) :
    jsTrim l = l := by
  unfold jsTrim
  rw [dropWhile_eq_self_of_head jsWs l a ha hwa,
    dropWhile_eq_self_of_head jsWs l.reverse b (by simpa using hb) hwb,
    List.reverse_reverse]

lemma replicate_append_head (n : Nat) (c : Char) (t : List Char)
    (hn : 0 < n) : (List.replicate n c ++ t).head? = some c := by
  cases n with
  | zero => omega
  | succ m => simp [List.replicate_succ]

lemma hdrBoundary_head (cs : List Char) (c : Char)
    (hc : cs.head? = some c) (h : c ≠ '#') : hdrBoundary cs = false := by
  cases cs with
  | nil => simp at hc
  | cons a t =>
    simp at hc
    subst hc
    exact hdrBoundary_head_ne a t h

lemma docC1_shape : docC1 =
    '#' :: ' ' :: 'A' :: '\n' ::
      (List.replicate 1150 'a' ++ ('.' :: ' ' ::
        (List.replicate 1150 'b' ++ ('\n' :: '\n' ::
          (List.replicate 20 'c' ++ ('\n' :: '\n' :: p2C1)))))) := by
  simp [docC1, p2C1]

lemma headerSplitGo_docC1 : headerSplitGo docC1 = [p1C1, p2C1] := by
  rw [docC1_shape]
  rw [headerSplitGo_cons_of_notLT '#' _ (by decide)]
  rw [headerSplitGo_cons_of_notLT ' ' _ (by decide)]
  rw [headerSplitGo_cons_of_notLT 'A' _ (by decide)]
  rw [headerSplitGo_cons_of_noHdr '\n' _
    (hdrBoundary_head _ 'a' (replicate_append_head 1150 'a' _ (by norm_num))
      (by decide))]
  rw [headerSplitGo_absorb (List.replicate 1150 'a') _
    (fun c hc => by rw [List.eq_of_mem_replicate hc]; decide)]
  rw [headerSplitGo_cons_of_notLT '.' _ (by decide)]
  rw [headerSplitGo_cons_of_notLT ' ' _ (by decide)]
  rw [headerSplitGo_absorb (List.replicate 1150 'b') _
    (fun c hc => by rw [List.eq_of_mem_replicate hc]; decide)]
  rw [headerSplitGo_cons_of_noHdr '\n' _ (hdrBoundary_head _ '\n' (by simp) (by decide))]
  rw [headerSplitGo_cons_of_noHdr '\n' _
    (hdrBoundary_head _ 'c' (replicate_append_head 20 'c' _ (by norm_num))
      (by decide))]
  rw [headerSplitGo_absorb (List.replicate 20 'c') _
    (fun c hc => by rw [List.eq_of_mem_replicate hc]; decide)]
  rw [headerSplitGo_cons_of_noHdr '\n' _ (hdrBoundary_head _ '\n' (by simp) (by decide))]
  rw [headerSplitGo_cut '\n' p2C1 (by decide) (by decide)]
  rw [show headerSplitGo p2C1 = [p2C1] from by decide]
  simp [consHead, consPre, p1C1, q1C1, q2C1]

lemma p1C1_shape : p1C1 =
    '#' :: ' ' :: 'A' :: '\n' ::
      (List.replicate 1150 'a' ++ ('.' :: ' ' ::
        (List.replicate 1150 'b' ++ ('\n' :: '\n' ::
          (List.replicate 20 'c' ++ ['\n', '\n']))))) := by
  simp [p1C1, q1C1, q2C1]

lemma paraSplit_p1C1 : paraSplit p1C1 = [q1C1, q2C1, []] := by
  unfold paraSplit
  rw [p1C1_shape]
  rw [paraSplitGo_cons_of_ne false '#' _ (by decide)]
  rw [paraSplitGo_cons_of_ne false ' ' _ (by decide)]
  rw [paraSplitGo_cons_of_ne false 'A' _ (by decide)]
  rw [paraSplitGo_single_nl _
    (by rw [replicate_append_head 1150 'a' _ (by norm_num)]; decide)]
  rw [paraSplitGo_absorb false (List.replicate 1150 'a') _ (by simp)
    (fun c hc => by rw [List.eq_of_mem_replicate hc]; decide)]
  rw [paraSplitGo_cons_of_ne false '.' _ (by decide)]
  rw [paraSplitGo_cons_of_ne false ' ' _ (by decide)]
  rw [paraSplitGo_absorb false (List.replicate 1150 'b') _ (by simp)
    (fun c hc => by rw [List.eq_of_mem_replicate hc]; decide)]
  rw [show paraSplitGo false ('\n' :: '\n' ::
    (List.replicate 20 'c' ++ ['\n', '\n'])) = [[], List.replicate 20 'c', []]
    from by decide]
  simp [consHead, consPre, q1C1, q2C1]

lemma docC1_chars : ∀ c ∈ docC1,
    c ∈ ('#' :: ' ' :: 'A' :: '\n' :: 'a' :: '.' :: 'b' :: 'c' :: 'B' ::
      "some filler text here.".toList) := by
  intro c hc
  rw [docC1_shape, p2C1] at hc
  simp only [List.mem_cons, List.mem_append, List.mem_replicate] at hc
  simp only [List.mem_cons]
  tauto

lemma docC1_not_mem (b : Char)
    (hb : b ∉ ('#' :: ' ' :: 'A' :: '\n' :: 'a' :: '.' :: 'b' :: 'c' :: 'B' ::
      "some filler text here.".toList)) :
    ∀ c ∈ docC1, c ≠ b := by
  intro c hc heq
  subst heq
  exact hb (docC1_chars c hc)

lemma countTagsF_zero : ∀ (f : Nat) (cs : List Char),
    (∀ c ∈ cs, c ≠ '<') → countTagsF f cs = 0 := by
  intro f
  induction f with
  | zero => intro cs h; rw [countTagsF]
  | succ f ih =>
    intro cs h
    cases cs with
    | nil => simp [countTagsF]
    | cons c rest =>
      rw [countTagsF, if_neg (h c (by simp))]
      exact ih rest (fun x hx => h x (by simp [hx]))

lemma hOpenAt_none (c : Char) (rest : List Char) (h : c ≠ '<') :
    hOpenAt (c :: rest) = none := by
  unfold hOpenAt
  split <;> simp_all

lemma headerTagsTest_false : ∀ (cs : List Char),
    (∀ c ∈ cs, c ≠ '<') → headerTagsTest cs = false := by
  intro cs
  induction cs with
  | nil => intro h; rw [headerTagsTest]
  | cons c rest ih =>
    intro h
    rw [headerTagsTest, hOpenAt_none c rest (h c (by simp)),
      ih (fun x hx => h x (by simp [hx]))]
    rfl

lemma pOpenAt_none (c : Char) (rest : List Char) (h : c ≠ '<') :
    pOpenAt (c :: rest) = none := by
  unfold pOpenAt
  split <;> simp_all

lemma paragraphTagsTest_false : ∀ (cs : List Char),
    (∀ c ∈ cs, c ≠ '<') → paragraphTagsTest cs = false := by
  intro cs
  induction cs with
  | nil => intro h; rw [paragraphTagsTest]
  | cons c rest ih =>
    intro h
    rw [paragraphTagsTest, pOpenAt_none c rest (h c (by simp)),
      ih (fun x hx => h x (by simp [hx]))]
    rfl

lemma tripleAt_false (c : Char) (rest : List Char) (h : c ≠ btick) :
    tripleAt (c :: rest) = false := by
  unfold tripleAt
  split <;> simp_all

lemma findTriple_none : ∀ (cs : List Char),
    (∀ c ∈ cs, c ≠ btick) → findTriple cs = none := by
  intro cs
  induction cs with
  | nil => intro h; rw [findTriple]
  | cons c rest ih =>
    intro h
    rw [findTriple, if_neg (by simp [tripleAt_false c rest (h c (by simp))]),
      ih (fun x hx => h x (by simp [hx]))]

lemma fencedCountF_zero (f : Nat) (cs : List Char)
    (h : ∀ c ∈ cs, c ≠ btick) : fencedCountF f cs = 0 := by
  cases f with
  | zero => rw [fencedCountF]
  | succ f =>
    rw [fencedCountF, findTriple_none cs h]

lemma listItemCore_none (cs : List Char)
    (h : ∀ c ∈ cs, c ≠ '-' ∧ c ≠ '*' ∧ c ≠ '+') : listItemCore cs = none := by
  cases cs with
  | nil => rw [listItemCore]
  | cons s rest =>
    rw [listItemCore, if_neg]
    have := h s (by simp)
    simp [this.1, this.2.1, this.2.2]

lemma listItemAt_none (cs : List Char)
    (h : ∀ c ∈ cs, c ≠ '-' ∧ c ≠ '*' ∧ c ≠ '+') : listItemAt cs = none := by
  unfold listItemAt
  exact listItemCore_none _ (fun c hc => h c ((List.dropWhile_sublist _).subset hc))

lemma listItemsF_zero : ∀ (f : Nat) (b : Bool) (cs : List Char),
    (∀ c ∈ cs, c ≠ '-' ∧ c ≠ '*' ∧ c ≠ '+') → listItemsF f b cs = 0 := by
  intro f
  induction f with
  | zero => intro b cs h; rw [listItemsF]
  | succ f ih =>
    intro b cs h
    cases cs with
    | nil => rw [listItemsF]
    | cons c rest =>
      rw [listItemsF]
      cases b with
      | false =>
        simp only [Bool.false_eq_true, if_false]
        exact ih _ rest (fun x hx => h x (by simp [hx]))
      | true =>
        simp only [if_true, listItemAt_none _ h, Option.elim_none]
        exact ih _ rest (fun x hx => h x (by simp [hx]))

lemma linksCountF_zero : ∀ (f : Nat) (cs : List Char),
    (∀ c ∈ cs, c ≠ '[') → linksCountF f cs = 0 := by
  intro f
  induction f with
  | zero => intro cs h; rw [linksCountF]
  | succ f ih =>
    intro cs h
    cases cs with
    | nil => simp [linksCountF]
    | cons c rest =>
      rw [linksCountF, if_neg (h c (by simp))]
      exact ih rest (fun x hx => h x (by simp [hx]))

lemma emphAt_false (o : Char) (ot : List Char) (c : Char) (rest : List Char)
    (h : o ≠ c) : emphAt (o :: ot) (c :: rest) = false := by
  unfold emphAt
  rw [List.isPrefixOf]
  simp [h]

lemma emphasisTest_false : ∀ (cs : List Char),
    (∀ c ∈ cs, c ≠ '*' ∧ c ≠ '_') → emphasisTest cs = false := by
  intro cs
  induction cs with
  | nil => intro h; rw [emphasisTest]
  | cons c rest ih =>
    intro h
    have hc := h c (by simp)
    rw [emphasisTest,
      emphAt_false _ _ _ _ (fun e => hc.1 e.symm),
      emphAt_false _ _ _ _ (fun e => hc.2 e.symm),
      emphAt_false _ _ _ _ (fun e => hc.1 e.symm),
      emphAt_false _ _ _ _ (fun e => hc.2 e.symm),
      ih (fun x hx => h x (by simp [hx]))]
    rfl

lemma hrHead_false (c : Char) (rest : List Char)
    (h : c ≠ '-' ∧ c ≠ '*' ∧ c ≠ '=') : hrHead (c :: rest) = false := by
  unfold hrHead
  simp [h.1, h.2.1, h.2.2]

lemma hrTestGo_false : ∀ (cs : List Char) (b : Bool),
    (∀ c ∈ cs, c ≠ '-' ∧ c ≠ '*' ∧ c ≠ '=') → hrTestGo b cs = false := by
  intro cs
  induction cs with
  | nil => intro b h; rw [hrTestGo]
  | cons c rest ih =>
    intro b h
    rw [hrTestGo, hrHead_false c rest (h c (by simp)),
      ih _ (fun x hx => h x (by simp [hx]))]
    simp

lemma getLast?_append_right (l1 l2 : List Char) (h : l2 ≠ []) :
    (l1 ++ l2).getLast? = l2.getLast? := by
  rw [List.getLast?_append_of_ne_nil]
  exact h

lemma getLast?_replicate_pos (n : Nat) (c : Char) (hn : 0 < n) :
    (List.replicate n c).getLast? = some c := by
  induction n with
  | zero => omega
  | succ m ih =>
    cases m with
    | zero => rfl
    | succ k =>
      rw [List.replicate_succ, List.replicate_succ, List.getLast?_cons_cons,
        ← List.replicate_succ]
      exact ih (by omega)

lemma docC1_split_p2 : docC1 =
    ('#' :: ' ' :: 'A' :: '\n' ::
      (List.replicate 1150 'a' ++ ('.' :: ' ' ::
        (List.replicate 1150 'b' ++ ('\n' :: '\n' ::
          (List.replicate 20 'c' ++ ['\n', '\n'])))))) ++ p2C1 := by
  simp [docC1, p2C1]

lemma docC1_getLast : docC1.getLast? = some '.' := by
  rw [docC1_split_p2, getLast?_append_right _ _ (by decide)]
  decide

lemma docC1_head : docC1.head? = some '#' := by
  rw [docC1_shape]; rfl

lemma jsTrim_docC1 : jsTrim docC1 = docC1 :=
  jsTrim_eq_self docC1 '#' '.' docC1_head (by decide) docC1_getLast (by decide)

lemma q1C1_split : q1C1 =
    ('#' :: ' ' :: 'A' :: '\n' :: List.replicate 1150 'a') ++
      ('.' :: ' ' :: List.replicate 1150 'b') := by
  simp [q1C1]

lemma q1C1_head : q1C1.head? = some '#' := by
  rw [q1C1]; rfl

lemma q1C1_getLast : q1C1.getLast? = some 'b' := by
  have h2 : q1C1 = ('#' :: ' ' :: 'A' :: '\n' ::
      (List.replicate 1150 'a' ++ ['.', ' '])) ++ List.replicate 1150 'b' := by
    simp [q1C1]
  rw [h2, getLast?_append_right _ _ (by simp),
    getLast?_replicate_pos 1150 'b' (by norm_num)]

lemma jsTrim_q1C1 : jsTrim q1C1 = q1C1 :=
  jsTrim_eq_self q1C1 '#' 'b' q1C1_head (by decide) q1C1_getLast (by decide)

lemma hasNonWs_q1C1 : hasNonWs q1C1 = true := by
  rw [hasNonWs, q1C1, List.any_cons]
  rw [show (!jsWs '#') = true from by decide, Bool.true_or]

lemma hasNonWs_p1C1 : hasNonWs p1C1 = true := by
  rw [hasNonWs, p1C1_shape, List.any_cons]
  rw [show (!jsWs '#') = true from by decide, Bool.true_or]

lemma hasSentBoundary_q1C1 : hasSentBoundary q1C1 = true := by
  rw [q1C1_split]
  apply hasSentBoundary_append_left
  rw [hasSentBoundary]
  rw [show (isSentPunct '.' && jsWs ' ') = true from by decide, Bool.true_or]

lemma q1C1_length : q1C1.length = 2306 := by
  rw [q1C1_split]
  simp

lemma p1C1_length : p1C1.length = 2330 := by
  rw [p1C1_shape]
  simp

lemma skipJws_docC1 : skipJws docC1 = docC1 := by
  rw [skipJws]
  exact dropWhile_eq_self_of_head jws docC1 '#' docC1_head (by decide)

lemma dropWhile_jsWs_docC1 : docC1.dropWhile jsWs = docC1 :=
  dropWhile_eq_self_of_head jsWs docC1 '#' docC1_head (by decide)

lemma startsJsonChar_docC1 : startsJsonChar docC1 = false := by
  rw [startsJsonChar, dropWhile_jsWs_docC1, docC1_shape]
  rfl

lemma parseValue_hash (f : Nat) (rest : List Char) :
    parseValue (f + 1) ('#' :: rest) = none := by
  rw [parseValue.eq_def]
  simp [parseNum, isDigit]

lemma parseJson_docC1 : parseJson docC1 = none := by
  rw [parseJson, skipJws_docC1]
  rw [show 2 * docC1.length + 8 = 2 * docC1.length + 7 + 1 from rfl]
  rw [show parseValue (2 * docC1.length + 7 + 1) docC1 = none from by
    rw [docC1_shape]; exact parseValue_hash _ _]

lemma jsonValid_docC1 : jsonValid docC1 = false := by
  rw [jsonValid, parseJson_docC1]
  rfl

lemma ciIsPrefixOf_false (p : Char) (pt : List Char) (c : Char)
    (ct : List Char) (h : p.toLower ≠ c.toLower) :
    ciIsPrefixOf (p :: pt) (c :: ct) = false := by
  rw [ciIsPrefixOf, List.map_cons, List.map_cons, List.isPrefixOf]
  simp [h]

lemma isHtmlTest_docC1 : isHtmlTest docC1 = false := by
  rw [isHtmlTest, dropWhile_jsWs_docC1]
  rw [show "<!doctype".toList = '<' :: "!doctype".toList from by decide]
  rw [docC1_shape]
  rw [ciIsPrefixOf_false _ _ _ _ (by decide),
    ciIsPrefixOf_false _ _ _ _ (by decide),
    ciIsPrefixOf_false _ _ _ _ (by decide),
    ciIsPrefixOf_false _ _ _ _ (by decide),
    ciIsPrefixOf_false _ _ _ _ (by decide),
    ciIsPrefixOf_false _ _ _ _ (by decide),
    ciIsPrefixOf_false _ _ _ _ (by decide)]
  rfl

lemma countTags_docC1 : countTags docC1 = 0 := by
  rw [countTags]
  exact countTagsF_zero _ _ (docC1_not_mem '<' (by decide))

lemma headerTags_docC1 : headerTagsTest docC1 = false :=
  headerTagsTest_false _ (docC1_not_mem '<' (by decide))

lemma paragraphTags_docC1 : paragraphTagsTest docC1 = false :=
  paragraphTagsTest_false _ (docC1_not_mem '<' (by decide))

lemma fencedCount_docC1 : fencedCount docC1 = 0 := by
  rw [fencedCount]
  exact fencedCountF_zero _ _ (docC1_not_mem btick (by decide))

lemma listItems_docC1 : listItemsGo true docC1 = 0 := by
  rw [listItemsGo]
  exact listItemsF_zero _ _ _ (fun c hc =>
    ⟨docC1_not_mem '-' (by decide) c hc, docC1_not_mem '*' (by decide) c hc,
      docC1_not_mem '+' (by decide) c hc⟩)

lemma linksCount_docC1 : linksCount docC1 = 0 := by
  rw [linksCount]
  exact linksCountF_zero _ _ (docC1_not_mem '[' (by decide))

lemma emphasisTest_docC1 : emphasisTest docC1 = false :=
  emphasisTest_false _ (fun c hc =>
    ⟨docC1_not_mem '*' (by decide) c hc, docC1_not_mem '_' (by decide) c hc⟩)

lemma hrTest_docC1 : hrTestGo true docC1 = false :=
  hrTestGo_false _ _ (fun c hc =>
    ⟨docC1_not_mem '-' (by decide) c hc, docC1_not_mem '*' (by decide) c hc,
      docC1_not_mem '=' (by decide) c hc⟩)

lemma hasHeaderTest_docC1 : hasHeaderTest docC1 = true := by
  rw [hasHeaderTest, docC1_shape, hasHeaderGo]
  rw [show hdrSimpleAt ('#' :: ' ' :: 'A' :: '\n' ::
      (List.replicate 1150 'a' ++ ('.' :: ' ' ::
        (List.replicate 1150 'b' ++ ('\n' :: '\n' ::
          (List.replicate 20 'c' ++ ('\n' :: '\n' :: p2C1))))))) = true from by
    rw [hdrSimpleAt]
    rw [List.takeWhile_cons_of_pos (by decide), List.takeWhile_cons_of_neg (by decide)]
    rfl]
  rfl

lemma checkJson_conf_docC1 : (checkJson docC1).confidence = 0 := by
  rw [checkJson]
  simp only [startsJsonChar_docC1, jsonValid_docC1, Bool.false_eq_true,
    if_false]
  simp [ratMin]

lemma checkHtml_conf_docC1 : (checkHtml docC1).confidence = 0 := by
  rw [checkHtml]
  simp only [isHtmlTest_docC1, countTags_docC1, headerTags_docC1,
    paragraphTags_docC1, Bool.false_eq_true, if_false]
  simp [ratMin]

lemma checkMarkdown_conf_docC1 : (checkMarkdown docC1).confidence = 3 / 10 := by
  rw [checkMarkdown]
  simp only [hasHeaderTest_docC1, fencedCount_docC1, listItems_docC1,
    linksCount_docC1, emphasisTest_docC1, hrTest_docC1, Bool.false_eq_true,
    if_false, if_true]
  simp [ratMin]
  norm_num

lemma detectDocumentFormat_docC1 : detectDocumentFormat docC1 =
    ⟨.text, 1 / 2, ["Nenhum formato especifico detectado".toList]⟩ := by
  rw [detectDocumentFormat, jsTrim_docC1]
  simp only [checkJson_conf_docC1, checkHtml_conf_docC1,
    checkMarkdown_conf_docC1]
  norm_num

lemma detectFormat_docC1 : detectFormat docC1 true true =
    DocumentFormat.text := by
  rw [detectFormat, detectDocumentFormat_docC1]
  simp

/-- C1 counterexample: on `docC1` (Markdown path of `splitIntoChunks` at
the default options), the returned chunk list contains a chunk longer
than `MAX_CHUNK_SIZE` that is not an irreducible single sentence — the
paragraph subdivision of `refineChunks` is not recursive and its pieces
are not re-checked against the cap. -/
theorem claim_C1_counterexample :
    ∃ c ∈ splitIntoChunks docC1 defaultChunkingOptions,
      MAX_CHUNK_SIZE < c.length ∧ hasSentBoundary c = true := by
  have h1 : splitIntoChunks docC1 defaultChunkingOptions =
      splitMarkdownDocument docC1 := by
    unfold splitIntoChunks defaultChunkingOptions
    simp [detectFormat_docC1]
  have htop : topSplit docC1 = [p1C1, p2C1] := by
    unfold topSplit
    rw [headerSplitGo_docC1]
    rw [List.filter_cons_of_pos hasNonWs_p1C1,
      List.filter_cons_of_pos (show hasNonWs p2C1 = true from by decide),
      List.filter_nil]
    simp
  have hfil : List.filter hasNonWs [q1C1, q2C1, []] = [q1C1, q2C1] := by
    rw [List.filter_cons_of_pos hasNonWs_q1C1,
      List.filter_cons_of_pos (show hasNonWs q2C1 = true from by decide),
      List.filter_cons_of_neg (show ¬ hasNonWs [] = true from by decide),
      List.filter_nil]
  have hrefine : refineChunks [p1C1, p2C1] = [q1C1, q2C1, p2C1] := by
    unfold refineChunks
    simp only [List.flatMap_cons, List.flatMap_nil]
    rw [paraSplit_p1C1, hfil]
    rw [if_neg (by rw [p1C1_length]; simp [MAX_CHUNK_SIZE])]
    rw [if_pos (show (1 : Nat) < [q1C1, q2C1].length from by simp)]
    rw [if_pos (by rw [show p2C1.length = 26 from by decide]; simp [MAX_CHUNK_SIZE])]
    simp
  have hfinal : splitMarkdownDocument docC1 = [q1C1, q2C1, p2C1] := by
    unfold splitMarkdownDocument
    rw [htop, hrefine]
    rw [List.filter_cons_of_pos
        (by rw [jsTrim_q1C1, q1C1_length]; decide),
      List.filter_cons_of_pos
        (by rw [show jsTrim q2C1 = q2C1 from by decide,
          show q2C1.length = 20 from by decide]; decide),
      List.filter_cons_of_pos
        (by rw [show jsTrim p2C1 = p2C1 from by decide,
          show p2C1.length = 26 from by decide]; decide),
      List.filter_nil]
  rw [h1, hfinal]
  refine ⟨q1C1, by simp, ?_, hasSentBoundary_q1C1⟩
  rw [q1C1_length]
  simp [MAX_CHUNK_SIZE]

lemma sentSplitGo_ne_nil : ∀ (b : Bool) (cs : List Char), sentSplitGo b cs ≠ [] := by
  intro b cs
  induction cs generalizing b with
  | nil => simp [sentSplitGo]
  | cons c rest ih =>
    rw [sentSplitGo]
    split
    · exact ih true
    · split
      · simp
      · cases h : sentSplitGo false rest with
        | nil => exact absurd h (ih false)
        | cons p ps => simp [consHead]

lemma sentSplitGo_false_cons_head (d : Char) (t : List Char) :
    ∃ r rs, sentSplitGo false (d :: t) = (d :: r) :: rs := by
  rw [sentSplitGo]
  split
  · simp_all
  · split
    · exact ⟨[], _, rfl⟩
    · cases h : sentSplitGo false t with
      | nil => exact absurd h (sentSplitGo_ne_nil false t)
      | cons p ps => exact ⟨p, ps, by simp [consHead]⟩

lemma sentPieces_noSB : ∀ (cs : List Char) (b : Bool) (p : List Char),
    p ∈ sentSplitGo b cs → hasSentBoundary p = false := by
  intro cs
  induction cs with
  | nil =>
    intro b p hp
    rw [sentSplitGo] at hp
    simp at hp
    subst hp
    rfl
  | cons c rest ih =>
    intro b p hp
    rw [sentSplitGo] at hp
    split at hp
    · exact ih true p hp
    · split at hp
      · rcases List.mem_cons.mp hp with rfl | hp'
        · rfl
        · exact ih true p hp'
      · rename_i hskip hcut
        cases hrec : sentSplitGo false rest with
        | nil => exact absurd hrec (sentSplitGo_ne_nil false rest)
        | cons r rs =>
          rw [hrec] at hp
          simp only [consHead] at hp
          rcases List.mem_cons.mp hp with rfl | hp'
          · have hr : hasSentBoundary r = false :=
              ih false r (by rw [hrec]; simp)
            cases rest with
            | nil =>
              rw [sentSplitGo] at hrec
              simp at hrec
              rw [hrec.1]
              rfl
            | cons d t =>
              obtain ⟨r', rs', heq⟩ := sentSplitGo_false_cons_head d t
              rw [heq] at hrec
              injection hrec with h1 h2
              rw [← h1] at hr ⊢
              rw [hasSentBoundary]
              have hpair : (isSentPunct c && jsWs d) = false := by
                simpa using hcut
              rw [hpair, hr]
              rfl
          · exact ih false p (by rw [hrec]; simp [hp'])

lemma hasSentBoundary_append_right (l1 l2 : List Char)
    (h : hasSentBoundary l1 = true) :
    hasSentBoundary (l1 ++ l2) = true := by
  induction l1 with
  | nil => simp [hasSentBoundary] at h
  | cons c r ih =>
    cases r with
    | nil => simp [hasSentBoundary] at h
    | cons b r2 =>
      rw [hasSentBoundary] at h
      rw [List.cons_append, List.cons_append, hasSentBoundary]
      rcases Bool.or_eq_true_iff.mp h with h1 | h2
      · rw [h1, Bool.true_or]
      · rw [← List.cons_append, ih h2, Bool.or_true]

lemma jsTrim_decomp (cs : List Char) :
    ∃ l1 l2, cs = l1 ++ (jsTrim cs ++ l2) := by
  refine ⟨cs.takeWhile jsWs,
    ((cs.dropWhile jsWs).reverse.takeWhile jsWs).reverse, ?_⟩
  rw [jsTrim]
  conv_lhs => rw [← List.takeWhile_append_dropWhile (p := jsWs) (l := cs)]
  congr 1
  rw [← List.reverse_append, List.takeWhile_append_dropWhile,
    List.reverse_reverse]

lemma hasSB_jsTrim_false (cs : List Char)
    (h : hasSentBoundary cs = false) :
    hasSentBoundary (jsTrim cs) = false := by
  obtain ⟨l1, l2, hdec⟩ := jsTrim_decomp cs
  cases hb : hasSentBoundary (jsTrim cs) with
  | false => rfl
  | true =>
    have := hasSentBoundary_append_left l1 _
      (hasSentBoundary_append_right _ l2 hb)
    rw [← hdec] at this
    rw [this] at h
    exact absurd h (by simp)

lemma jsTrim_length_le (cs : List Char) : (jsTrim cs).length ≤ cs.length := by
  rw [jsTrim]
  calc ((cs.dropWhile jsWs).reverse.dropWhile jsWs).reverse.length
      = ((cs.dropWhile jsWs).reverse.dropWhile jsWs).length := by
        rw [List.length_reverse]
    _ ≤ (cs.dropWhile jsWs).reverse.length :=
        (List.dropWhile_sublist _).length_le
    _ = (cs.dropWhile jsWs).length := by rw [List.length_reverse]
    _ ≤ cs.length := (List.dropWhile_sublist _).length_le

lemma sbsGo_bound : ∀ (ss : List (List Char)) (cur : List Char),
    (∀ s ∈ ss, hasSentBoundary s = false) →
    (cur.length ≤ MAX_CHUNK_SIZE + 1 ∨ hasSentBoundary cur = false) →
    ∀ p ∈ sbsGo ss cur,
      p.length ≤ MAX_CHUNK_SIZE + 1 ∨ hasSentBoundary p = false := by
  intro ss
  induction ss with
  | nil =>
    intro cur hss hcur p hp
    rw [sbsGo] at hp
    split at hp
    · simp at hp
    · simp at hp
      subst hp
      rcases hcur with h | h
      · exact Or.inl (le_trans (jsTrim_length_le cur) h)
      · exact Or.inr (hasSB_jsTrim_false cur h)
  | cons s ss ih =>
    intro cur hss hcur p hp
    rw [sbsGo] at hp
    split at hp
    · rename_i hcond
      rcases List.mem_cons.mp hp with rfl | hp'
      · rcases hcur with h | h
        · exact Or.inl (le_trans (jsTrim_length_le cur) h)
        · exact Or.inr (hasSB_jsTrim_false cur h)
      · exact ih s (fun x hx => hss x (by simp [hx]))
          (Or.inr (hss s (by simp))) p hp'
    · rename_i hcond
      by_cases hemp : cur.isEmpty
      · rw [if_pos hemp] at hp
        exact ih s (fun x hx => hss x (by simp [hx]))
          (Or.inr (hss s (by simp))) p hp
      · rw [if_neg hemp] at hp
        have himp : MAX_CHUNK_SIZE < cur.length + s.length → cur = [] := by
          simpa using hcond
        have hlen : cur.length + s.length ≤ MAX_CHUNK_SIZE := by
          by_contra hlt
          exact hemp (by simp [himp (Nat.lt_of_not_le hlt)])
        exact ih (cur ++ ' ' :: s) (fun x hx => hss x (by simp [hx]))
          (Or.inl (by simp only [List.length_append, List.length_cons]; omega))
          p hp

lemma splitBySentences_bound (chunk : List Char) :
    ∀ p ∈ splitBySentences chunk,
      p.length ≤ MAX_CHUNK_SIZE + 1 ∨ hasSentBoundary p = false := by
  intro p hp
  rw [splitBySentences] at hp
  exact sbsGo_bound (sentSplit chunk) []
    (fun s hs => sentPieces_noSB chunk false s hs)
    (Or.inl (by simp)) p hp

/-- C1 (amended): every chunk produced by `refineChunks` has length at
most `MAX_CHUNK_SIZE + 1` (the greedy sentence repacking compares
`(currentChunk + sentence).length` against the cap without counting the
joining space, so groups may end one character over), or contains no
sentence boundary (an irreducible single sentence), or is a piece of the
paragraph subdivision of an oversize input chunk — that third case is the
uncapped one refuted concretely by `claim_C1_counterexample`: paragraph
pieces are not re-checked against the cap. -/
theorem claim_C1 (chunks : List (List Char)) (c : List Char)
    (hc : c ∈ refineChunks chunks) :
    c.length ≤ MAX_CHUNK_SIZE + 1 ∨ hasSentBoundary c = false ∨
    ∃ orig ∈ chunks, MAX_CHUNK_SIZE < orig.length ∧
      c ∈ (paraSplit orig).filter hasNonWs := by
  rw [refineChunks] at hc
  obtain ⟨chunk, hchunk, hcmem⟩ := List.mem_flatMap.mp hc
  simp only [] at hcmem
  by_cases hle : chunk.length ≤ MAX_CHUNK_SIZE
  · rw [if_pos hle] at hcmem
    simp at hcmem
    subst hcmem
    exact Or.inl (le_trans hle (by omega))
  · rw [if_neg hle] at hcmem
    by_cases hsub : 1 < ((paraSplit chunk).filter hasNonWs).length
    · rw [if_pos hsub] at hcmem
      exact Or.inr (Or.inr ⟨chunk, hchunk, Nat.lt_of_not_le hle, hcmem⟩)
    · rw [if_neg hsub] at hcmem
      rcases splitBySentences_bound chunk c hcmem with h | h
      · exact Or.inl h
      · exact Or.inr (Or.inl h)

theorem claim_C1_witness :
    (('a' :: []) ∈ refineChunks [['a']]) ∧
    (('a' :: []).length ≤ MAX_CHUNK_SIZE + 1 ∨
      hasSentBoundary ('a' :: []) = false ∨
      ∃ orig ∈ [['a']], MAX_CHUNK_SIZE < orig.length ∧
        ('a' :: []) ∈ (paraSplit orig).filter hasNonWs) :=
  ⟨by decide, claim_C1 [['a']] ['a'] (by decide)⟩

lemma smartFetchE_spec {Spec : Type} (env : FetchEnv Spec)
    (opts : SmartFetchOptions) (url : List Char) :
    (∃ r, smartFetchE env opts url = .ok r ∧ r.success = true) ∨
    (∃ e, smartFetchE env opts url = .error e ∧
      (env.fetchWithHttp = .error e ∨
        (opts.tryOpenApiSpec = true ∧ ∃ content,
          env.fetchWithHttp = .ok (ContentType.html, content) ∧
          env.looksLikeSpa content = true ∧
          trySwaggerExtraction env opts url content = .error e))) := by
  cases hfetch : env.fetchWithHttp with
  | error e =>
    right
    exact ⟨e, by rw [smartFetchE, hfetch], Or.inl rfl⟩
  | ok p =>
    obtain ⟨ct, content⟩ := p
    have hbody : smartFetchE env opts url =
        (if (decide (ct ≠ ContentType.html) || !env.looksLikeSpa content) = true
          then Except.ok ⟨true, some content, ct, .direct, none, url, none⟩
          else
            match
              (if opts.tryOpenApiSpec = true then
                match trySwaggerExtraction env opts url content with
                | .error e => .error e
                | .ok r => .ok (if r.success = true then some r else none)
              else .ok none : Except (List Char) (Option SmartFetchResult)) with
            | .error e => .error e
            | .ok (some r) => .ok r
            | .ok none =>
              if opts.useHeadlessFallback = true then
                if (tryHeadlessRender env url).success = true then
                  .ok (tryHeadlessRender env url)
                else .ok ⟨true, some content, ct, .direct, none, url, none⟩
              else .ok ⟨true, some content, ct, .direct, none, url, none⟩) := by
      rw [smartFetchE, hfetch]
    by_cases hcond : (decide (ct ≠ ContentType.html) || !env.looksLikeSpa content) = true
    · left
      exact ⟨⟨true, some content, ct, .direct, none, url, none⟩,
        by rw [hbody, if_pos hcond], rfl⟩
    · rw [hbody, if_neg hcond]
      have hcond' := hcond
      simp only [Bool.or_eq_true, not_or, Bool.not_eq_true,
        decide_eq_false_iff_not, not_not] at hcond'
      obtain ⟨hct, hspa0⟩ := hcond'
      have hspa : env.looksLikeSpa content = true := by simpa using hspa0
      subst hct
      by_cases htry : opts.tryOpenApiSpec = true
      · rw [if_pos htry]
        cases hsw : trySwaggerExtraction env opts url content with
        | error e2 =>
          right
          exact ⟨e2, rfl, Or.inr ⟨htry, content, rfl, hspa, hsw⟩⟩
        | ok r2 =>
          left
          dsimp only
          by_cases hr2 : r2.success = true
          · rw [if_pos hr2]
            exact ⟨r2, rfl, hr2⟩
          · rw [if_neg hr2]
            dsimp only
            split
            · split
              · rename_i h
                exact ⟨_, rfl, h⟩
              · exact ⟨_, rfl, rfl⟩
            · exact ⟨_, rfl, rfl⟩
      · rw [if_neg htry]
        left
        dsimp only
        split
        · split
          · rename_i h
            exact ⟨_, rfl, h⟩
          · exact ⟨_, rfl, rfl⟩
        · exact ⟨_, rfl, rfl⟩

/-- C9 (amended): `smartFetch` returns `success = false` exactly when its
single `try` body throws, and the body throws exactly when the direct
HTTP fetch itself throws or when the Swagger-extraction stage throws an
exception that escapes `trySwaggerExtraction` (its helpers catch their
own fetch errors, but `openApiToMarkdown` and the un-guarded `new URL` of
endpoint probing can throw past them); such an exception is caught only
by the outer catch, which aborts the pipeline — later strategies are not
tried — and reports `method = direct`. -/
theorem claim_C9 {Spec : Type} (env : FetchEnv Spec)
    (opts : SmartFetchOptions) (url : List Char) :
    ((smartFetch env opts url).success = false ↔
      ∃ e, smartFetchE env opts url = .error e) ∧
    (∀ e, smartFetchE env opts url = .error e →
      env.fetchWithHttp = .error e ∨
        (opts.tryOpenApiSpec = true ∧ ∃ content,
          env.fetchWithHttp = .ok (ContentType.html, content) ∧
          env.looksLikeSpa content = true ∧
          trySwaggerExtraction env opts url content = .error e)) ∧
    (∀ e, smartFetchE env opts url = .error e →
      (smartFetch env opts url).method = FetchMethod.direct) := by
  rcases smartFetchE_spec env opts url with ⟨r, hr, hrs⟩ | ⟨e, he, hcause⟩
  · refine ⟨⟨?_, ?_⟩, ?_, ?_⟩
    · intro hfail
      rw [smartFetch, hr] at hfail
      dsimp only at hfail
      rw [hrs] at hfail
      exact absurd hfail (by simp)
    · intro ⟨e, he⟩
      rw [he] at hr
      exact absurd hr (by simp)
    · intro e he
      rw [he] at hr
      exact absurd hr (by simp)
    · intro e he
      rw [he] at hr
      exact absurd hr (by simp)
  · refine ⟨⟨?_, ?_⟩, ?_, ?_⟩
    · intro _
      exact ⟨e, he⟩
    · intro _
      rw [smartFetch, he]
    · intro e' he'
      rw [he] at he'
      injection he' with h
      subst h
      exact hcause
    · intro e' he'
      rw [smartFetch, he']

theorem claim_C9_witness :
    (smartFetch envC9 defaultSmartFetchOptions urlC9).method =
      FetchMethod.direct :=
  (claim_C9 envC9 defaultSmartFetchOptions urlC9).2.2
    ('C' :: "annot read properties of null".toList) (by rfl)

lemma normalizeText_nil : normalizeText [] = [] := by decide

lemma applyBonuses_zero (chunk : List Char) : applyBonuses chunk 0 = 0 := by
  rw [applyBonuses]
  split <;> split <;> simp

lemma calcRel_empty_query (chunk : List Char) :
    calculateRelevanceScore chunk (extractSearchTerms []) = 0 := by
  rw [calculateRelevanceScore, extractSearchTerms]
  simp only [List.foldl_cons, List.foldl_nil]
  rw [show splitWsRuns [] = [[]] from by decide]
  simp only [List.filter_cons, List.filter_nil]
  norm_num
  rw [normalizeText_nil]
  simp only [List.isEmpty_nil, if_true]
  exact applyBonuses_zero chunk

/-- C8: the empty query extracts exactly the terms `[""]`, every chunk of
every document scores 0 against them (the empty normalized term is
skipped by the scorer), so `searchInDocs` returns no results with
`matchedChunks = 0`, and the `search_docs` tool's output step substitutes
the fixed "no results" sentinel for the empty list. -/
theorem claim_C8 (document : List Char) (maxResults : Nat) :
    extractSearchTerms [] = [[]] ∧
    (∀ chunk, calculateRelevanceScore chunk (extractSearchTerms []) = 0) ∧
    (searchInDocs document [] maxResults).results = [] ∧
    (searchInDocs document [] maxResults).matchedChunks = 0 ∧
    prepareOutputResults (searchInDocs document [] maxResults).results =
      ["Nenhum resultado encontrado para a busca.".toList] := by
  have hterms : extractSearchTerms [] = [[]] := by decide
  have hrel : relevantChunksOf document [] = [] := by
    rw [relevantChunksOf]
    rw [show (scoredChunksOf document []).filter (fun c => 0 < c.score) = []
      from ?_]
    · rfl
    · rw [List.filter_eq_nil_iff]
      intro a ha
      rw [scoredChunksOf] at ha
      obtain ⟨p, _, hpa⟩ := List.mem_map.mp ha
      rw [← hpa]
      simp only [decide_eq_true_eq, not_lt]
      rw [calcRel_empty_query p.2]
  refine ⟨hterms, calcRel_empty_query, ?_, ?_, ?_⟩
  · rw [searchInDocs]
    dsimp only
    rw [hrel]
    rfl
  · rw [searchInDocs]
    dsimp only
    rw [hrel]
    rfl
  · rw [searchInDocs]
    dsimp only
    rw [hrel]
    rfl

/-- C6: `detectDocumentFormat` runs the JSON, HTML and Markdown checks on
the trimmed document in that fixed order, returning the first whose
confidence clears its own threshold (JSON > 0.8, HTML > 0.6,
Markdown > 0.5) and otherwise `text` at confidence 0.5; and `checkJson`'s
confidence is 0.9 for a parsing document starting with a JSON bracket
(0.3 + 0.6 capped at 1), 0.6 for parsing without the bracket, exactly 0.2
for a bracket-led document that fails to parse, and 0 otherwise. -/
theorem claim_C6 (document : List Char) :
    (detectDocumentFormat document =
      (if 4/5 < (checkJson (jsTrim document)).confidence then
        checkJson (jsTrim document)
      else if 3/5 < (checkHtml (jsTrim document)).confidence then
        checkHtml (jsTrim document)
      else if 1/2 < (checkMarkdown (jsTrim document)).confidence then
        checkMarkdown (jsTrim document)
      else ⟨.text, 1/2, ["Nenhum formato especifico detectado".toList]⟩)) ∧
    (checkJson document).format = DocumentFormat.json ∧
    (checkJson document).confidence =
      (if jsonValid document then
        (if startsJsonChar document then 9/10 else 3/5)
      else if startsJsonChar document then 1/5 else 0) := by
  refine ⟨?_, ?_, ?_⟩
  · rw [detectDocumentFormat]
    norm_num
  · rw [checkJson]
    split <;> split <;> rfl
  · rw [checkJson]
    by_cases hv : jsonValid document = true
    · by_cases hs : startsJsonChar document = true
      · simp only [hv, hs, if_true, if_pos]
        rw [ratMin]
        norm_num
      · simp only [hv, Bool.not_eq_true] at *
        simp only [hs, hv, Bool.false_eq_true, if_false, if_true]
        rw [ratMin]
        norm_num
    · by_cases hs : startsJsonChar document = true
      · simp only [Bool.not_eq_true] at hv
        simp only [hs, hv, Bool.false_eq_true, if_false, if_true]
        rw [ratMin]
        norm_num
      · simp only [Bool.not_eq_true] at hv hs
        simp only [hs, hv, Bool.false_eq_true, if_false]
        rw [ratMin]
        norm_num

lemma char_toNat_ofNat (m : Nat) (h : m.isValidChar) :
    (Char.ofNat m).toNat = m := by
  rw [Char.ofNat, dif_pos h]
  rfl

lemma char_toLower_toNat (y : Char) :
    y.toLower.toNat =
      if y.toNat ≥ 65 ∧ y.toNat ≤ 90 then y.toNat + 32 else y.toNat := by
  rw [Char.toLower]
  by_cases hy : y.toNat ≥ 65 ∧ y.toNat ≤ 90
  · rw [if_pos hy, if_pos hy, char_toNat_ofNat _ (by left; omega)]
  · rw [if_neg hy, if_neg hy]

lemma char_toLower_idem (x : Char) : x.toLower.toLower = x.toLower := by
  rw [Char.toLower]
  rw [if_neg]
  rw [char_toLower_toNat x]
  split <;> omega

lemma mapIdOn (f : Char → Char) : ∀ (l : List Char),
    (∀ c ∈ l, f c = c) → l.map f = l := by
  intro l
  induction l with
  | nil => intro _; rfl
  | cons c rest ih =>
    intro h
    rw [List.map_cons, h c (by simp), ih (fun x hx => h x (by simp [hx]))]

lemma collapse_mem : ∀ (l : List Char) (b : Bool),
    ∀ c ∈ collapseGo b l, c = ' ' ∨ (c ∈ l ∧ jsWs c = false) := by
  intro l
  induction l with
  | nil => intro b c hc; rw [collapseGo] at hc; simp at hc
  | cons a rest ih =>
    intro b c hc
    rw [collapseGo] at hc
    split at hc
    · split at hc
      · rcases ih true c hc with h | ⟨h1, h2⟩
        · exact Or.inl h
        · exact Or.inr ⟨by simp [h1], h2⟩
      · rcases List.mem_cons.mp hc with rfl | hc'
        · exact Or.inl rfl
        · rcases ih true c hc' with h | ⟨h1, h2⟩
          · exact Or.inl h
          · exact Or.inr ⟨by simp [h1], h2⟩
    · rcases List.mem_cons.mp hc with rfl | hc'
      · rename_i h
        exact Or.inr ⟨by simp, by simpa using h⟩
      · rcases ih false c hc' with h | ⟨h1, h2⟩
        · exact Or.inl h
        · exact Or.inr ⟨by simp [h1], h2⟩

lemma collapse_head_true : ∀ (l : List Char) (c : Char) (t : List Char),
    collapseGo true l = c :: t → jsWs c = false := by
  intro l
  induction l with
  | nil => intro c t h; rw [collapseGo] at h; simp at h
  | cons a rest ih =>
    intro c t h
    rw [collapseGo] at h
    split at h
    · rw [if_pos rfl] at h
      exact ih c t h
    · rename_i ha
      injection h with h1 _
      subst h1
      simpa using ha

lemma collapse_chain : ∀ (l : List Char) (b : Bool),
    List.Chain' (fun a b => ¬(jsWs a = true ∧ jsWs b = true))
      (collapseGo b l) := by
  intro l
  induction l with
  | nil => intro b; rw [collapseGo]; simp
  | cons a rest ih =>
    intro b
    rw [collapseGo]
    split
    · split
      · exact ih true
      · rw [List.chain'_cons']
        refine ⟨?_, ih true⟩
        intro y hy
        cases hcol : collapseGo true rest with
        | nil => rw [hcol] at hy; simp at hy
        | cons c t =>
          rw [hcol] at hy
          simp at hy
          subst hy
          intro hand
          rw [collapse_head_true rest c t hcol] at hand
          exact absurd hand.2 (by simp)
    · rename_i ha
      rw [List.chain'_cons']
      refine ⟨?_, ih false⟩
      intro y _
      intro hand
      rw [hand.1] at ha
      exact absurd ha (by simp)

lemma collapse_state (l : List Char)
    (h : ∀ y ∈ l.head?, jsWs y = false) :
    collapseGo true l = collapseGo false l := by
  cases l with
  | nil => rfl
  | cons c t =>
    have hc : jsWs c = false := h c (by simp)
    rw [collapseGo, collapseGo, if_neg (by simp [hc]), if_neg (by simp [hc])]

lemma collapse_id : ∀ (l : List Char),
    (∀ c ∈ l, jsWs c = true → c = ' ') →
    List.Chain' (fun a b => ¬(jsWs a = true ∧ jsWs b = true)) l →
    collapseGo false l = l := by
  intro l
  induction l with
  | nil => intro _ _; rfl
  | cons c rest ih =>
    intro hws hch
    rw [collapseGo]
    cases hc : jsWs c with
    | false =>
      rw [if_neg (by simp [hc])]
      rw [ih (fun x hx hwx => hws x (by simp [hx]) hwx) hch.tail]
    | true =>
      rw [if_pos (by simp [hc])]
      have hcsp : c = ' ' := hws c (by simp) hc
      have hhd : ∀ y ∈ rest.head?, jsWs y = false := by
        intro y hy
        have := (List.chain'_cons'.mp hch).1 y hy
        cases hyw : jsWs y with
        | false => rfl
        | true => exact absurd ⟨hc, hyw⟩ this
      rw [collapse_state rest hhd,
        ih (fun x hx hwx => hws x (by simp [hx]) hwx) hch.tail, hcsp]
      simp

lemma dropWhile_head_false (p : Char → Bool) : ∀ (l : List Char) (c : Char)
    (t : List Char), l.dropWhile p = c :: t → p c = false := by
  intro l
  induction l with
  | nil => intro c t h; simp at h
  | cons a rest ih =>
    intro c t h
    rw [List.dropWhile_cons] at h
    split at h
    · exact ih c t h
    · injection h with h1 _
      subst h1
      rename_i hcond _
      simpa using hcond

lemma jsTrim_head_false (cs : List Char) (c : Char) (t : List Char)
    (h : jsTrim cs = c :: t) : jsWs c = false := by
  rw [jsTrim] at h
  set A := cs.dropWhile jsWs with hA
  set B := A.reverse.dropWhile jsWs with hB
  have hBne : B ≠ [] := by
    intro hb
    rw [hb] at h
    simp at h
  have hgl : B.getLast? = some c := by
    rw [← List.head?_reverse, h]
    rfl
  obtain ⟨pre, hpre⟩ := List.dropWhile_suffix (l := A.reverse) jsWs
  have : A.reverse.getLast? = some c := by
    rw [← hpre, getLast?_append_right pre B hBne, hgl]
  rw [List.getLast?_reverse] at this
  cases hA2 : A with
  | nil => rw [hA2] at this; simp at this
  | cons a t2 =>
    rw [hA2] at this
    simp at this
    subst this
    exact dropWhile_head_false jsWs cs a t2 (by rw [← hA, hA2])

lemma jsTrim_getLast_false (cs : List Char) (c : Char)
    (h : (jsTrim cs).getLast? = some c) : jsWs c = false := by
  rw [jsTrim, List.getLast?_reverse] at h
  cases hB : (cs.dropWhile jsWs).reverse.dropWhile jsWs with
  | nil => rw [hB] at h; simp at h
  | cons b t =>
    rw [hB] at h
    have hbc : b = c := by simpa using h
    rw [← hbc]
    exact dropWhile_head_false jsWs _ b t hB

lemma jsTrim_idem (cs : List Char) : jsTrim (jsTrim cs) = jsTrim cs := by
  cases h : jsTrim cs with
  | nil => decide
  | cons c t =>
    have hd : (jsTrim cs).head? = some c := by rw [h]; rfl
    have hglsome : ∃ d, (jsTrim cs).getLast? = some d := by
      rw [h]
      exact ⟨(c :: t).getLast (by simp), List.getLast?_eq_getLast _ _⟩
    obtain ⟨d, hgl⟩ := hglsome
    rw [← h]
    exact jsTrim_eq_self (jsTrim cs) c d hd
      (jsTrim_head_false cs c t h) hgl (jsTrim_getLast_false cs d hgl)

lemma normalizeText_char_prop (s : List Char) :
    ∀ c ∈ normalizeText s, c = ' ' ∨
      (jsWs c = false ∧ Char.toLower c = c ∧ isCombMark c = false ∧
        punctToSpace c = c) := by
  intro c hc
  rw [normalizeText] at hc
  obtain ⟨l1, l2, hdec⟩ := jsTrim_decomp
    (collapseWs (((s.map Char.toLower).filter
      (fun c => !isCombMark c)).map punctToSpace))
  have hcW : c ∈ collapseWs (((s.map Char.toLower).filter
      (fun c => !isCombMark c)).map punctToSpace) := by
    rw [hdec]
    simp [hc]
  rw [collapseWs] at hcW
  rcases collapse_mem _ false c hcW with h | ⟨hM, hnw⟩
  · exact Or.inl h
  · right
    obtain ⟨d, hdmem, hdc⟩ := List.mem_map.mp hM
    obtain ⟨hdmap, hdcomb⟩ := List.mem_filter.mp hdmem
    obtain ⟨x, _, hxd⟩ := List.mem_map.mp hdmap
    have hcd : c = d := by
      rw [punctToSpace] at hdc
      split at hdc
      · rw [← hdc] at hnw
        exact absurd hnw (by decide)
      · exact hdc.symm
    have hword : isWordChar c = true := by
      rw [punctToSpace] at hdc
      split at hdc
      · rw [← hdc] at hnw
        exact absurd hnw (by decide)
      · rename_i hcond
        have hcond' : isWordChar d = false → jsWs d = true := by
          simpa using hcond
        cases hw : isWordChar d with
        | true => rw [hcd]; exact hw
        | false =>
          have hwsd : jsWs d = true := hcond' hw
          rw [hcd, hwsd] at hnw
          exact absurd hnw (by simp)
    refine ⟨hnw, ?_, ?_, ?_⟩
    · rw [hcd, ← hxd]
      exact char_toLower_idem x
    · rw [hcd]
      simpa using hdcomb
    · rw [punctToSpace, if_neg (by simp [hword])]

/-- C10: the scorer's text normalization is idempotent. -/
theorem claim_C10 (s : List Char) :
    normalizeText (normalizeText s) = normalizeText s := by
  have hprop := normalizeText_char_prop s
  have hmap1 : (normalizeText s).map Char.toLower = normalizeText s := by
    apply mapIdOn
    intro c hc
    rcases hprop c hc with rfl | ⟨_, h, _, _⟩
    · decide
    · exact h
  have hfil : ((normalizeText s).filter (fun c => !isCombMark c)) =
      normalizeText s := by
    rw [List.filter_eq_self]
    intro c hc
    rcases hprop c hc with rfl | ⟨_, _, h, _⟩
    · decide
    · simp [h]
  have hmap2 : (normalizeText s).map punctToSpace = normalizeText s := by
    apply mapIdOn
    intro c hc
    rcases hprop c hc with rfl | ⟨_, _, _, h⟩
    · decide
    · exact h
  have hchW : List.Chain' (fun a b => ¬(jsWs a = true ∧ jsWs b = true))
      (normalizeText s) := by
    rw [normalizeText]
    obtain ⟨l1, l2, hdec⟩ := jsTrim_decomp
      (collapseWs (((s.map Char.toLower).filter
        (fun c => !isCombMark c)).map punctToSpace))
    have hchain : List.Chain' (fun a b => ¬(jsWs a = true ∧ jsWs b = true))
        (collapseWs (((s.map Char.toLower).filter
          (fun c => !isCombMark c)).map punctToSpace)) := by
      rw [collapseWs]
      exact collapse_chain _ false
    exact hchain.infix ⟨l1, l2, by rw [List.append_assoc]; exact hdec.symm⟩
  have hcol : collapseWs (normalizeText s) = normalizeText s := by
    rw [collapseWs]
    apply collapse_id _ _ hchW
    intro c hc hwc
    rcases hprop c hc with rfl | ⟨h, _, _, _⟩
    · rfl
    · rw [h] at hwc
      exact absurd hwc (by simp)
  conv_lhs => rw [normalizeText, hmap1, hfil, hmap2, hcol]
  rw [normalizeText]
  exact jsTrim_idem _

lemma mem_insScore (x a : DocChunk) : ∀ (l : List DocChunk),
    x ∈ insScore a l ↔ x = a ∨ x ∈ l := by
  intro l
  induction l with
  | nil => simp [insScore]
  | cons b rest ih =>
    rw [insScore]
    split
    · simp
    · simp only [List.mem_cons, ih]
      tauto

lemma mem_sortByScoreDesc (x : DocChunk) : ∀ (l : List DocChunk),
    x ∈ sortByScoreDesc l ↔ x ∈ l := by
  intro l
  induction l with
  | nil => simp [sortByScoreDesc]
  | cons a rest ih =>
    rw [sortByScoreDesc, List.foldr_cons, mem_insScore]
    rw [sortByScoreDesc] at ih
    simp only [ih, List.mem_cons]

lemma relevant_index_lt (document searchQuery : List Char) :
    ∀ c ∈ relevantChunksOf document searchQuery,
      c.index < (splitIntoChunks document defaultChunkingOptions).length := by
  intro c hc
  rw [relevantChunksOf, mem_sortByScoreDesc] at hc
  have hc2 := List.mem_of_mem_filter hc
  rw [scoredChunksOf] at hc2
  obtain ⟨p, hp, hpc⟩ := List.mem_map.mp hc2
  have := (List.mem_enum (show (p.1, p.2) ∈ _ from by simpa using hp)).1
  rw [← hpc]
  exact this

lemma sbrGo_eq_map (chunks : List (List Char)) (maxResults : Nat) :
    ∀ (rel : List DocChunk) (used : List Nat) (count : Nat),
      sbrGo chunks maxResults rel used count =
        (sbrIdxGo chunks maxResults rel used count).map
          (getExpandedContext chunks) := by
  intro rel
  induction rel with
  | nil => intro used count; rw [sbrGo, sbrIdxGo]; rfl
  | cons chunk rest ih =>
    intro used count
    rw [sbrGo, sbrIdxGo]
    split
    · rfl
    · split
      · exact ih used count
      · dsimp only
        rw [List.map_cons, ih]

lemma sbrIdxGo_inv (chunks : List (List Char)) (maxResults : Nat) :
    ∀ (rel : List DocChunk) (used : List Nat) (count : Nat),
      (∀ c ∈ rel, c.index < chunks.length) →
      List.Pairwise (fun i j => i + 1 < j ∨ j + 1 < i)
        (sbrIdxGo chunks maxResults rel used count) ∧
      (∀ i ∈ sbrIdxGo chunks maxResults rel used count,
        i ∉ used ∧ i < chunks.length) := by
  intro rel
  induction rel with
  | nil =>
    intro used count _
    rw [sbrIdxGo]
    simp
  | cons chunk rest ih =>
    intro used count hlt
    rw [sbrIdxGo]
    split
    · simp
    · split
      · exact ih used count (fun c hc => hlt c (by simp [hc]))
      · rename_i hnotused
        set used3 := (if chunk.index < chunks.length - 1 then
            (chunk.index + 1) ::
              (if 0 < chunk.index then (chunk.index - 1) ::
                (chunk.index :: used) else chunk.index :: used)
          else
            (if 0 < chunk.index then (chunk.index - 1) ::
              (chunk.index :: used) else chunk.index :: used)) with hused3
        obtain ⟨ihpw, ihmem⟩ :=
          ih used3 (count + 1) (fun c hc => hlt c (by simp [hc]))
        constructor
        · rw [List.pairwise_cons]
          refine ⟨?_, ihpw⟩
          intro j hj
          obtain ⟨hjused, hjlt⟩ := ihmem j hj
          rw [hused3] at hjused
          have hi := hlt chunk (by simp)
          by_cases h1 : chunk.index < chunks.length - 1 <;>
            by_cases h2 : 0 < chunk.index <;>
              simp only [h1, h2, if_true, if_false, List.mem_cons,
                not_or] at hjused <;>
            omega
        · intro i hi
          rcases List.mem_cons.mp hi with rfl | hi'
          · exact ⟨hnotused, hlt chunk (by simp)⟩
          · obtain ⟨hiused, hilt⟩ := ihmem i hi'
            refine ⟨?_, hilt⟩
            intro hin
            apply hiused
            rw [hused3]
            by_cases h1 : chunk.index < chunks.length - 1 <;>
              by_cases h2 : 0 < chunk.index <;>
                simp [h1, h2, hin]

/-- C2: the results of `searchInDocs` are the expanded contexts of the
selected source indices, and any two selected indices differ by more than
one — the used-indices set of `selectBestResults` only grows (a selected
chunk claims its own index and its in-range neighbors) and an
already-claimed index is never selected again. -/
theorem claim_C2 (document searchQuery : List Char) (maxResults : Nat) :
    ((searchInDocs document searchQuery maxResults).results =
      (searchSelectedIndices document searchQuery maxResults).map
        (getExpandedContext (splitIntoChunks document defaultChunkingOptions))) ∧
    List.Pairwise (fun i j => i + 1 < j ∨ j + 1 < i)
      (searchSelectedIndices document searchQuery maxResults) := by
  constructor
  · rw [searchInDocs, searchSelectedIndices]
    dsimp only
    rw [selectBestResults, sbrGo_eq_map]
  · rw [searchSelectedIndices]
    exact (sbrIdxGo_inv _ maxResults _ [] 0
      (relevant_index_lt document searchQuery)).1

lemma normalizeText_ws_space (s : List Char) :
    ∀ c ∈ normalizeText s, jsWs c = true → c = ' ' := by
  intro c hc hw
  rcases normalizeText_char_prop s c hc with rfl | ⟨h, _, _, _⟩
  · rfl
  · rw [h] at hw
    exact absurd hw (by simp)

lemma normalizeText_chain (s : List Char) :
    List.Chain' (fun a b => ¬(jsWs a = true ∧ jsWs b = true))
      (normalizeText s) := by
  rw [normalizeText]
  obtain ⟨l1, l2, hdec⟩ := jsTrim_decomp
    (collapseWs (((s.map Char.toLower).filter
      (fun c => !isCombMark c)).map punctToSpace))
  have hchain : List.Chain' (fun a b => ¬(jsWs a = true ∧ jsWs b = true))
      (collapseWs (((s.map Char.toLower).filter
        (fun c => !isCombMark c)).map punctToSpace)) := by
    rw [collapseWs]
    exact collapse_chain _ false
  exact hchain.infix ⟨l1, l2, by rw [List.append_assoc]; exact hdec.symm⟩

lemma normalizeText_head_ws (s : List Char) (c : Char)
    (h : (normalizeText s).head? = some c) : jsWs c = false := by
  rw [normalizeText] at h
  cases hn : jsTrim (collapseWs (((s.map Char.toLower).filter
      (fun c => !isCombMark c)).map punctToSpace)) with
  | nil => rw [hn] at h; simp at h
  | cons a t =>
    rw [hn] at h
    have hac : a = c := by simpa using h
    rw [← hac]
    exact jsTrim_head_false _ a t hn

lemma normalizeText_getLast_ws (s : List Char) (c : Char)
    (h : (normalizeText s).getLast? = some c) : jsWs c = false := by
  rw [normalizeText] at h
  exact jsTrim_getLast_false _ c h

lemma splitWsGo_state (r : List Char)
    (h : ∀ y ∈ r.head?, jsWs y = false) :
    splitWsGo true r = splitWsGo false r := by
  cases r with
  | nil => rfl
  | cons d t =>
    have hd : jsWs d = false := h d (by simp)
    rw [splitWsGo, splitWsGo, if_neg (by simp [hd]), if_neg (by simp [hd])]

lemma splitSpace_eq_ws : ∀ (t : List Char),
    (∀ c ∈ t, jsWs c = true → c = ' ') →
    List.Chain' (fun a b => ¬(jsWs a = true ∧ jsWs b = true)) t →
    splitSpace t = splitWsGo false t := by
  intro t
  induction t with
  | nil => intro _ _; rfl
  | cons c r ih =>
    intro hws hch
    cases hc : jsWs c with
    | true =>
      have hcsp : c = ' ' := hws c (by simp) hc
      subst hcsp
      rw [splitSpace, if_pos rfl, splitWsGo, if_pos (by simp [hc])]
      have hhd : ∀ y ∈ r.head?, jsWs y = false := by
        intro y hy
        have := (List.chain'_cons'.mp hch).1 y hy
        cases hyw : jsWs y with
        | false => rfl
        | true => exact absurd ⟨hc, hyw⟩ this
      rw [splitWsGo_state r hhd,
        ih (fun x hx hwx => hws x (by simp [hx]) hwx) hch.tail]
      simp
    | false =>
      have hcsp : c ≠ ' ' := by
        intro hh
        subst hh
        exact absurd hc (by decide)
      rw [splitSpace, if_neg hcsp, splitWsGo, if_neg (by simp [hc]),
        ih (fun x hx hwx => hws x (by simp [hx]) hwx) hch.tail]

lemma splitSpace_ne_nil : ∀ (t : List Char), splitSpace t ≠ [] := by
  intro t
  induction t with
  | nil => simp [splitSpace]
  | cons c r ih =>
    rw [splitSpace]
    split
    · simp
    · cases h : splitSpace r with
      | nil => exact absurd h ih
      | cons p ps => simp [consHead]

lemma splitSpace_pieces_ne : ∀ (n : Nat) (t : List Char), t.length ≤ n →
    t ≠ [] →
    (∀ c, t.head? = some c → c ≠ ' ') →
    (∀ c, t.getLast? = some c → c ≠ ' ') →
    (∀ c ∈ t, jsWs c = true → c = ' ') →
    List.Chain' (fun a b => ¬(jsWs a = true ∧ jsWs b = true)) t →
    ∀ p ∈ splitSpace t, p ≠ [] := by
  intro n
  induction n with
  | zero =>
    intro t hlen hne _ _ _ _
    cases t with
    | nil => exact absurd rfl hne
    | cons c r => simp at hlen
  | succ n ih =>
    intro t hlen hne hhd hgl hws hch p hp
    cases t with
    | nil => exact absurd rfl hne
    | cons c r =>
      have hcsp : c ≠ ' ' := hhd c (by simp)
      rw [splitSpace, if_neg hcsp] at hp
      cases r with
      | nil =>
        rw [show splitSpace [] = [[]] from rfl] at hp
        simp only [consHead] at hp
        simp at hp
        subst hp
        simp
      | cons d r2 =>
        by_cases hd : d = ' '
        · subst hd
          cases r2 with
          | nil => exact absurd (hgl ' ' (by simp)) (by simp)
          | cons e r3 =>
            rw [show splitSpace (' ' :: e :: r3) = [] :: splitSpace (e :: r3)
              from by rw [splitSpace, if_pos rfl]] at hp
            simp only [consHead] at hp
            rcases List.mem_cons.mp hp with rfl | hp'
            · simp
            · refine ih (e :: r3) (by simp at hlen ⊢; omega) (by simp)
                ?_ ?_ (fun x hx hwx => hws x (by simp [hx]) hwx)
                (hch.tail.tail) p hp'
              · intro x hx
                have hxe : e = x := by simpa using hx
                have hchE := (List.chain'_cons'.mp
                  (List.chain'_cons'.mp hch).2).1 e (by simp)
                intro hxsp
                rw [hxe, hxsp] at hchE
                exact hchE ⟨by decide, by decide⟩
              · intro x hx
                apply hgl x
                rw [List.getLast?_cons_cons, List.getLast?_cons_cons]
                exact hx
        · cases hsp : splitSpace (d :: r2) with
          | nil => exact absurd hsp (splitSpace_ne_nil _)
          | cons q qs =>
            rw [hsp] at hp
            simp only [consHead] at hp
            have hrec := ih (d :: r2) (by simp at hlen ⊢; omega) (by simp)
              (by intro x hx; simp at hx; subst hx; exact hd)
              (by intro x hx; apply hgl x; rw [List.getLast?_cons_cons]; exact hx)
              (fun x hx hwx => hws x (by simp [hx]) hwx) hch.tail
            rcases List.mem_cons.mp hp with rfl | hp'
            · simp
            · exact hrec p (by rw [hsp]; simp [hp'])

lemma wordsOf_eq_splitSpace (s : List Char) (hne : normalizeText s ≠ []) :
    wordsOf (normalizeText s) = splitSpace (normalizeText s) := by
  rw [wordsOf, splitWsRuns,
    ← splitSpace_eq_ws _ (normalizeText_ws_space s) (normalizeText_chain s)]
  rw [List.filter_eq_self]
  intro p hp
  have := splitSpace_pieces_ne (normalizeText s).length _ le_rfl hne
    (fun c hc hsp => by
      rw [hsp] at hc
      exact absurd (normalizeText_head_ws s ' ' hc) (by decide))
    (fun c hc hsp => by
      rw [hsp] at hc
      exact absurd (normalizeText_getLast_ws s ' ' hc) (by decide))
    (normalizeText_ws_space s) (normalizeText_chain s) p hp
  simpa using this

lemma foldl_add_sum (g : List Char → ℚ) : ∀ (l : List (List Char)) (init : ℚ),
    l.foldl (fun s w => s + g w) init = init + (l.map g).sum := by
  intro l
  induction l with
  | nil => intro init; simp
  | cons w rest ih =>
    intro init
    rw [List.foldl_cons, ih, List.map_cons, List.sum_cons]
    ring

lemma calcWMS_eq (NC T : List Char) :
    calculateWordMatchScore NC T = ((splitSpace T).map (fun word =>
      if 2 ≤ word.length then
        2 * (countTok word NC : ℚ) + (1/2 : ℚ) * (countPre word NC : ℚ)
      else 0)).sum := by
  rw [calculateWordMatchScore]
  have hfun : (fun (score : ℚ) word =>
      if word.length < 2 then score
      else score + (countTok word NC : ℚ) * SCORE_wordMatch
                 + (countPre word NC : ℚ) * SCORE_partialMatch) =
      (fun (score : ℚ) word => score + (if 2 ≤ word.length then
        2 * (countTok word NC : ℚ) + (1/2 : ℚ) * (countPre word NC : ℚ)
      else 0)) := by
    funext s w
    by_cases h : w.length < 2
    · rw [if_pos h, if_neg (by omega)]
      ring
    · rw [if_neg h, if_pos (by omega), SCORE_wordMatch, SCORE_partialMatch]
      norm_num
      ring
  rw [hfun, foldl_add_sum]
  rw [zero_add]

lemma perTerm_eq (NC term : List Char) :
    (if (normalizeText term).isEmpty then (0 : ℚ)
     else (if hasSub (normalizeText term) NC then
            SCORE_exactMatch * ((splitSpace (normalizeText term)).length : ℚ)
           else 0)
          + calculateWordMatchScore NC (normalizeText term)) =
    (if (normalizeText term).isEmpty then 0
     else termScoreSpec NC (normalizeText term)) := by
  by_cases h : (normalizeText term).isEmpty
  · rw [if_pos h, if_pos h]
  · rw [if_neg h, if_neg h, termScoreSpec]
    have hw : wordsOf (normalizeText term) = splitSpace (normalizeText term) :=
      wordsOf_eq_splitSpace term (by simpa using h)
    rw [hw, calcWMS_eq, SCORE_exactMatch]

lemma applyBonuses_nonneg (chunk : List Char) (s : ℚ) (hs : 0 ≤ s) :
    0 ≤ applyBonuses chunk s := by
  rw [applyBonuses, SCORE_codeBonus, SCORE_headerBonus]
  split <;> split <;>
    first
      | exact mul_nonneg (mul_nonneg hs (by norm_num)) (by norm_num)
      | exact mul_nonneg hs (by norm_num)
      | exact hs

lemma perTerm_nonneg (NC term : List Char) :
    0 ≤ (if (normalizeText term).isEmpty then (0 : ℚ)
     else (if hasSub (normalizeText term) NC then
            SCORE_exactMatch * ((splitSpace (normalizeText term)).length : ℚ)
           else 0)
          + calculateWordMatchScore NC (normalizeText term)) := by
  split
  · exact le_refl 0
  · apply add_nonneg
    · split
      · rw [SCORE_exactMatch]
        positivity
      · exact le_refl 0
    · rw [calcWMS_eq]
      apply List.sum_nonneg
      intro x hx
      obtain ⟨w, _, hwx⟩ := List.mem_map.mp hx
      rw [← hwx]
      split
      · positivity
      · exact le_refl 0

/-- C4: `calculateRelevanceScore` equals the specification's reference
definition — per term (skipping terms that normalize to empty), the
full-phrase weight `10 x wordCount` when the normalized chunk contains
the normalized term, plus per word of length at least 2 the weight `2`
per exact word-boundary occurrence and `0.5` per word-boundary prefix
occurrence, with the multiplicative bonuses applied once to the
cumulative sum — and the score is non-negative. -/
theorem claim_C4 (chunk : List Char) (searchTerms : List (List Char)) :
    calculateRelevanceScore chunk searchTerms =
      relevanceScoreSpec chunk searchTerms ∧
    0 ≤ calculateRelevanceScore chunk searchTerms := by
  have hfun : (fun (score : ℚ) (term : List Char) =>
      let normalizedTerm := normalizeText term
      if normalizedTerm.isEmpty then score
      else
        (if hasSub normalizedTerm (normalizeText chunk) then
          score + SCORE_exactMatch * ((splitSpace normalizedTerm).length : ℚ)
        else score) + calculateWordMatchScore (normalizeText chunk) normalizedTerm) =
      (fun (score : ℚ) (term : List Char) => score +
        (if (normalizeText term).isEmpty then (0 : ℚ)
         else (if hasSub (normalizeText term) (normalizeText chunk) then
                SCORE_exactMatch * ((splitSpace (normalizeText term)).length : ℚ)
               else 0)
              + calculateWordMatchScore (normalizeText chunk) (normalizeText term))) := by
    funext s term
    dsimp only
    by_cases h : (normalizeText term).isEmpty
    · rw [if_pos h, if_pos h]
      ring
    · rw [if_neg h, if_neg h]
      by_cases h2 : hasSub (normalizeText term) (normalizeText chunk)
      · rw [if_pos h2, if_pos h2]
        ring
      · rw [if_neg h2, if_neg h2]
        ring
  constructor
  · rw [calculateRelevanceScore, relevanceScoreSpec]
    dsimp only
    rw [hfun, foldl_add_sum, zero_add]
    congr 1
    exact congrArg List.sum
      (List.map_congr_left (fun term _ => perTerm_eq (normalizeText chunk) term))
  · rw [calculateRelevanceScore]
    dsimp only
    rw [hfun, foldl_add_sum, zero_add]
    apply applyBonuses_nonneg
    apply List.sum_nonneg
    intro x hx
    obtain ⟨term, _, htx⟩ := List.mem_map.mp hx
    rw [← htx]
    exact perTerm_nonneg (normalizeText chunk) term

lemma nonWs_append (a b : List Char) : nonWs (a ++ b) = nonWs a ++ nonWs b := by
  rw [nonWs, nonWs, nonWs, List.filter_append]

lemma nonWs_cons_ws (c : Char) (rest : List Char) (h : jsWs c = true) :
    nonWs (c :: rest) = nonWs rest := by
  rw [nonWs, nonWs, List.filter_cons_of_neg (by simp [h])]

lemma join_consHead (c : Char) : ∀ (l : List (List Char)), l ≠ [] →
    (consHead c l).flatten = c :: l.flatten := by
  intro l hl
  cases l with
  | nil => exact absurd rfl hl
  | cons p ps => rfl

lemma headerSplitGo_join : ∀ (cs : List Char),
    (headerSplitGo cs).flatten = cs := by
  intro cs
  induction cs with
  | nil => rfl
  | cons c rest ih =>
    rw [headerSplitGo]
    split
    · rw [List.flatten_cons, ih]
      rfl
    · rw [join_consHead c _ (headerSplitGo_ne_nil rest), ih]

lemma paraSplitGo_join_nonWs : ∀ (cs : List Char) (b : Bool),
    nonWs (paraSplitGo b cs).flatten = nonWs cs := by
  intro cs
  induction cs with
  | nil => intro b; rw [paraSplitGo]; rfl
  | cons c rest ih =>
    intro b
    rw [paraSplitGo]
    split
    · rename_i h
      have hc : c = '\n' := by
        simp at h
        exact h.2
      rw [ih true, hc, nonWs_cons_ws '\n' rest (by decide)]
    · split
      · rename_i h
        have hc : c = '\n' := by
          simp at h
          exact h.1
        rw [List.flatten_cons, List.nil_append, ih true, hc,
          nonWs_cons_ws '\n' rest (by decide)]
      · have ihf : List.filter (fun x => !jsWs x)
            (paraSplitGo false rest).flatten =
            List.filter (fun x => !jsWs x) rest := by
          have h2 := ih false
          rw [nonWs, nonWs] at h2
          exact h2
        rw [join_consHead c _ (paraSplitGo_ne_nil false rest), nonWs, nonWs,
          List.filter_cons, List.filter_cons, ihf]

lemma hrSplitGoS_ne_nil : ∀ (cs : List Char) (b : Bool) (o : Option Char),
    hrSplitGoS b o cs ≠ [] := by
  intro cs
  induction cs with
  | nil => intro b o; rw [hrSplitGoS]; simp
  | cons c rest ih =>
    intro b o
    cases o with
    | some ch =>
      rw [hrSplitGoS]
      split
      · exact ih false (some ch)
      · cases h : hrSplitGoS (isLineTerm c) none rest with
        | nil => exact absurd h (ih (isLineTerm c) none)
        | cons p ps => simp [consHead, h]
    | none =>
      rw [hrSplitGoS]
      split
      · simp
      · cases h : hrSplitGoS (isLineTerm c) none rest with
        | nil => exact absurd h (ih (isLineTerm c) none)
        | cons p ps => simp [consHead, h]

lemma hrSplitGoS_join : ∀ (cs : List Char) (b : Bool) (o : Option Char),
    (hrSplitGoS b o cs).flatten = hrEraseS b o cs := by
  intro cs
  induction cs with
  | nil => intro b o; cases o <;> rfl
  | cons c rest ih =>
    intro b o
    cases o with
    | some ch =>
      rw [hrSplitGoS, hrEraseS]
      split
      · exact ih false (some ch)
      · rw [join_consHead c _ (hrSplitGoS_ne_nil rest (isLineTerm c) none), ih]
    | none =>
      rw [hrSplitGoS, hrEraseS]
      split
      · rw [List.flatten_cons, List.nil_append, ih]
      · rw [join_consHead c _ (hrSplitGoS_ne_nil rest (isLineTerm c) none), ih]

lemma sentSplitGo_join_nonWs : ∀ (cs : List Char) (b : Bool),
    nonWs (sentSplitGo b cs).flatten = nonWs cs := by
  intro cs
  induction cs with
  | nil => intro b; rw [sentSplitGo]; rfl
  | cons c rest ih =>
    intro b
    rw [sentSplitGo]
    split
    · rename_i h
      rw [ih true, nonWs_cons_ws c rest (by simp at h; exact h.2)]
    · split
      · rw [List.flatten_cons, List.cons_append, List.nil_append, nonWs, nonWs,
          List.filter_cons, List.filter_cons]
        have h2 := ih true
        rw [nonWs, nonWs] at h2
        rw [h2]
      · have ihf : List.filter (fun x => !jsWs x)
            (sentSplitGo false rest).flatten =
            List.filter (fun x => !jsWs x) rest := by
          have h2 := ih false
          rw [nonWs, nonWs] at h2
          exact h2
        rw [join_consHead c _ (sentSplitGo_ne_nil false rest), nonWs, nonWs,
          List.filter_cons, List.filter_cons, ihf]

lemma nonWs_eq_nil_of_all_ws (l : List Char) (h : ∀ c ∈ l, jsWs c = true) :
    nonWs l = [] := by
  rw [nonWs, List.filter_eq_nil_iff]
  intro a ha
  simp [h a ha]

lemma nonWs_dropWhile_jsWs (l : List Char) :
    nonWs (l.dropWhile jsWs) = nonWs l := by
  conv_rhs => rw [← List.takeWhile_append_dropWhile (p := jsWs) (l := l)]
  rw [nonWs_append, nonWs_eq_nil_of_all_ws _
    (fun c hc => List.mem_takeWhile_imp hc), List.nil_append]

lemma nonWs_reverse (l : List Char) : nonWs l.reverse = (nonWs l).reverse := by
  rw [nonWs, nonWs, List.filter_reverse]

lemma nonWs_jsTrim (cs : List Char) : nonWs (jsTrim cs) = nonWs cs := by
  rw [jsTrim, nonWs_reverse, nonWs_dropWhile_jsWs, nonWs_reverse,
    List.reverse_reverse, nonWs_dropWhile_jsWs]

lemma hasNonWs_false_nonWs (p : List Char) (h : hasNonWs p = false) :
    nonWs p = [] := by
  apply nonWs_eq_nil_of_all_ws
  intro c hc
  rw [hasNonWs] at h
  have := List.any_eq_false.mp h c hc
  simpa using this

lemma filter_hasNonWs_join : ∀ (l : List (List Char)),
    nonWs (l.filter hasNonWs).flatten = nonWs l.flatten := by
  intro l
  induction l with
  | nil => rfl
  | cons p ps ih =>
    rw [List.filter_cons]
    split
    · rw [List.flatten_cons, List.flatten_cons, nonWs_append, nonWs_append, ih]
    · rename_i h
      rw [List.flatten_cons, nonWs_append,
        hasNonWs_false_nonWs p (by simpa using h), List.nil_append, ih]

lemma sbsGo_join_nonWs : ∀ (ss : List (List Char)) (cur : List Char),
    nonWs (sbsGo ss cur).flatten = nonWs cur ++ nonWs ss.flatten := by
  intro ss
  induction ss with
  | nil =>
    intro cur
    rw [sbsGo]
    split
    · rename_i h
      have : nonWs cur = [] := by
        rw [← nonWs_jsTrim]
        rw [List.isEmpty_iff] at h
        rw [h]
        rfl
      rw [this]
      rfl
    · rw [List.flatten_cons, List.flatten_nil, List.append_nil, nonWs_jsTrim]
      simp [nonWs]
  | cons s ss ih =>
    intro cur
    rw [sbsGo]
    split
    · rw [List.flatten_cons, nonWs_append, nonWs_jsTrim, ih,
        List.flatten_cons, nonWs_append]
    · rw [ih]
      by_cases hemp : cur.isEmpty
      · rw [if_pos hemp]
        rw [List.isEmpty_iff] at hemp
        rw [hemp, List.flatten_cons, nonWs_append]
        rfl
      · rw [if_neg hemp, nonWs_append, nonWs_cons_ws ' ' s (by decide),
          List.flatten_cons, nonWs_append, List.append_assoc]

lemma splitBySentences_join_nonWs (chunk : List Char) :
    nonWs (splitBySentences chunk).flatten = nonWs chunk := by
  rw [splitBySentences, sbsGo_join_nonWs, sentSplit, sentSplitGo_join_nonWs]
  rfl

lemma refineChunks_join_nonWs : ∀ (chunks : List (List Char)),
    nonWs (refineChunks chunks).flatten = nonWs chunks.flatten := by
  intro chunks
  induction chunks with
  | nil => rfl
  | cons chunk rest ih =>
    rw [refineChunks, List.flatMap_cons, List.flatten_append, nonWs_append]
    rw [refineChunks] at ih
    rw [ih, List.flatten_cons, nonWs_append]
    congr 1
    split
    · rw [List.flatten_cons, List.flatten_nil, List.append_nil]
    · dsimp only
      split
      · rw [filter_hasNonWs_join, paraSplit, paraSplitGo_join_nonWs]
      · rw [splitBySentences_join_nonWs]

lemma topSplit_join_nonWs (document : List Char) :
    nonWs (topSplit document).flatten = nonWs (topSplitErased document) := by
  rw [topSplit, topSplitErased]
  dsimp only
  by_cases h1 : 1 < ((headerSplitGo document).filter hasNonWs).length
  · rw [if_pos h1, if_pos h1, filter_hasNonWs_join, headerSplitGo_join]
  · rw [if_neg h1, if_neg h1]
    by_cases h2 : 1 < ((hrSplitGo true document).filter hasNonWs).length
    · rw [if_pos h2, if_pos h2, filter_hasNonWs_join, hrSplitGo, hrSplitGoS_join,
        hrErase]
    · rw [if_neg h2, if_neg h2, filter_hasNonWs_join, paraSplit,
        paraSplitGo_join_nonWs]

/-- C3: `splitMarkdownDocument` covers the whole document modulo whitespace:
the concatenation of the refined chunks agrees, character for character on
non-whitespace, with the document itself (after erasing the horizontal-rule
separator characters when that split path applies); the returned list is
exactly the refined chunks whose trimmed length exceeds `MIN_CHUNK_SIZE`;
and every refined chunk that is dropped has trimmed length at most
`MIN_CHUNK_SIZE`, so only boilerplate-sized fragments are lost. -/
theorem claim_C3 (document : List Char) :
    nonWs (refineChunks (topSplit document)).flatten =
      nonWs (topSplitErased document) ∧
    splitMarkdownDocument document =
      (refineChunks (topSplit document)).filter
        (fun chunk => MIN_CHUNK_SIZE < (jsTrim chunk).length) ∧
    (∀ chunk ∈ refineChunks (topSplit document),
      chunk ∉ splitMarkdownDocument document →
        (jsTrim chunk).length ≤ MIN_CHUNK_SIZE) := by
  refine ⟨?_, rfl, ?_⟩
  · rw [refineChunks_join_nonWs, topSplit_join_nonWs]
  · intro chunk hmem hnot
    by_contra hlen
    apply hnot
    rw [splitMarkdownDocument, List.mem_filter]
    exact ⟨hmem, by simpa using Nat.lt_of_not_le hlen⟩

lemma jsWs_toNat (w : Char) (hw : jsWs w = true) :
    w.val.toNat = 32 ∨ w.val.toNat = 9 ∨ w.val.toNat = 10 ∨ w.val.toNat = 13 ∨
    w.val.toNat = 11 ∨ w.val.toNat = 12 ∨ w.val.toNat = 160 ∨
    w.val.toNat = 65279 ∨ (8192 ≤ w.val.toNat ∧ w.val.toNat ≤ 8202) ∨
    w.val.toNat = 8232 ∨ w.val.toNat = 8233 ∨ w.val.toNat = 8239 ∨
    w.val.toNat = 8287 ∨ w.val.toNat = 12288 ∨ w.val.toNat = 5760 := by
  rw [jsWs] at hw
  simp only [Bool.or_eq_true, Bool.and_eq_true, decide_eq_true_eq] at hw
  rcases hw with
    ((((((((((((((h|h)|h)|h)|h)|h)|h)|h)|⟨h1,h2⟩)|h)|h)|h)|h)|h)|h)
  · exact Or.inl (by rw [h]; rfl)
  · exact Or.inr (Or.inl (by rw [h]; rfl))
  · exact Or.inr (Or.inr (Or.inl (by rw [h]; rfl)))
  · exact Or.inr (Or.inr (Or.inr (Or.inl (by rw [h]; rfl))))
  · exact Or.inr (Or.inr (Or.inr (Or.inr (Or.inl (by rw [h]; rfl)))))
  · exact Or.inr (Or.inr (Or.inr (Or.inr (Or.inr (Or.inl (by rw [h]; rfl))))))
  · exact Or.inr (Or.inr (Or.inr (Or.inr (Or.inr (Or.inr (Or.inl (by rw [h]; rfl)))))))
  · exact Or.inr (Or.inr (Or.inr (Or.inr (Or.inr (Or.inr (Or.inr (Or.inl (by rw [h]; rfl))))))))
  · exact Or.inr (Or.inr (Or.inr (Or.inr (Or.inr (Or.inr (Or.inr (Or.inr (Or.inl ⟨h1, h2⟩))))))))
  · exact Or.inr (Or.inr (Or.inr (Or.inr (Or.inr (Or.inr (Or.inr (Or.inr (Or.inr (Or.inl (by rw [h]; rfl))))))))))
  · exact Or.inr (Or.inr (Or.inr (Or.inr (Or.inr (Or.inr (Or.inr (Or.inr (Or.inr (Or.inr (Or.inl (by rw [h]; rfl)))))))))))
  · exact Or.inr (Or.inr (Or.inr (Or.inr (Or.inr (Or.inr (Or.inr (Or.inr (Or.inr (Or.inr (Or.inr (Or.inl (by rw [h]; rfl))))))))))))
  · exact Or.inr (Or.inr (Or.inr (Or.inr (Or.inr (Or.inr (Or.inr (Or.inr (Or.inr (Or.inr (Or.inr (Or.inr (Or.inl (by rw [h]; rfl)))))))))))))
  · exact Or.inr (Or.inr (Or.inr (Or.inr (Or.inr (Or.inr (Or.inr (Or.inr (Or.inr (Or.inr (Or.inr (Or.inr (Or.inr (Or.inl (by rw [h]; rfl))))))))))))))
  · exact Or.inr (Or.inr (Or.inr (Or.inr (Or.inr (Or.inr (Or.inr (Or.inr (Or.inr (Or.inr (Or.inr (Or.inr (Or.inr (Or.inr (by rw [h]; rfl))))))))))))))

lemma toLower_ws (w : Char) (hw : jsWs w = true) : w.toLower = w := by
  rw [Char.toLower, if_neg]
  intro hc
  have c1 : 65 ≤ w.val.toNat := hc.1
  have c2 : w.val.toNat ≤ 90 := hc.2
  rcases jsWs_toNat w hw with h|h|h|h|h|h|h|h|⟨ha,hb⟩|h|h|h|h|h|h <;> omega

lemma combMark_ws (w : Char) (hw : jsWs w = true) : isCombMark w = false := by
  cases hcm : isCombMark w with
  | false => rfl
  | true =>
    rw [isCombMark, Bool.and_eq_true, decide_eq_true_eq, decide_eq_true_eq] at hcm
    have c1 : 768 ≤ w.val.toNat := hcm.1
    have c2 : w.val.toNat ≤ 879 := hcm.2
    rcases jsWs_toNat w hw with h|h|h|h|h|h|h|h|⟨ha,hb⟩|h|h|h|h|h|h <;> omega

lemma punctToSpace_ws (w : Char) (hw : jsWs w = true) : punctToSpace w = w := by
  rw [punctToSpace, if_neg]
  simp [hw]

lemma normPre_seam (C T : List Char) (w : Char) (hw : jsWs w = true) :
    (((C ++ w :: T).map Char.toLower).filter (fun c => !isCombMark c)).map
        punctToSpace =
      (((C.map Char.toLower).filter (fun c => !isCombMark c)).map
        punctToSpace) ++
      w :: (((T.map Char.toLower).filter (fun c => !isCombMark c)).map
        punctToSpace) := by
  simp [toLower_ws w hw, combMark_ws w hw, punctToSpace_ws w hw]

lemma collapse_seam (w : Char) (hw : jsWs w = true) (B : List Char) :
    ∀ (A : List Char) (b : Bool),
    collapseGo b (A ++ w :: B) =
      collapseGo b (A ++ [w]) ++ collapseGo true B := by
  intro A
  induction A with
  | nil =>
    intro b
    rw [List.nil_append, List.nil_append]
    cases b <;> simp [collapseGo, hw]
  | cons a A ih =>
    intro b
    rw [List.cons_append, List.cons_append]
    by_cases ha : jsWs a = true
    · cases b <;> simp [collapseGo, ha, ih true]
    · cases b <;> simp [collapseGo, ha, ih false]

lemma collapse_false_true (l : List Char) :
    collapseGo false l = collapseGo true l ∨
    collapseGo false l = ' ' :: collapseGo true l := by
  cases l with
  | nil => exact Or.inl rfl
  | cons c rest =>
    by_cases hc : jsWs c = true
    · right
      simp [collapseGo, hc]
    · left
      simp [collapseGo, hc]

lemma collapse_snoc2 (w : Char) (hw : jsWs w = true) :
    ∀ (A : List Char) (b : Bool),
    collapseGo b (A ++ [w]) = collapseGo b A ++ [' ']
    ∨ (∃ V, collapseGo b A = V ++ [' '] ∧
        collapseGo b (A ++ [w]) = V ++ [' '])
    ∨ (b = true ∧ collapseGo b A = [] ∧ collapseGo b (A ++ [w]) = []) := by
  intro A
  induction A with
  | nil =>
    intro b
    cases b with
    | true =>
      refine Or.inr (Or.inr ⟨rfl, rfl, ?_⟩)
      simp [collapseGo, hw]
    | false =>
      left
      simp [collapseGo, hw]
  | cons a A ih =>
    intro b
    rw [List.cons_append]
    by_cases ha : jsWs a = true
    · cases b with
      | true =>
        rcases ih true with h | ⟨V, h1, h2⟩ | ⟨_, h1, h2⟩
        · left
          simp only [collapseGo, ha, if_true]
          exact h
        · refine Or.inr (Or.inl ⟨V, ?_, ?_⟩) <;>
            simp only [collapseGo, ha, if_true]
          · exact h1
          · exact h2
        · refine Or.inr (Or.inr ⟨rfl, ?_, ?_⟩) <;>
            simp only [collapseGo, ha, if_true]
          · exact h1
          · exact h2
      | false =>
        rcases ih true with h | ⟨V, h1, h2⟩ | ⟨_, h1, h2⟩
        · left
          simp only [collapseGo, ha, if_true, Bool.false_eq_true, if_false]
          rw [h]
          rfl
        · refine Or.inr (Or.inl ⟨' ' :: V, ?_, ?_⟩) <;>
            simp only [collapseGo, ha, if_true, Bool.false_eq_true, if_false]
          · rw [h1]
            rfl
          · rw [h2]
            rfl
        · refine Or.inr (Or.inl ⟨[], ?_, ?_⟩) <;>
            simp only [collapseGo, ha, if_true, Bool.false_eq_true, if_false]
          · rw [h1]
            rfl
          · rw [h2]
            rfl
    · rcases ih false with h | ⟨V, h1, h2⟩ | ⟨hb, _, _⟩
      · left
        simp only [collapseGo, ha, Bool.false_eq_true, if_false]
        rw [h]
        rfl
      · refine Or.inr (Or.inl ⟨a :: V, ?_, ?_⟩) <;>
          simp only [collapseGo, ha, Bool.false_eq_true, if_false]
        · rw [h1]
          rfl
        · rw [h2]
          rfl
      · exact absurd hb (by simp)

lemma jsTrim_cons_ws (x : Char) (hx : jsWs x = true) (S : List Char) :
    jsTrim (x :: S) = jsTrim S := by
  rw [jsTrim, jsTrim, List.dropWhile_cons, if_pos hx]

lemma jsTrim_snoc_ws (x : Char) (hx : jsWs x = true) (Y : List Char) :
    jsTrim (Y ++ [x]) = jsTrim Y := by
  rw [jsTrim, jsTrim]
  cases hd : Y.dropWhile jsWs with
  | nil =>
    rw [List.dropWhile_append, hd]
    simp [hx]
  | cons d ds =>
    rw [List.dropWhile_append, hd]
    simp only [List.isEmpty_cons, Bool.false_eq_true, if_false]
    rw [List.reverse_append, show [x].reverse = [x] from rfl,
      List.singleton_append, List.dropWhile_cons, if_pos hx]

lemma jsTrim_eq_dropWhile (U : List Char) (u : Char)
    (hu : U.getLast? = some u) (huw : jsWs u = false) :
    jsTrim U = U.dropWhile jsWs := by
  rw [jsTrim]
  have hne : U.dropWhile jsWs ≠ [] := by
    intro h0
    rw [List.dropWhile_eq_nil_iff] at h0
    have hmem : u ∈ U := List.mem_of_mem_getLast? hu
    rw [h0 u hmem] at huw
    exact absurd huw (by simp)
  have hgl : (U.dropWhile jsWs).getLast? = some u := by
    rw [← getLast?_append_right (U.takeWhile jsWs) (U.dropWhile jsWs) hne,
      List.takeWhile_append_dropWhile]
    exact hu
  have hrev : (U.dropWhile jsWs).reverse.dropWhile jsWs =
      (U.dropWhile jsWs).reverse := by
    cases hr : (U.dropWhile jsWs).reverse with
    | nil => rw [List.dropWhile_nil]
    | cons e es =>
      have he : e = u := by
        have hh : (U.dropWhile jsWs).reverse.head? = some u := by
          rw [List.head?_reverse]
          exact hgl
        rw [hr] at hh
        simpa using hh
      rw [List.dropWhile_cons, if_neg (by rw [he, huw]; simp)]
  rw [hrev, List.reverse_reverse]

lemma jsTrim_eq_trimR (S : List Char) (s0 : Char)
    (hs : S.head? = some s0) (hsw : jsWs s0 = false) :
    jsTrim S = (S.reverse.dropWhile jsWs).reverse := by
  rw [jsTrim]
  have hdw : S.dropWhile jsWs = S := by
    cases S with
    | nil => rfl
    | cons a t =>
      have ha : a = s0 := by simpa using hs
      rw [List.dropWhile_cons, if_neg (by rw [ha, hsw]; simp)]
  rw [hdw]

lemma jsTrim_append_seam (U S : List Char) (d e : Char) (ds es : List Char)
    (hU : U.dropWhile jsWs = d :: ds)
    (hS : S.reverse.dropWhile jsWs = e :: es) :
    jsTrim (U ++ ' ' :: S) =
      U.dropWhile jsWs ++ ' ' :: (S.reverse.dropWhile jsWs).reverse := by
  rw [jsTrim]
  have h1 : (U ++ ' ' :: S).dropWhile jsWs = (d :: ds) ++ ' ' :: S := by
    rw [List.dropWhile_append, hU]
    simp
  rw [h1]
  have h2 : ((d :: ds) ++ ' ' :: S).reverse =
      S.reverse ++ ' ' :: (d :: ds).reverse := by
    rw [List.reverse_append, List.reverse_cons, List.append_assoc,
      List.singleton_append]
  rw [h2]
  have h3 : (S.reverse ++ ' ' :: (d :: ds).reverse).dropWhile jsWs =
      (e :: es) ++ ' ' :: (d :: ds).reverse := by
    rw [List.dropWhile_append, hS]
    simp
  rw [h3]
  rw [List.reverse_append, List.reverse_cons, List.reverse_reverse,
    List.append_assoc, List.singleton_append, hU, hS]

lemma normalizeText_append_ws (C T : List Char) (w : Char)
    (hw : jsWs w = true)
    (hC : normalizeText C ≠ []) (hT : normalizeText T ≠ []) :
    normalizeText (C ++ w :: T) =
      normalizeText C ++ ' ' :: normalizeText T := by
  have hNT : normalizeText T =
      jsTrim (collapseGo true (((T.map Char.toLower).filter
        (fun c => !isCombMark c)).map punctToSpace)) := by
    rw [normalizeText, collapseWs]
    rcases collapse_false_true (((T.map Char.toLower).filter
        (fun c => !isCombMark c)).map punctToSpace) with h | h
    · rw [h]
    · rw [h, jsTrim_cons_ws ' ' (by decide)]
  obtain ⟨s0, t0, hS0⟩ : ∃ s0 t0,
      collapseGo true (((T.map Char.toLower).filter
        (fun c => !isCombMark c)).map punctToSpace) = s0 :: t0 := by
    cases hS : collapseGo true (((T.map Char.toLower).filter
        (fun c => !isCombMark c)).map punctToSpace) with
    | nil =>
      rw [hS] at hNT
      exact absurd hNT hT
    | cons a b => exact ⟨a, b, rfl⟩
  have hs0 : jsWs s0 = false := collapse_head_true _ s0 t0 hS0
  obtain ⟨e, es, hSdw⟩ : ∃ e es,
      (collapseGo true (((T.map Char.toLower).filter
        (fun c => !isCombMark c)).map punctToSpace)).reverse.dropWhile jsWs =
        e :: es := by
    cases hr : (collapseGo true (((T.map Char.toLower).filter
        (fun c => !isCombMark c)).map punctToSpace)).reverse.dropWhile jsWs with
    | nil =>
      rw [List.dropWhile_eq_nil_iff] at hr
      have hs0m : s0 ∈ (collapseGo true (((T.map Char.toLower).filter
          (fun c => !isCombMark c)).map punctToSpace)).reverse := by
        rw [List.mem_reverse, hS0]
        simp
      rw [hr s0 hs0m] at hs0
      exact absurd hs0 (by simp)
    | cons a b => exact ⟨a, b, rfl⟩
  have hNTtrimR : normalizeText T =
      ((collapseGo true (((T.map Char.toLower).filter
        (fun c => !isCombMark c)).map punctToSpace)).reverse.dropWhile
          jsWs).reverse := by
    rw [hNT]
    exact jsTrim_eq_trimR _ s0 (by rw [hS0]; rfl) hs0
  have hNC : normalizeText C =
      jsTrim (collapseGo false (((C.map Char.toLower).filter
        (fun c => !isCombMark c)).map punctToSpace)) := by
    rw [normalizeText, collapseWs]
  obtain ⟨d, ds, hQdw⟩ : ∃ d ds,
      (collapseGo false (((C.map Char.toLower).filter
        (fun c => !isCombMark c)).map punctToSpace)).dropWhile jsWs =
        d :: ds := by
    cases hq : (collapseGo false (((C.map Char.toLower).filter
        (fun c => !isCombMark c)).map punctToSpace)).dropWhile jsWs with
    | nil =>
      exfalso
      apply hC
      rw [hNC, jsTrim, hq]
      rfl
    | cons a b => exact ⟨a, b, rfl⟩
  have hQne : collapseGo false (((C.map Char.toLower).filter
      (fun c => !isCombMark c)).map punctToSpace) ≠ [] := by
    intro h0
    rw [h0] at hQdw
    simp at hQdw
  rw [normalizeText, collapseWs, normPre_seam C T w hw,
    collapse_seam w hw _ _ false]
  rcases collapse_snoc2 w hw (((C.map Char.toLower).filter
      (fun c => !isCombMark c)).map punctToSpace) false with
    h1 | ⟨V, hV, hPV⟩ | ⟨hb, _, _⟩
  · rw [h1, List.append_assoc, List.singleton_append]
    have hchain := collapse_chain ((((C.map Char.toLower).filter
      (fun c => !isCombMark c)).map punctToSpace) ++ [w]) false
    rw [h1] at hchain
    obtain ⟨q, hq⟩ : ∃ q, (collapseGo false (((C.map Char.toLower).filter
        (fun c => !isCombMark c)).map punctToSpace)).getLast? = some q :=
      Option.isSome_iff_exists.mp (List.getLast?_isSome.mpr hQne)
    have hqw : jsWs q = false := by
      have hr := (List.chain'_append.mp hchain).2.2 q
        (show q ∈ _ by rw [hq]; rfl) ' ' (by rfl)
      by_cases hqt : jsWs q = true
      · exact absurd ⟨hqt, by decide⟩ hr
      · simpa using hqt
    rw [jsTrim_append_seam _ _ d e ds es hQdw hSdw,
      ← jsTrim_eq_dropWhile _ q hq hqw, ← hNC, ← hNTtrimR]
  · rw [hPV, List.append_assoc, List.singleton_append]
    have hVne : V ≠ [] := by
      intro h0
      rw [h0, List.nil_append] at hV
      apply hC
      rw [hNC, hV]
      decide
    have hchainQ := collapse_chain (((C.map Char.toLower).filter
      (fun c => !isCombMark c)).map punctToSpace) false
    rw [hV] at hchainQ
    obtain ⟨v, hv⟩ : ∃ v, V.getLast? = some v :=
      Option.isSome_iff_exists.mp (List.getLast?_isSome.mpr hVne)
    have hvw : jsWs v = false := by
      have hr := (List.chain'_append.mp hchainQ).2.2 v
        (show v ∈ _ by rw [hv]; rfl) ' ' (by rfl)
      by_cases hvt : jsWs v = true
      · exact absurd ⟨hvt, by decide⟩ hr
      · simpa using hvt
    have hNCV : normalizeText C = jsTrim V := by
      rw [hNC, hV, jsTrim_snoc_ws ' ' (by decide) V]
    obtain ⟨d2, ds2, hVdw⟩ : ∃ d2 ds2, V.dropWhile jsWs = d2 :: ds2 := by
      cases hvd : V.dropWhile jsWs with
      | nil =>
        exfalso
        apply hC
        rw [hNCV, jsTrim, hvd]
        rfl
      | cons a b => exact ⟨a, b, rfl⟩
    rw [jsTrim_append_seam V _ d2 e ds2 es hVdw hSdw,
      ← jsTrim_eq_dropWhile V v hv hvw, ← hNCV, ← hNTtrimR]
  · exact absurd hb (by simp)

lemma consHead_append2 (c : Char) (l l2 : List (List Char)) (h : l ≠ []) :
    consHead c (l ++ l2) = consHead c l ++ l2 := by
  cases l with
  | nil => exact absurd rfl h
  | cons p ps => rfl

lemma splitSpace_append_space (B : List Char) : ∀ (A : List Char),
    splitSpace (A ++ ' ' :: B) = splitSpace A ++ splitSpace B := by
  intro A
  induction A with
  | nil =>
    rw [List.nil_append]
    simp [splitSpace]
  | cons c A ih =>
    rw [List.cons_append, splitSpace, splitSpace]
    by_cases hc : c = ' '
    · rw [if_pos hc, if_pos hc, ih]
      rfl
    · rw [if_neg hc, if_neg hc, ih,
        consHead_append2 c _ _ (splitSpace_ne_nil A)]

lemma countTok_append_space (word A B : List Char) :
    countTok word (A ++ ' ' :: B) = countTok word A + countTok word B := by
  rw [countTok, countTok, countTok, splitSpace_append_space B A,
    List.countP_append]

lemma countPre_append_space (word A B : List Char) :
    countPre word (A ++ ' ' :: B) = countPre word A + countPre word B := by
  rw [countPre, countPre, countPre, splitSpace_append_space B A,
    List.countP_append]

lemma hasSub_append_left (pat B : List Char) (h : hasSub pat B = true) :
    ∀ (A : List Char), hasSub pat (A ++ B) = true := by
  intro A
  induction A with
  | nil => exact h
  | cons a A ih =>
    rw [List.cons_append, hasSub, ih, Bool.or_true]

lemma hasSub_refl (l : List Char) : hasSub l l = true := by
  cases l with
  | nil => rfl
  | cons c r =>
    rw [hasSub]
    have hpre : (c :: r).isPrefixOf (c :: r) = true := by
      rw [List.isPrefixOf_iff_prefix]
    rw [hpre, Bool.true_or]

lemma hasSub_seam (pat NC : List Char) :
    hasSub pat (NC ++ ' ' :: pat) = true := by
  have h1 : hasSub pat (' ' :: pat) = true := by
    rw [hasSub, hasSub_refl, Bool.or_true]
  exact hasSub_append_left pat (' ' :: pat) h1 NC

lemma calcWMS_nil (T : List Char) : calculateWordMatchScore [] T = 0 := by
  rw [calcWMS_eq]
  apply List.sum_eq_zero
  intro x hx
  obtain ⟨word, hwmem, hwx⟩ := List.mem_map.mp hx
  rw [← hwx]
  split
  · rename_i hlen
    cases word with
    | nil => simp at hlen
    | cons a l =>
      have h1 : countTok (a :: l) [] = 0 := by
        simp [countTok, splitSpace]
      have h2 : countPre (a :: l) [] = 0 := by
        simp [countPre, splitSpace, List.isPrefixOf]
      rw [h1, h2]
      norm_num
  · rfl

lemma calcWMS_mono_append (A B T : List Char) :
    calculateWordMatchScore A T ≤
      calculateWordMatchScore (A ++ ' ' :: B) T := by
  rw [calcWMS_eq, calcWMS_eq]
  apply List.sum_le_sum
  intro word hwmem
  by_cases hlen : 2 ≤ word.length
  · rw [if_pos hlen, if_pos hlen, countTok_append_space,
      countPre_append_space]
    have h1 : (countTok word A : ℚ) ≤
        ((countTok word A + countTok word B : ℕ) : ℚ) := by
      exact_mod_cast Nat.le_add_right _ _
    have h2 : (countPre word A : ℚ) ≤
        ((countPre word A + countPre word B : ℕ) : ℚ) := by
      exact_mod_cast Nat.le_add_right _ _
    refine add_le_add ?_ ?_
    · exact mul_le_mul_of_nonneg_left h1 (by norm_num)
    · exact mul_le_mul_of_nonneg_left h2 (by norm_num)
  · rw [if_neg hlen, if_neg hlen]

lemma drop_takeWhile_length (p : Char → Bool) : ∀ (l : List Char),
    l.drop (l.takeWhile p).length = l.dropWhile p := by
  intro l
  induction l with
  | nil => rfl
  | cons c r ih =>
    rw [List.takeWhile_cons, List.dropWhile_cons]
    by_cases hc : p c = true
    · rw [if_pos hc, if_pos hc, List.length_cons, List.drop_succ_cons, ih]
    · rw [if_neg hc, if_neg hc, List.length_nil, List.drop_zero]

lemma takeWhile_append_stop (p : Char → Bool) (X : List Char) :
    ∀ (A : List Char) (d : Char) (ds : List Char), A.dropWhile p = d :: ds →
    (A ++ X).takeWhile p = A.takeWhile p := by
  intro A
  induction A with
  | nil => intro d ds h; simp at h
  | cons a A ih =>
    intro d ds h
    rw [List.dropWhile_cons] at h
    rw [List.cons_append, List.takeWhile_cons, List.takeWhile_cons]
    by_cases ha : p a = true
    · rw [if_pos ha] at h
      rw [if_pos ha, if_pos ha, ih d ds h]
    · rw [if_neg ha, if_neg ha]

lemma dropWhile_append_stop (p : Char → Bool) (X A : List Char) (d : Char)
    (ds : List Char) (h : A.dropWhile p = d :: ds) :
    (A ++ X).dropWhile p = (d :: ds) ++ X := by
  rw [List.dropWhile_append, h]
  simp

lemma indentAt_append (X A : List Char) (h : indentAt A = true) :
    indentAt (A ++ X) = true := by
  rw [indentAt] at h ⊢
  rw [drop_takeWhile_length] at h ⊢
  rw [Bool.and_eq_true] at h ⊢
  obtain ⟨h1, h2⟩ := h
  cases hd : A.dropWhile (fun c => c = ' ') with
  | nil => rw [hd] at h2; simp at h2
  | cons d ds =>
    constructor
    · rw [takeWhile_append_stop _ X A d ds hd]
      exact h1
    · rw [dropWhile_append_stop _ X A d ds hd]
      rw [hd] at h2
      simp only [List.cons_append, List.head?_cons] at h2 ⊢
      exact h2

lemma indentGo_append (X : List Char) : ∀ (cs : List Char) (b : Bool),
    indentGo b cs = true → indentGo b (cs ++ X) = true := by
  intro cs
  induction cs with
  | nil =>
    intro b h
    rw [indentGo] at h
    exact absurd h (by simp)
  | cons c rest ih =>
    intro b h
    rw [indentGo] at h
    rw [List.cons_append, indentGo]
    rw [Bool.or_eq_true] at h ⊢
    rcases h with h | h
    · rw [Bool.and_eq_true] at h
      left
      rw [Bool.and_eq_true]
      refine ⟨h.1, ?_⟩
      rw [← List.cons_append]
      exact indentAt_append X (c :: rest) h.2
    · exact Or.inr (ih (isLineTerm c) h)

lemma hdrSimpleAt_append (X A : List Char) (h : hdrSimpleAt A = true) :
    hdrSimpleAt (A ++ X) = true := by
  rw [hdrSimpleAt] at h ⊢
  rw [drop_takeWhile_length] at h ⊢
  rw [Bool.and_eq_true, Bool.and_eq_true] at h ⊢
  obtain ⟨⟨h1, h2⟩, h3⟩ := h
  cases hd : A.dropWhile (fun c => c = '#') with
  | nil => rw [hd] at h3; simp at h3
  | cons d ds =>
    refine ⟨⟨?_, ?_⟩, ?_⟩
    · rw [takeWhile_append_stop _ X A d ds hd]
      exact h1
    · rw [takeWhile_append_stop _ X A d ds hd]
      exact h2
    · rw [dropWhile_append_stop _ X A d ds hd]
      rw [hd] at h3
      simp only [List.cons_append, List.head?_cons] at h3 ⊢
      exact h3

lemma hasHeaderGo_append (X : List Char) : ∀ (cs : List Char) (b : Bool),
    hasHeaderGo b cs = true → hasHeaderGo b (cs ++ X) = true := by
  intro cs
  induction cs with
  | nil =>
    intro b h
    rw [hasHeaderGo] at h
    exact absurd h (by simp)
  | cons c rest ih =>
    intro b h
    rw [hasHeaderGo] at h
    rw [List.cons_append, hasHeaderGo]
    rw [Bool.or_eq_true] at h ⊢
    rcases h with h | h
    · rw [Bool.and_eq_true] at h
      left
      rw [Bool.and_eq_true]
      refine ⟨h.1, ?_⟩
      rw [← List.cons_append]
      exact hdrSimpleAt_append X (c :: rest) h.2
    · exact Or.inr (ih (isLineTerm c) h)

lemma hasHeaderTest_append (X A : List Char) (h : hasHeaderTest A = true) :
    hasHeaderTest (A ++ X) = true := by
  rw [hasHeaderTest] at h ⊢
  exact hasHeaderGo_append X A true h

lemma tripleAt_true_shape (c : Char) (rest : List Char)
    (h : tripleAt (c :: rest) = true) : ∃ b c2 t, rest = b :: c2 :: t := by
  cases rest with
  | nil => simp [tripleAt] at h
  | cons b r2 =>
    cases r2 with
    | nil => simp [tripleAt] at h
    | cons c2 t => exact ⟨b, c2, t, rfl⟩

lemma tripleAt_append (c b c2 : Char) (t X : List Char) :
    tripleAt (c :: b :: c2 :: t ++ X) = tripleAt (c :: b :: c2 :: t) := rfl

lemma findTriple_some_len : ∀ (l s : List Char),
    findTriple l = some s → 3 ≤ l.length := by
  intro l
  induction l with
  | nil => intro s h; simp [findTriple] at h
  | cons c rest ih =>
    intro s h
    rw [findTriple] at h
    split at h
    · rename_i ht
      obtain ⟨b, c2, t, rfl⟩ := tripleAt_true_shape c rest ht
      simp
    · have := ih s h
      simp only [List.length_cons]
      omega

lemma findTriple_append (X : List Char) : ∀ (cs s : List Char),
    findTriple cs = some s → findTriple (cs ++ X) = some (s ++ X) := by
  intro cs
  induction cs with
  | nil => intro s h; simp [findTriple] at h
  | cons c rest ih =>
    intro s h
    rw [findTriple] at h
    rw [List.cons_append, findTriple]
    split at h
    · rename_i ht
      obtain ⟨b, c2, t, rfl⟩ := tripleAt_true_shape c rest ht
      have hs : s = t := by
        have h2 := Option.some.inj h
        rw [← h2]
        rfl
      rw [if_pos]
      · rw [hs]
        rfl
      · show tripleAt (c :: b :: c2 :: (t ++ X)) = true
        exact (tripleAt_append c b c2 t X).trans ht
    · rename_i ht
      have hlen := findTriple_some_len rest s h
      obtain ⟨b, c2, t, rfl⟩ : ∃ b c2 t, rest = b :: c2 :: t := by
        cases rest with
        | nil => simp at hlen
        | cons b r2 =>
          cases r2 with
          | nil => simp at hlen
          | cons c2 t => exact ⟨b, c2, t, rfl⟩
      rw [if_neg]
      · exact ih s h
      · intro hcontra
        exact ht ((tripleAt_append c b c2 t X).symm.trans hcontra)

lemma codeBlockTest_append (A X : List Char)
    (h : codeBlockTest A = true) : codeBlockTest (A ++ X) = true := by
  rw [codeBlockTest] at h ⊢
  rw [Bool.or_eq_true] at h ⊢
  rcases h with h | h
  · left
    cases hf : findTriple A with
    | none => rw [hf] at h; simp at h
    | some s =>
      rw [hf] at h
      dsimp only at h
      cases hf2 : findTriple s with
      | none => rw [hf2] at h; simp at h
      | some u =>
        rw [findTriple_append X A s hf]
        dsimp only
        rw [findTriple_append X s u hf2]
        rfl
  · right
    exact indentGo_append X A true h

lemma applyBonuses_mono (C D : List Char) (s s2 : ℚ) (hs : 0 ≤ s)
    (hss : s ≤ s2)
    (hcode : codeBlockTest C = true → codeBlockTest D = true)
    (hhdr : hasHeaderTest C = true → hasHeaderTest D = true) :
    applyBonuses C s ≤ applyBonuses D s2 := by
  have hs2 : 0 ≤ s2 := le_trans hs hss
  rw [applyBonuses, applyBonuses, SCORE_codeBonus, SCORE_headerBonus]
  by_cases hc : codeBlockTest C = true
  · rw [if_pos hc, if_pos (hcode hc)]
    by_cases hh : hasHeaderTest C = true
    · rw [if_pos hh, if_pos (hhdr hh)]
      nlinarith
    · rw [if_neg hh]
      by_cases hh2 : hasHeaderTest D = true
      · rw [if_pos hh2]
        nlinarith
      · rw [if_neg hh2]
        nlinarith
  · rw [if_neg hc]
    by_cases hc2 : codeBlockTest D = true
    · rw [if_pos hc2]
      by_cases hh : hasHeaderTest C = true
      · rw [if_pos hh, if_pos (hhdr hh)]
        nlinarith
      · rw [if_neg hh]
        by_cases hh2 : hasHeaderTest D = true
        · rw [if_pos hh2]
          nlinarith
        · rw [if_neg hh2]
          nlinarith
    · rw [if_neg hc2]
      by_cases hh : hasHeaderTest C = true
      · rw [if_pos hh, if_pos (hhdr hh)]
        nlinarith
      · rw [if_neg hh]
        by_cases hh2 : hasHeaderTest D = true
        · rw [if_pos hh2]
          nlinarith
        · rw [if_neg hh2]
          nlinarith

lemma calcRel_single (chunk term : List Char) :
    calculateRelevanceScore chunk [term] =
      applyBonuses chunk
        (if (normalizeText term).isEmpty then 0
         else
          (if hasSub (normalizeText term) (normalizeText chunk) then
            0 + SCORE_exactMatch *
              ((splitSpace (normalizeText term)).length : ℚ)
          else 0) +
          calculateWordMatchScore (normalizeText chunk)
            (normalizeText term)) := by
  rw [calculateRelevanceScore]
  dsimp only
  rw [List.foldl_cons, List.foldl_nil]

lemma perTerm0_nonneg (NC term : List Char) :
    0 ≤ (if (normalizeText term).isEmpty then (0 : ℚ)
         else
          (if hasSub (normalizeText term) NC then
            0 + SCORE_exactMatch *
              ((splitSpace (normalizeText term)).length : ℚ)
          else 0) +
          calculateWordMatchScore NC (normalizeText term)) := by
  have h := perTerm_nonneg NC term
  simpa using h

/-- C5: score monotonicity in verbatim occurrences — appending a
whitespace character followed by the term itself to a chunk never
decreases the chunk relevance score for that single-term query. -/
theorem claim_C5 (C T : List Char) (w : Char) (hw : jsWs w = true) :
    calculateRelevanceScore C [T] ≤
      calculateRelevanceScore (C ++ w :: T) [T] := by
  rw [calcRel_single, calcRel_single]
  by_cases hT : (normalizeText T).isEmpty = true
  · rw [if_pos hT, if_pos hT, applyBonuses_zero, applyBonuses_zero]
  · rw [if_neg hT, if_neg hT]
    by_cases hC : normalizeText C = []
    · rw [hC, calcWMS_nil,
        show hasSub (normalizeText T) [] = (normalizeText T).isEmpty
          from rfl,
        if_neg hT, add_zero, applyBonuses_zero]
      have h := perTerm0_nonneg (normalizeText (C ++ w :: T)) T
      rw [if_neg hT] at h
      exact applyBonuses_nonneg _ _ h
    · have hTne : normalizeText T ≠ [] := by
        intro h0
        rw [h0] at hT
        exact hT rfl
      have hEq := normalizeText_append_ws C T w hw hC hTne
      rw [hEq]
      apply applyBonuses_mono
      · have h := perTerm0_nonneg (normalizeText C) T
        rw [if_neg hT] at h
        exact h
      · have hsub : hasSub (normalizeText T)
            (normalizeText C ++ ' ' :: normalizeText T) = true :=
          hasSub_seam _ _
        rw [hsub]
        by_cases hsubC :
            hasSub (normalizeText T) (normalizeText C) = true
        · rw [hsubC]
          exact add_le_add le_rfl (calcWMS_mono_append _ _ _)
        · rw [if_neg hsubC, if_pos rfl]
          have h1 := calcWMS_mono_append (normalizeText C)
            (normalizeText T) (normalizeText T)
          have h2 : (0 : ℚ) ≤ SCORE_exactMatch *
              ((splitSpace (normalizeText T)).length : ℚ) := by
            rw [SCORE_exactMatch]
            positivity
          linarith
      · exact fun hcb => codeBlockTest_append C (w :: T) hcb
      · exact fun hh => hasHeaderTest_append (w :: T) C hh

theorem claim_C5_witness :
    jsWs ' ' = true ∧
    calculateRelevanceScore [] [['h', 'i']] ≤
      calculateRelevanceScore ([] ++ ' ' :: ['h', 'i']) [['h', 'i']] :=
  ⟨by decide, claim_C5 [] ['h', 'i'] ' ' (by decide)⟩

end TDocs
